import Mathlib

/-!
# Buffered serial driver (`drv/ser.c`)

A shallow embedding of the buffered serial I/O driver.  The functions of
`drv/ser.c` are transcribed as state-passing functions over a `World` (the
port, `struct Serial`; the value of `timer_ticks()`; the log of the calls made
into the hardware back-end) and a schedule of `Poll`s, which says what the
notification handler does and what the tick counter becomes each time the
driver yields in a wait loop.  A function that waits consumes polls; its result
is `none` when the schedule ends while it is still waiting.
-/

namespace Ser

/-! ## Byte queue -/

/-- Modelled from the spec: the byte queue (`mware/fifobuf.h` is not among the
sources).  A fixed-capacity circular buffer: `storage` holds the `C` cells,
`rd` is the read cursor, `wr` the write cursor and `count` the number of bytes
currently held. -/
structure FIFOBuffer where
  storage : List Nat
  rd : Nat
  wr : Nat
  count : Nat
  deriving DecidableEq, Repr

/-- Modelled from the spec: capacity `C` of a queue, the size of its storage. -/
def fifo_cap (fb : FIFOBuffer) : Nat := fb.storage.length

/-- Modelled from the spec: `count == 0` iff empty. -/
def fifo_isempty (fb : FIFOBuffer) : Bool := fb.count == 0

/-- Modelled from the spec: `count == C` iff full. -/
def fifo_isfull (fb : FIFOBuffer) : Bool := fb.count == fifo_cap fb

/-- Modelled from the spec: `push(byte) -> bool` returns false without
modifying state if full; otherwise stores the byte at the write cursor,
advances it, increments count, returns true. -/
def fifo_push (fb : FIFOBuffer) (b : Nat) : Bool × FIFOBuffer :=
  if fifo_isfull fb then (false, fb)
  else (true, { fb with storage := fb.storage.set fb.wr b,
                        wr := (fb.wr + 1) % fifo_cap fb,
                        count := fb.count + 1 })

/-- Modelled from the spec: `pop() -> Option<byte>` returns "empty" without
modifying state if empty; otherwise reads the byte at the read cursor, advances
it, decrements count, returns the byte. -/
def fifo_pop (fb : FIFOBuffer) : Option Nat × FIFOBuffer :=
  if fifo_isempty fb then (none, fb)
  else (some (fb.storage.getD fb.rd 0),
        { fb with rd := (fb.rd + 1) % fifo_cap fb, count := fb.count - 1 })

/-- Modelled from the spec: `flush()` resets read/write cursors and count to
empty. -/
def fifo_flush (fb : FIFOBuffer) : FIFOBuffer :=
  { fb with rd := 0, wr := 0, count := 0 }

/-- Modelled from the spec: a queue as created by `fifo_init` over a buffer of
`size` cells: empty, both cursors at the start. -/
def fifo_init (size : Nat) : FIFOBuffer :=
  { storage := List.replicate size 0, rd := 0, wr := 0, count := 0 }

/-- The bytes held by a queue, oldest first: the `count` cells starting at the
read cursor, wrapping around the storage. -/
def fifo_contents (fb : FIFOBuffer) : List Nat :=
  (List.range fb.count).map (fun i => fb.storage.getD ((fb.rd + i) % fifo_cap fb) 0)

/-- Representation invariant of a queue (spec, data model): `0 ≤ count ≤ C`,
the cursors are inside the storage, the write cursor is `count` cells after the
read cursor, and every cell holds a byte. -/
def fifo_wf (fb : FIFOBuffer) : Prop :=
  0 < fifo_cap fb ∧ fb.count ≤ fifo_cap fb ∧ fb.rd < fifo_cap fb ∧
  fb.wr = (fb.rd + fb.count) % fifo_cap fb ∧ ∀ b ∈ fb.storage, b < 256

instance (fb : FIFOBuffer) : Decidable (fifo_wf fb) := by
  unfold fifo_wf; exact inferInstance

/-! ## Port state and environment -/

/-- Build configuration and the constants of `ser.h` / `drv/timer.h`, which are
not among the sources: whether `CONFIG_SER_TXTIMEOUT != -1` and
`CONFIG_SER_RXTIMEOUT != -1`, the status flag masks, the width in bits of the
unsigned tick type `time_t`, and the `INT_MAX` of the target; then what
`ser_open` and `ser_close` use: whether the build is a debug build (`ASSERT`
and `DB` are active), the sizes of `rxbuffer` and `txbuffer`, the values of
`CONFIG_SER_RXTIMEOUT` and `CONFIG_SER_TXTIMEOUT`, and `CONFIG_SER_DEFBAUDRATE`
(zero when there is none). -/
structure Config where
  txtimeout_enabled : Bool
  rxtimeout_enabled : Bool
  SERRF_TXTIMEOUT : Nat
  SERRF_RXTIMEOUT : Nat
  SERRF_RXFIFOOVERRUN : Nat
  time_bits : Nat
  INT_MAX : Nat
  debug : Bool
  rxbuffer_size : Nat
  txbuffer_size : Nat
  CONFIG_SER_RXTIMEOUT : Int
  CONFIG_SER_TXTIMEOUT : Int
  CONFIG_SER_DEFBAUDRATE : Nat
  deriving DecidableEq, Repr

/-- The `EOF` of the C library, as used by `ser.c` (`ser_gets_echo` returns the
literal `-1` for it). -/
def EOF : Int := -1

/-- A call made through `port->hw->table`, with the descriptor it was made on
(`none` is the NULL descriptor of a closed port). -/
inductive HwCall where
  | init (hw : Option Nat)
  | cleanup (hw : Option Nat)
  | enabletxirq (hw : Option Nat)
  | setbaudrate (hw : Option Nat) (rate : Nat)
  | setparity (hw : Option Nat) (parity : Int)
  deriving DecidableEq, Repr

/-- Fields of `struct Serial` that `ser.c` uses. -/
structure Serial where
  rxfifo : FIFOBuffer
  txfifo : FIFOBuffer
  status : Nat
  rxtimeout : Nat
  txtimeout : Nat
  unit : Nat
  is_open : Bool
  hw : Option Nat
  deriving DecidableEq, Repr

/-- Modelled from the spec: the two entry points of the notification handler
(the hardware back-ends are not among the sources): a received byte, and a
transmit-ready notification. -/
inductive IsrEvent where
  | rxByte (b : Nat)
  | txReady
  deriving DecidableEq, Repr

/-- What happens while the driver gives up the processor once (one
`proc_switch()`, or one turn of a busy-wait loop): the notifications served
meanwhile, and the value `timer_ticks()` has afterwards. -/
structure Poll where
  now : Nat
  events : List IsrEvent
  deriving DecidableEq, Repr

/-- The state the driver runs in: the port, the current value of
`timer_ticks()`, and the calls made so far into the hardware back-end. -/
structure World where
  port : Serial
  now : Nat
  hwlog : List HwCall
  deriving DecidableEq, Repr

/-- Modelled from the spec: the notification handler.  Receive-data-available
pushes the byte into the rx queue, or sets the receive-overrun flag and
discards the byte when the rx queue is full; transmit-ready pops the next byte
from the tx queue (nothing to do when it is empty). -/
def isr_event (cfg : Config) (port : Serial) : IsrEvent → Serial
  | .rxByte b =>
    if fifo_isfull port.rxfifo then
      { port with status := port.status ||| cfg.SERRF_RXFIFOOVERRUN }
    else
      { port with rxfifo := (fifo_push port.rxfifo (b % 256)).2 }
  | .txReady => { port with txfifo := (fifo_pop port.txfifo).2 }

/-- One yield of the driver: the notifications of the poll are served in order
and the tick counter takes its new value. -/
def proc_switch (cfg : Config) (w : World) (p : Poll) : World :=
  { w with port := p.events.foldl (isr_event cfg) w.port, now := p.now }

/-- The state after a sequence of yields. -/
def run_polls (cfg : Config) (w : World) (ps : List Poll) : World :=
  ps.foldl (proc_switch cfg) w

/-- The C expression `timer_ticks() - start_time` on the unsigned tick type of
`time_bits` bits. -/
def tick_diff (cfg : Config) (now start_time : Nat) : Nat :=
  (now % 2 ^ cfg.time_bits + (2 ^ cfg.time_bits - start_time % 2 ^ cfg.time_bits))
    % 2 ^ cfg.time_bits

/-- Modelled from the spec: `ser_setstatus(port, x)` of `ser.h` stores `x` in
`port->status` (the explicit status reset is `ser_setstatus(port, 0)`). -/
def ser_setstatus (w : World) (x : Nat) : World :=
  { w with port := { w.port with status := x } }

/-- The statement `port->status |= flag`. -/
def raise_flag (w : World) (flag : Nat) : World :=
  { w with port := { w.port with status := w.port.status ||| flag } }

/-- The state after `fifo_pop(&port->rxfifo)`. -/
def rx_popped (w : World) : World :=
  { w with port := { w.port with rxfifo := (fifo_pop w.port.rxfifo).2 } }

/-! ## The driver (`drv/ser.c`) -/

/-- The `do ... while (fifo_isfull_locked(&port->txfifo))` loop of
`ser_putchar`.  Each turn takes one poll of the schedule; the result is `none`
when the schedule ends while the loop is still waiting, `some (false, ..)` when
the loop left through the timeout `return EOF`, and `some (true, ..)` when it
left because room appeared. -/
def ser_putchar_wait (cfg : Config) (start_time : Nat) (w : World) :
    List Poll → Option (Bool × World × List Poll)
  | [] => none
  | p :: ps =>
    let w1 := proc_switch cfg w p
    if cfg.txtimeout_enabled && decide (tick_diff cfg w1.now start_time ≥ w1.port.txtimeout) then
      some (false, { w1 with port := { w1.port with
        status := w1.port.status ||| cfg.SERRF_TXTIMEOUT } }, ps)
    else if fifo_isfull w1.port.txfifo then ser_putchar_wait cfg start_time w1 ps
    else some (true, w1, ps)

/-- `int ser_putchar(int c, struct Serial *port)`. -/
def ser_putchar (cfg : Config) (c : Int) (w : World) (polls : List Poll) :
    Option (Int × World × List Poll) :=
  let waited :=
    if fifo_isfull w.port.txfifo then ser_putchar_wait cfg w.now w polls
    else some (true, w, polls)
  match waited with
  | none => none
  | some (false, w1, ps) => some (EOF, w1, ps)
  | some (true, w1, ps) =>
    let uc : Nat := (c % 256).toNat
    some ((uc : Int),
      { w1 with port := { w1.port with txfifo := (fifo_push w1.port.txfifo uc).2 },
                hwlog := w1.hwlog ++ [HwCall.enabletxirq w1.port.hw] },
      ps)

/-- The `do ... while (fifo_isempty_locked(&port->rxfifo))` loop of
`ser_getchar`, with the same conventions as `ser_putchar_wait`. -/
def ser_getchar_wait (cfg : Config) (start_time : Nat) (w : World) :
    List Poll → Option (Bool × World × List Poll)
  | [] => none
  | p :: ps =>
    let w1 := proc_switch cfg w p
    if cfg.rxtimeout_enabled && decide (tick_diff cfg w1.now start_time ≥ w1.port.rxtimeout) then
      some (false, { w1 with port := { w1.port with
        status := w1.port.status ||| cfg.SERRF_RXTIMEOUT } }, ps)
    else if fifo_isempty w1.port.rxfifo then ser_getchar_wait cfg start_time w1 ps
    else some (true, w1, ps)

/-- `int ser_getchar(struct Serial *port)`. -/
def ser_getchar (cfg : Config) (w : World) (polls : List Poll) :
    Option (Int × World × List Poll) :=
  let waited :=
    if fifo_isempty w.port.rxfifo then ser_getchar_wait cfg w.now w polls
    else some (true, w, polls)
  match waited with
  | none => none
  | some (false, w1, ps) => some (EOF, w1, ps)
  | some (true, w1, ps) =>
    let popped := fifo_pop w1.port.rxfifo
    let result : Int := ((popped.1.getD 0 % 256 : Nat) : Int)
    some (if w1.port.status ≠ 0 then EOF else result,
      { w1 with port := { w1.port with rxfifo := popped.2 } }, ps)

/-- `int ser_getchar_nowait(struct Serial *port)`. -/
def ser_getchar_nowait (w : World) : Int × World :=
  if fifo_isempty w.port.rxfifo then (EOF, w)
  else
    let popped := fifo_pop w.port.rxfifo
    (((popped.1.getD 0 % 256 : Nat) : Int),
      { w with port := { w.port with rxfifo := popped.2 } })

/-- `int ser_print(struct Serial *port, const char *s)`.  The string is the
list of its characters; the loop stops at the first NUL (the end of the list
stands for the terminating NUL). -/
def ser_print (cfg : Config) : List Int → World → List Poll → Option (Int × World × List Poll)
  | [], w, polls => some (0, w, polls)
  | c :: s, w, polls =>
    if c = 0 then some (0, w, polls)
    else
      match ser_putchar cfg c w polls with
      | none => none
      | some (r, w1, ps1) =>
        if r = EOF then some (EOF, w1, ps1) else ser_print cfg s w1 ps1

/-- The memory behind a `char *buf`: the byte held at each offset from the
pointer.  No bound is attached to it, as in C. -/
abbrev Buf := Nat → Nat

/-- The assignment `buf[i] = c`: the cell keeps the low eight bits of `c`. -/
def buf_store (buf : Buf) (i : Nat) (c : Int) : Buf :=
  Function.update buf i (c % 256).toNat

/-- The `for (;;)` loop of `ser_gets_echo`, entered with the current value of
`i`.  `fuel` bounds the number of turns (the loop makes at most `size` of
them, see `ser_gets_echo_loop_fuel`); `none` is also the result when a call
that waits exhausts the schedule.  The counter `i` is taken in its
mathematical value (it never exceeds `size - 1` for `size ≥ 1`). -/
def ser_gets_echo_loop (cfg : Config) (size : Int) (echo : Bool) :
    Nat → Nat → Buf → World → List Poll → Option (Int × World × List Poll × Buf)
  | 0, _, _, _, _ => none
  | fuel + 1, i, buf, w, polls =>
    match ser_getchar cfg w polls with
    | none => none
    | some (c, w1, ps1) =>
      if c = EOF then some (-1, w1, ps1, buf_store buf i 0)
      else if c = 13 ∨ c = 10 ∨ (i : Int) ≥ size - 1 then
        if echo then
          match ser_print cfg [13, 10] w1 ps1 with
          | none => none
          | some (_, w2, ps2) => some ((i : Int), w2, ps2, buf_store buf i 0)
        else some ((i : Int), w1, ps1, buf_store buf i 0)
      else
        if echo then
          match ser_putchar cfg c w1 ps1 with
          | none => none
          | some (_, w2, ps2) =>
            ser_gets_echo_loop cfg size echo fuel (i + 1) (buf_store buf i c) w2 ps2
        else ser_gets_echo_loop cfg size echo fuel (i + 1) (buf_store buf i c) w1 ps1

/-- `int ser_gets_echo(struct Serial *port, char *buf, int size, bool echo)`. -/
def ser_gets_echo (cfg : Config) (w : World) (polls : List Poll) (buf : Buf) (size : Int)
    (echo : Bool) : Option (Int × World × List Poll × Buf) :=
  ser_gets_echo_loop cfg size echo (size.toNat + 1) 0 buf w polls

/-- `int ser_gets(struct Serial *port, char *buf, int size)`. -/
def ser_gets (cfg : Config) (w : World) (polls : List Poll) (buf : Buf) (size : Int) :
    Option (Int × World × List Poll × Buf) :=
  ser_gets_echo cfg w polls buf size false

/-- The conversion of a `size_t` value to `int` made by `return i` in
`ser_read`: the value is reduced to the two's complement range of `int`. -/
def size_to_int (cfg : Config) (i : Nat) : Int :=
  if i % (2 * (cfg.INT_MAX + 1)) ≤ cfg.INT_MAX then ((i % (2 * (cfg.INT_MAX + 1)) : Nat) : Int)
  else ((i % (2 * (cfg.INT_MAX + 1)) : Nat) : Int) - ((2 * (cfg.INT_MAX + 1) : Nat) : Int)

/-- The `while (i < size)` loop of `ser_read`, entered with the current value
of `i` and `n = size - i` turns to go. -/
def ser_read_loop (cfg : Config) :
    Nat → Nat → Buf → World → List Poll → Option (Int × World × List Poll × Buf)
  | 0, i, buf, w, polls => some (size_to_int cfg i, w, polls, buf)
  | n + 1, i, buf, w, polls =>
    match ser_getchar cfg w polls with
    | none => none
    | some (c, w1, ps1) =>
      if c = EOF then some (EOF, w1, ps1, buf)
      else ser_read_loop cfg n (i + 1) (buf_store buf i c) w1 ps1

/-- `int ser_read(struct Serial *port, char *buf, size_t size)`. -/
def ser_read (cfg : Config) (w : World) (polls : List Poll) (buf : Buf) (size : Nat) :
    Option (Int × World × List Poll × Buf) :=
  ser_read_loop cfg size 0 buf w polls

/-- `int ser_write(struct Serial *port, const void *_buf, size_t len)`.  The
list holds the `len` characters found at `_buf`. -/
def ser_write (cfg : Config) : List Int → World → List Poll → Option (Int × World × List Poll)
  | [], w, polls => some (0, w, polls)
  | c :: buf, w, polls =>
    match ser_putchar cfg c w polls with
    | none => none
    | some (r, w1, ps1) =>
      if r = EOF then some (EOF, w1, ps1) else ser_write cfg buf w1 ps1

/-- Modelled from the spec: `_formatted_write` (`mware/formatwr.c` is not among
the sources) renders the format one character at a time through the callback
it is given, here `ser_putchar`, and returns the count of characters emitted,
or `EOF` on the first write failure, after which nothing more is emitted.  The
rendering of the format and its arguments is not modelled: the rendered
characters are given. -/
def formatted_write (cfg : Config) :
    List Int → World → List Poll → Option (Int × World × List Poll)
  | [], w, polls => some (0, w, polls)
  | c :: cs, w, polls =>
    match ser_putchar cfg c w polls with
    | none => none
    | some (r, w1, ps1) =>
      if r = EOF then some (EOF, w1, ps1)
      else
        match formatted_write cfg cs w1 ps1 with
        | none => none
        | some (len, w2, ps2) => some (if len = EOF then EOF else len + 1, w2, ps2)

/-- `int ser_printf(struct Serial *port, const char *format, ...)`, on the
characters the format and its arguments render to. -/
def ser_printf (cfg : Config) (rendered : List Int) (w : World) (polls : List Poll) :
    Option (Int × World × List Poll) :=
  formatted_write cfg rendered (ser_setstatus w 0) polls

/-- `void ser_settimeouts(struct Serial *port, time_t rxtimeout, time_t txtimeout)`. -/
def ser_settimeouts (w : World) (rxtimeout txtimeout : Nat) : World :=
  { w with port := { w.port with rxtimeout := rxtimeout, txtimeout := txtimeout } }

/-- `void ser_setbaudrate(struct Serial *port, unsigned long rate)`. -/
def ser_setbaudrate (w : World) (rate : Nat) : World :=
  { w with hwlog := w.hwlog ++ [HwCall.setbaudrate w.port.hw rate] }

/-- `void ser_setparity(struct Serial *port, int parity)`. -/
def ser_setparity (w : World) (parity : Int) : World :=
  { w with hwlog := w.hwlog ++ [HwCall.setparity w.port.hw parity] }

/-- `void ser_purge(struct Serial *ser)`. -/
def ser_purge (w : World) : World :=
  { w with port := { w.port with rxfifo := fifo_flush w.port.rxfifo,
                                 txfifo := fifo_flush w.port.txfifo } }

/-- `void ser_drain(struct Serial *ser)`: each turn of the loop takes one poll
of the schedule; the result is `none` when the schedule ends while the tx queue
still holds bytes. -/
def ser_drain (cfg : Config) (w : World) : List Poll → Option (World × List Poll)
  | [] => if fifo_isempty w.port.txfifo then some (w, []) else none
  | p :: ps =>
    if fifo_isempty w.port.txfifo then some (w, p :: ps)
    else ser_drain cfg (proc_switch cfg w p) ps

/-- The global state of the driver: the array `ser_handles[SER_CNT]`, the
value of `timer_ticks()` and the calls made so far into the back-ends. -/
structure Driver where
  ser_handles : List Serial
  now : Nat
  hwlog : List HwCall
  deriving DecidableEq, Repr

/-- A `struct Serial` of the zero-initialised static array. -/
def serial_zero : Serial :=
  { rxfifo := { storage := [], rd := 0, wr := 0, count := 0 },
    txfifo := { storage := [], rd := 0, wr := 0, count := 0 },
    status := 0, rxtimeout := 0, txtimeout := 0, unit := 0, is_open := false, hw := none }

/-- The driver at start-up: `SER_CNT` zeroed handles, all closed. -/
def driver_init (ser_cnt now : Nat) : Driver :=
  { ser_handles := List.replicate ser_cnt serial_zero, now := now, hwlog := [] }

/-- The world seen through the pointer `&ser_handles[h]`. -/
def driver_world (d : Driver) (h : Nat) : World :=
  { port := d.ser_handles.getD h serial_zero, now := d.now, hwlog := d.hwlog }

/-- The driver after the port `ser_handles[h]` has been operated on. -/
def driver_store (d : Driver) (h : Nat) (w : World) : Driver :=
  { ser_handles := d.ser_handles.set h w.port, now := w.now, hwlog := w.hwlog }

/-- `struct Serial *ser_open(unsigned int unit)`.  The handle returned is the
index of the port in `ser_handles`.  The result is `none` when an assertion of
a debug build fails, or when `unit` is outside the array.  The descriptor given
by `ser_hw_getdesc(unit)` is the unit number; the back-end's `init` is logged. -/
def ser_open (cfg : Config) (d : Driver) (unit : Nat) : Option (Nat × Driver) :=
  if unit < d.ser_handles.length then
    let w := driver_world d unit
    if cfg.debug && w.port.is_open then none
    else
      let w1 : World := { w with port := { w.port with
        is_open := if cfg.debug then true else w.port.is_open } }
      let w2 : World := { w1 with port := { w1.port with unit := unit } }
      let w3 : World := { w2 with port := { w2.port with
        rxfifo := fifo_init cfg.rxbuffer_size, txfifo := fifo_init cfg.txbuffer_size } }
      let w4 : World := { w3 with port := { w3.port with hw := some unit } }
      let w5 : World := { w4 with hwlog := w4.hwlog ++ [HwCall.init w4.port.hw] }
      let w6 : World :=
        if cfg.rxtimeout_enabled || cfg.txtimeout_enabled then
          ser_settimeouts w5 (cfg.CONFIG_SER_RXTIMEOUT % 2 ^ cfg.time_bits).toNat
            (cfg.CONFIG_SER_TXTIMEOUT % 2 ^ cfg.time_bits).toNat
        else w5
      let w7 : World :=
        if cfg.CONFIG_SER_DEFBAUDRATE ≠ 0 then ser_setbaudrate w6 cfg.CONFIG_SER_DEFBAUDRATE
        else w6
      some (unit, driver_store d unit w7)
  else none

/-- `void ser_close(struct Serial *port)`, the port being `ser_handles[h]`.
The result is `none` when the assertion of a debug build fails, when
`port->hw` is NULL (the call `port->hw->table->cleanup(port->hw)` then reads
through a null pointer), or when `h` is outside the array. -/
def ser_close (cfg : Config) (d : Driver) (h : Nat) : Option Driver :=
  if h < d.ser_handles.length then
    let w := driver_world d h
    if cfg.debug && !w.port.is_open then none
    else
      let w1 : World := { w with port := { w.port with
        is_open := if cfg.debug then false else w.port.is_open } }
      match w1.port.hw with
      | none => none
      | some hw =>
        let w2 : World := { w1 with hwlog := w1.hwlog ++ [HwCall.cleanup (some hw)] }
        let w3 : World := { w2 with port := { w2.port with hw := none } }
        some (driver_store d h w3)
  else none

/-- Modelled from the spec: a loopback back-end serving one byte: the
transmit-ready notification takes the next byte of the tx queue and the
receive notification pushes it into the rx queue. -/
def loopback_byte (cfg : Config) (w : World) : World :=
  match (fifo_pop w.port.txfifo).1 with
  | none => w
  | some b =>
    { w with port := isr_event cfg (isr_event cfg w.port IsrEvent.txReady) (IsrEvent.rxByte b) }

/-- Modelled from the spec: the loopback back-end moving `n` bytes. -/
def loopback (cfg : Config) : Nat → World → World
  | 0, w => w
  | n + 1, w => loopback cfg n (loopback_byte cfg w)

/-! ## Reference behaviour for the block operations -/

/-- The buffer after the assignments `buf[i] = c0`, `buf[i+1] = c1`, ... -/
def write_bytes (buf : Buf) : Nat → List Int → Buf
  | _, [] => buf
  | i, c :: cs => write_bytes (buf_store buf i c) (i + 1) cs

/-- At most `n` consecutive calls of `ser_getchar`, stopping after the first
one that returns `EOF`: the values obtained before it, whether all `n` calls
succeeded, and the state left by the last call made. -/
def ser_getchar_calls (cfg : Config) :
    Nat → World → List Poll → Option (List Int × Bool × World × List Poll)
  | 0, w, polls => some ([], true, w, polls)
  | n + 1, w, polls =>
    match ser_getchar cfg w polls with
    | none => none
    | some (c, w1, ps1) =>
      if c = EOF then some ([], false, w1, ps1)
      else
        match ser_getchar_calls cfg n w1 ps1 with
        | none => none
        | some (cs, ok, w2, ps2) => some (c :: cs, ok, w2, ps2)

/-- The bytes accepted by the loop of `ser_gets_echo`, in order: the values
`c` of the turns that reach `buf[i++] = c`. -/
def ser_gets_echo_accepted (cfg : Config) (size : Int) (echo : Bool) :
    Nat → Nat → World → List Poll → List Int
  | 0, _, _, _ => []
  | fuel + 1, i, w, polls =>
    match ser_getchar cfg w polls with
    | none => []
    | some (c, w1, ps1) =>
      if c = EOF then []
      else if c = 13 ∨ c = 10 ∨ (i : Int) ≥ size - 1 then []
      else
        if echo then
          match ser_putchar cfg c w1 ps1 with
          | none => []
          | some (_, w2, ps2) => c :: ser_gets_echo_accepted cfg size echo fuel (i + 1) w2 ps2
        else c :: ser_gets_echo_accepted cfg size echo fuel (i + 1) w1 ps1

/-- The value on which the loop of `ser_gets_echo` stops: the result `c` of
the `ser_getchar` of the turn that leaves the loop (`EOF`, a line end, or the
byte read once `size - 1` bytes are stored). -/
def ser_gets_echo_stop (cfg : Config) (size : Int) (echo : Bool) :
    Nat → Nat → World → List Poll → Option Int
  | 0, _, _, _ => none
  | fuel + 1, i, w, polls =>
    match ser_getchar cfg w polls with
    | none => none
    | some (c, w1, ps1) =>
      if c = EOF then some c
      else if c = 13 ∨ c = 10 ∨ (i : Int) ≥ size - 1 then some c
      else
        if echo then
          match ser_putchar cfg c w1 ps1 with
          | none => none
          | some (_, w2, ps2) => ser_gets_echo_stop cfg size echo fuel (i + 1) w2 ps2
        else ser_gets_echo_stop cfg size echo fuel (i + 1) w1 ps1

/-- The longest prefix of the input that precedes the first CR or LF. -/
def line_before_eol (input : List Nat) : List Nat :=
  input.takeWhile (fun b => b != 13 && b != 10)

/-- Every status bit set in `before` is set in `after`. -/
def flags_kept (before after : Nat) : Prop := before &&& after = before

instance (a b : Nat) : Decidable (flags_kept a b) := by
  unfold flags_kept; exact inferInstance

/-- `n` consecutive calls of `ser_getchar`, whatever they return: the values
returned and the state left. -/
def ser_getchar_repeat (cfg : Config) :
    Nat → World → List Poll → Option (List Int × World × List Poll)
  | 0, w, polls => some ([], w, polls)
  | n + 1, w, polls =>
    match ser_getchar cfg w polls with
    | none => none
    | some (c, w1, ps1) =>
      match ser_getchar_repeat cfg n w1 ps1 with
      | none => none
      | some (cs, w2, ps2) => some (c :: cs, w2, ps2)

/-! ## Hypotheses on the environment -/

/-- The tx queue is found full after each yield of the schedule. -/
def tx_stays_full (cfg : Config) (w : World) : List Poll → Prop
  | [] => True
  | p :: ps =>
    fifo_isfull (proc_switch cfg w p).port.txfifo = true ∧
      tx_stays_full cfg (proc_switch cfg w p) ps

/-- The rx queue is found empty after each yield of the schedule. -/
def rx_stays_empty (cfg : Config) (w : World) : List Poll → Prop
  | [] => True
  | p :: ps =>
    fifo_isempty (proc_switch cfg w p).port.rxfifo = true ∧
      rx_stays_empty cfg (proc_switch cfg w p) ps

/-- A non-decreasing tick source that does not wrap: from the value `start` on,
the readings of the schedule never decrease and fit the tick type. -/
def ticks_monotone (cfg : Config) (start : Nat) (polls : List Poll) : Prop :=
  List.Pairwise (fun a b => a ≤ b) (start :: polls.map Poll.now) ∧
    ∀ p ∈ polls, p.now < 2 ^ cfg.time_bits

instance (cfg : Config) (w : World) (ps : List Poll) : Decidable (tx_stays_full cfg w ps) := by
  induction ps generalizing w with
  | nil => exact isTrue trivial
  | cons p ps ih => unfold tx_stays_full; exact inferInstance

instance (cfg : Config) (w : World) (ps : List Poll) : Decidable (rx_stays_empty cfg w ps) := by
  induction ps generalizing w with
  | nil => exact isTrue trivial
  | cons p ps ih => unfold rx_stays_empty; exact inferInstance

instance (cfg : Config) (start : Nat) (ps : List Poll) : Decidable (ticks_monotone cfg start ps) := by
  unfold ticks_monotone; exact inferInstance

/-! ## Sample states -/

/-- A configuration with both timeouts compiled in and 32-bit ticks. -/
def sample_cfg : Config :=
  { txtimeout_enabled := true, rxtimeout_enabled := true,
    SERRF_TXTIMEOUT := 4, SERRF_RXTIMEOUT := 2, SERRF_RXFIFOOVERRUN := 1, time_bits := 32,
    INT_MAX := 32767, debug := true, rxbuffer_size := 8, txbuffer_size := 8,
    CONFIG_SER_RXTIMEOUT := 5, CONFIG_SER_TXTIMEOUT := 5, CONFIG_SER_DEFBAUDRATE := 9600 }

/-- A port of the given queues, status and timeouts, on unit 0. -/
def sample_port (rx tx : FIFOBuffer) (status rxtimeout txtimeout : Nat) : Serial :=
  { rxfifo := rx, txfifo := tx, status := status, rxtimeout := rxtimeout,
    txtimeout := txtimeout, unit := 0, is_open := true, hw := some 0 }

/-- An eight-cell queue holding `h`, `i`, CR, LF. -/
def sample_line : FIFOBuffer :=
  { storage := [104, 105, 13, 10, 0, 0, 0, 0], rd := 0, wr := 4, count := 4 }

/-- A full two-cell queue. -/
def sample_full : FIFOBuffer :=
  { storage := [1, 2], rd := 1, wr := 1, count := 2 }

/-- An eight-cell queue holding the given bytes (at most eight). -/
def sample_queue (bytes : List Nat) : FIFOBuffer :=
  { storage := bytes ++ List.replicate (8 - bytes.length) 0, rd := 0,
    wr := bytes.length % 8, count := bytes.length }

/-- A world at tick 100 with an empty back-end log. -/
def sample_world (port : Serial) : World :=
  { port := port, now := 100, hwlog := [] }

end Ser

/-!
# Seven-segment display (`bertos/drv/led_7seg.c`)

A shallow embedding of the text side of the display driver: the translation of
a string into segment patterns by `sevenseg_print`.
-/

namespace Led7Seg

/-- Build configuration and what `drv/led_7seg.h` and `hw/hw_led_7seg.h`
declare, none of which is among the sources: the number of digits, the size of
`SevenSeg::string`, whether the display is common cathode, the table
`segstable`, the segment masks with the macro `SET_SEGMENT`, and two
properties of the target: the size of a pointer (`sizeof(&sstring)`) and the
width in bits of `size_t`; then the start-up speed `CONFIG_LED_7SEG_SSPEED`
and the width in bits of `unsigned int`. -/
structure LedConfig where
  CONFIG_LED_7SEG_DIGIT : Nat
  CONFIG_LED_7SEG_STRLEN : Nat
  CONFIG_LED_7SEG_CCAT : Bool
  segstable : List Nat
  SEGMENT_EMPTY : Nat
  SEGMENT_A : Nat
  SEGMENT_B : Nat
  SEGMENT_C : Nat
  SEGMENT_D : Nat
  SEGMENT_E : Nat
  SEGMENT_F : Nat
  SEGMENT_G : Nat
  SEGMENT_P : Nat
  SET_SEGMENT : Nat → Nat → Nat
  pointer_size : Nat
  size_bits : Nat
  CONFIG_LED_7SEG_SSPEED : Nat
  uint_bits : Nat

/-- Fields of the `SevenSeg` structure.  `string` is the memory from the start
of the array `string[CONFIG_LED_7SEG_STRLEN]` on, with no bound attached, as in
C. -/
structure SevenSeg where
  busyedit : Bool
  string : Nat → Nat
  string_len : Nat
  blink : Bool
  bdigit : Nat
  runonce : Bool
  curdigit : Nat
  curpos : Nat
  speed : Nat
  curspeed : Nat
  firstrun : Bool

/-- Conversion of an `int` value to `size_t`. -/
def to_size (cfg : LedConfig) (v : Int) : Nat := (v % 2 ^ cfg.size_bits).toNat

/-- Conversion of a value to `unsigned int`. -/
def to_uint (cfg : LedConfig) (v : Int) : Nat := (v % 2 ^ cfg.uint_bits).toNat

/-- Subtraction of two `unsigned int` values. -/
def uint_sub (cfg : LedConfig) (a b : Nat) : Nat :=
  to_uint cfg ((a : Int) - (b : Int))

/-- Subtraction of two `size_t` values. -/
def size_sub (cfg : LedConfig) (a b : Nat) : Nat :=
  to_size cfg ((a : Int) - (b : Int))

/-- The character `sstring[x]`; the memory from the pointer on is the list. -/
def char_at (sstring : List Int) (x : Nat) : Int := sstring.getD x 0

/-- `strlen(sstring)`: the index of the first NUL, if the memory has one. -/
def strlen : List Int → Option Nat
  | [] => none
  | c :: cs => if c = 0 then some 0 else (strlen cs).map (fun n => n + 1)

/-- `uint8_t sseg_tabcheck(char source)`. -/
def sseg_tabcheck (source : Int) : Nat :=
  if source > 47 ∧ source < 58 then (source - 48).toNat
  else if source > 64 ∧ source < 91 then (source - 53).toNat
  else if source > 96 ∧ source < 123 then (source - 85).toNat
  else if source = 45 then 11
  else if source = 32 then 38
  else if source = 46 then 10
  else 38

/-- One turn of the `switch` of `sseg_digitbuild`. -/
def sseg_digitbuild_char (cfg : LedConfig) (graphdigit : Nat) (c : Int) : Nat :=
  if c = 65 ∨ c = 97 then cfg.SET_SEGMENT graphdigit cfg.SEGMENT_A
  else if c = 66 ∨ c = 98 then cfg.SET_SEGMENT graphdigit cfg.SEGMENT_B
  else if c = 67 ∨ c = 99 then cfg.SET_SEGMENT graphdigit cfg.SEGMENT_C
  else if c = 68 ∨ c = 100 then cfg.SET_SEGMENT graphdigit cfg.SEGMENT_D
  else if c = 69 ∨ c = 101 then cfg.SET_SEGMENT graphdigit cfg.SEGMENT_E
  else if c = 70 ∨ c = 102 then cfg.SET_SEGMENT graphdigit cfg.SEGMENT_F
  else if c = 71 ∨ c = 103 then cfg.SET_SEGMENT graphdigit cfg.SEGMENT_G
  else if c = 80 ∨ c = 112 then cfg.SET_SEGMENT graphdigit cfg.SEGMENT_P
  else graphdigit

/-- `uint8_t sseg_digitbuild(const char *gstring, size_t start, size_t stop)`:
the characters `gstring[start..stop]` are taken in order. -/
def sseg_digitbuild (cfg : LedConfig) (gstring : List Int) (start stop : Nat) : Nat :=
  ((gstring.drop start).take (stop + 1 - start)).foldl (sseg_digitbuild_char cfg)
    cfg.SEGMENT_EMPTY

/-- The assignment `SS->string[i] = v`. -/
def string_store (SS : SevenSeg) (i v : Nat) : SevenSeg :=
  { SS with string := Function.update SS.string i v }

/-- The loop `for (x = 0; x < n; x++) SS->string[y + x] = segstable[38]`, which
fills `n` positions with the space pattern from position `y` on. -/
def fill_blanks (cfg : LedConfig) : Nat → Nat → SevenSeg → SevenSeg
  | 0, _, SS => SS
  | n + 1, y, SS => fill_blanks cfg n (y + 1) (string_store SS y (cfg.segstable.getD 38 0))

/-- The inner `while ((sstring[x] != '>') & (x < string_lenght))` of the
counting loop, entered at `x` with `fuel` an upper bound of the turns left:
the final `x` and `graph_digit_num`. -/
def skip_graphic (sstring : List Int) (string_lenght : Nat) :
    Nat → Nat → Nat → Nat × Nat
  | 0, x, graph_digit_num => (x, graph_digit_num)
  | fuel + 1, x, graph_digit_num =>
    if char_at sstring x ≠ 62 ∧ x < string_lenght then
      skip_graphic sstring string_lenght fuel (x + 1) (graph_digit_num + 1)
    else (x, graph_digit_num)

/-- The counting loop of `sevenseg_print`, entered at `x`: the final
`dotnumber`, `graph_digit_num` and `bracket_num`.  `fuel` bounds the turns left
(each turn advances `x`). -/
def count_loop (sstring : List Int) (string_lenght : Nat) :
    Nat → Nat → Nat → Nat → Nat → Nat × Nat × Nat
  | 0, _, dotnumber, graph_digit_num, bracket_num => (dotnumber, graph_digit_num, bracket_num)
  | fuel + 1, x, dotnumber, graph_digit_num, bracket_num =>
    if x < string_lenght then
      let dotnumber1 :=
        if char_at sstring x = 46 ∧ x > 0 then
          if char_at sstring (x - 1) ≠ 46 ∧ char_at sstring (x - 1) ≠ 32 then dotnumber + 1
          else dotnumber
        else dotnumber
      if char_at sstring x = 60 then
        let skipped := skip_graphic sstring string_lenght (string_lenght - x) (x + 1)
          graph_digit_num
        count_loop sstring string_lenght fuel (skipped.1 + 1) dotnumber1 skipped.2
          (bracket_num + 1 + 1)
      else
        count_loop sstring string_lenght fuel (x + 1) dotnumber1 graph_digit_num bracket_num
    else (dotnumber, graph_digit_num, bracket_num)

/-- The scan `while (sstring[x] != '>') x++` of the translation loop, over the
memory from `x` on: the index of the first `'>'`, or `none` when the memory
ends before one is found. -/
def find_close : List Int → Nat → Option Nat
  | [], _ => none
  | c :: cs, x => if c = 62 then some x else find_close cs (x + 1)

/-- The translation loop of `sevenseg_print`, entered at `x` with the write
position `y`: `some (-3, ..)` when a graphic digit is malformed, `some (0, ..)`
with the final `y` when the loop ends, `none` when a scan for `'>'` leaves the
memory.  `fuel` bounds the turns left (each turn advances `x`). -/
def translate_loop (cfg : LedConfig) (sstring : List Int) (string_lenght : Nat) :
    Nat → Nat → Nat → SevenSeg → Option (Int × Nat × SevenSeg)
  | 0, _, y, SS => some (0, y, SS)
  | fuel + 1, x, y, SS =>
    if x < string_lenght then
      if char_at sstring x = 60 then
        let startgraph := x + 1
        if char_at sstring startgraph = 62 then some (-3, y, SS)
        else
          match find_close (sstring.drop startgraph) startgraph with
          | none => none
          | some x1 =>
            let stopgraph := size_sub cfg x1 1
            if size_sub cfg stopgraph startgraph > 7 then some (-3, y, SS)
            else
              translate_loop cfg sstring string_lenght fuel (x1 + 1) (y + 1)
                (string_store SS y (sseg_digitbuild cfg sstring startgraph stopgraph))
      else
        let hexchar := sseg_tabcheck (char_at sstring x)
        let joined : Bool := hexchar = 10 ∧ x > 0 ∧
          char_at sstring (x - 1) ≠ 46 ∧ char_at sstring (x - 1) ≠ 32
        if joined then
          let cell := SS.string (size_sub cfg y 1)
          let dot := cfg.segstable.getD hexchar 0
          translate_loop cfg sstring string_lenght fuel (x + 1) y
            (string_store SS (size_sub cfg y 1)
              (if cfg.CONFIG_LED_7SEG_CCAT then cell ||| dot else cell &&& dot))
        else
          translate_loop cfg sstring string_lenght fuel (x + 1) (y + 1)
            (string_store SS y (cfg.segstable.getD hexchar 0))
    else some (0, y, SS)

/-- `int sevenseg_print(SevenSeg *SS, const char *sstring)`, on the memory
found at `sstring`.  The result is `none` when the memory holds no NUL or a
scan for `'>'` leaves it. -/
def sevenseg_print (cfg : LedConfig) (SS : SevenSeg) (sstring : List Int) :
    Option (Int × SevenSeg) :=
  if SS.busyedit = false then some (-1, SS)
  else if cfg.pointer_size >
      to_size cfg ((cfg.CONFIG_LED_7SEG_STRLEN : Int) - 2 * (cfg.CONFIG_LED_7SEG_DIGIT : Int))
  then some (-2, SS)
  else
    match strlen sstring with
    | none => none
    | some string_lenght =>
      let counted := count_loop sstring string_lenght (string_lenght + 1) 0 0 0 0
      let dotnumber := counted.1
      let bracket_num := counted.2.2
      let graph_digit_num0 := counted.2.1 + bracket_num
      if bracket_num > 0 ∧ bracket_num % 2 = 1 then some (-3, SS)
      else
        let graph_digit_num :=
          if bracket_num > 0 then size_sub cfg graph_digit_num0 (bracket_num / 2)
          else graph_digit_num0
        let real := size_sub cfg (size_sub cfg string_lenght dotnumber) graph_digit_num
        let filled : Nat × SevenSeg :=
          if real ≤ cfg.CONFIG_LED_7SEG_DIGIT then
            if real < cfg.CONFIG_LED_7SEG_DIGIT then
              (size_sub cfg cfg.CONFIG_LED_7SEG_DIGIT real,
                fill_blanks cfg (size_sub cfg cfg.CONFIG_LED_7SEG_DIGIT real) 0 SS)
            else (0, SS)
          else (cfg.CONFIG_LED_7SEG_DIGIT, fill_blanks cfg cfg.CONFIG_LED_7SEG_DIGIT 0 SS)
        match translate_loop cfg sstring string_lenght (string_lenght + 1) 0 filled.1
            filled.2 with
        | none => none
        | some (r, y, SS1) =>
          if r ≠ 0 then some (r, SS1)
          else
            let padded : Nat × SevenSeg :=
              if real > cfg.CONFIG_LED_7SEG_DIGIT then
                (y + cfg.CONFIG_LED_7SEG_DIGIT, fill_blanks cfg cfg.CONFIG_LED_7SEG_DIGIT y SS1)
              else (y, SS1)
            some (0, { padded.2 with string_len := to_uint cfg (padded.1 : Int) })

/-- The calls made into the hardware layer of the display: `sseg_on(pattern,
digit)` and `sseg_off()`. -/
inductive DisplayOp where
  | on (pattern digit : Nat)
  | off
  deriving DecidableEq, Repr

/-- `bool sevenseg_isReady(SevenSeg *SS)`. -/
def sevenseg_isReady (SS : SevenSeg) : Bool := !SS.firstrun

/-- `bool sevenseg_unlock(SevenSeg *SS)`. -/
def sevenseg_unlock (SS : SevenSeg) : Bool × SevenSeg :=
  if SS.firstrun = false then
    (true, { SS with busyedit := true, firstrun := true, curdigit := 0, curpos := 0 })
  else (false, SS)

/-- `bool sevenseg_lock(SevenSeg *SS)`. -/
def sevenseg_lock (cfg : LedConfig) (SS : SevenSeg) : Bool × SevenSeg :=
  if SS.busyedit = true then
    let SS1 : SevenSeg :=
      if SS.string_len > cfg.CONFIG_LED_7SEG_DIGIT then { SS with bdigit := 0 } else SS
    (true, { SS1 with busyedit := false })
  else (false, SS)

/-- `bool sevenseg_setBlink(SevenSeg *SS, bool blink, uint8_t digit)`. -/
def sevenseg_setBlink (cfg : LedConfig) (SS : SevenSeg) (blink : Bool) (digit : Nat) :
    Bool × SevenSeg :=
  if SS.busyedit = true then
    if blink = true then
      if digit = 0 then (true, { SS with bdigit := digit, blink := blink })
      else if (digit : Int) - 1 ≤ (cfg.CONFIG_LED_7SEG_DIGIT : Int) then
        (true, { SS with bdigit := digit, blink := blink })
      else (false, SS)
    else (true, { SS with blink := blink })
  else (false, SS)

/-- `bool sevenseg_setRunonce(SevenSeg *SS, bool runonce)`. -/
def sevenseg_setRunonce (SS : SevenSeg) (runonce : Bool) : Bool × SevenSeg :=
  if SS.busyedit = true then (true, { SS with runonce := runonce })
  else (false, SS)

/-- `bool sevenseg_setRunspeed(SevenSeg *SS, unsigned int r_speed)`. -/
def sevenseg_setRunspeed (SS : SevenSeg) (r_speed : Nat) : Bool × SevenSeg :=
  if SS.busyedit = true then (true, { SS with speed := r_speed, curspeed := r_speed })
  else (false, SS)

/-- `bool sevenseg_clear(SevenSeg *SS)`.  The `memset` fills the
`CONFIG_LED_7SEG_STRLEN` cells of `string` with the low eight bits of
`segstable[38]`. -/
def sevenseg_clear (cfg : LedConfig) (SS : SevenSeg) : Bool × SevenSeg :=
  if SS.busyedit = true then
    (true,
      { SS with
        string := fun i =>
          if i < cfg.CONFIG_LED_7SEG_STRLEN then cfg.segstable.getD 38 0 % 256
          else SS.string i,
        string_len := cfg.CONFIG_LED_7SEG_DIGIT,
        blink := false, bdigit := 0, runonce := false, curdigit := 0, curpos := 0,
        speed := cfg.CONFIG_LED_7SEG_SSPEED, curspeed := cfg.CONFIG_LED_7SEG_SSPEED,
        firstrun := false })
  else (false, SS)

/-- The part of `sseg_refresh` that shows the current character: the
hardware calls it makes. -/
def sseg_refresh_show (cfg : LedConfig) (SS : SevenSeg) : List DisplayOp :=
  if SS.blink = false then [DisplayOp.on (SS.string SS.curpos) SS.curdigit]
  else if SS.bdigit = 0 then
    if SS.curspeed ≥ SS.speed / 2 then [DisplayOp.on (SS.string SS.curpos) SS.curdigit]
    else [DisplayOp.off]
  else if SS.curdigit = uint_sub cfg SS.bdigit 1 then
    if SS.curspeed ≥ SS.speed / 2 then [DisplayOp.on (SS.string SS.curpos) SS.curdigit]
    else [DisplayOp.off]
  else [DisplayOp.on (SS.string SS.curpos) SS.curdigit]

/-- `static void sseg_refresh(SevenSeg *SS)`: the state it leaves and the
hardware calls it makes. -/
def sseg_refresh (cfg : LedConfig) (SS : SevenSeg) : SevenSeg × List DisplayOp :=
  if SS.busyedit = true then (SS, [])
  else if SS.curdigit = cfg.CONFIG_LED_7SEG_DIGIT then
    if SS.curspeed > 0 then
      ({ SS with curspeed := uint_sub cfg SS.curspeed 1, curdigit := 0,
                 curpos := uint_sub cfg SS.curpos cfg.CONFIG_LED_7SEG_DIGIT },
        [DisplayOp.off])
    else if SS.curpos < SS.string_len then
      ({ SS with curpos :=
                   to_uint cfg ((uint_sub cfg SS.curpos cfg.CONFIG_LED_7SEG_DIGIT : Nat) + 1),
                 curdigit := 0, curspeed := SS.speed },
        [DisplayOp.off])
    else
      let SS1 : SevenSeg := { SS with firstrun := false }
      if SS1.runonce = true then ((sevenseg_clear cfg SS1).2, [DisplayOp.off])
      else ({ SS1 with curdigit := 0, curpos := 0, curspeed := SS1.speed }, [DisplayOp.off])
  else
    ({ SS with curdigit := to_uint cfg ((SS.curdigit : Int) + 1),
               curpos := to_uint cfg ((SS.curpos : Int) + 1) },
      sseg_refresh_show cfg SS)

/-- The cursor invariant of the refresh: the digit being shown is inside the
display, and the window of `CONFIG_LED_7SEG_DIGIT` positions that starts at
`curpos - curdigit` lies inside the text. -/
def refresh_inv (cfg : LedConfig) (SS : SevenSeg) : Prop :=
  SS.curdigit ≤ cfg.CONFIG_LED_7SEG_DIGIT ∧ SS.curdigit ≤ SS.curpos ∧
    (SS.curpos - SS.curdigit) + cfg.CONFIG_LED_7SEG_DIGIT ≤ SS.string_len

instance (cfg : LedConfig) (SS : SevenSeg) : Decidable (refresh_inv cfg SS) := by
  unfold refresh_inv; exact inferInstance

/-- The cells of `string` after the values `vs` have been stored from position
`y` on. -/
def store_list (SS : SevenSeg) : Nat → List Nat → SevenSeg
  | _, [] => SS
  | y, v :: vs => store_list (string_store SS y v) (y + 1) vs

/-- The layout the specification gives for a plain text `s`: the patterns of
its characters, right-aligned with spaces when the text fits the display, and
between two runs of `CONFIG_LED_7SEG_DIGIT` spaces when it does not. -/
def plain_layout (cfg : LedConfig) (s : List Int) : List Nat :=
  if s.length ≤ cfg.CONFIG_LED_7SEG_DIGIT then
    List.replicate (cfg.CONFIG_LED_7SEG_DIGIT - s.length) (cfg.segstable.getD 38 0) ++
      s.map (fun c => cfg.segstable.getD (sseg_tabcheck c) 0)
  else
    List.replicate cfg.CONFIG_LED_7SEG_DIGIT (cfg.segstable.getD 38 0) ++
      s.map (fun c => cfg.segstable.getD (sseg_tabcheck c) 0) ++
      List.replicate cfg.CONFIG_LED_7SEG_DIGIT (cfg.segstable.getD 38 0)

/-- A string is plain text when it has no NUL, dot or graphic delimiter. -/
def plain_text (s : List Int) : Prop := ∀ c ∈ s, c ≠ 0 ∧ c ≠ 46 ∧ c ≠ 60 ∧ c ≠ 62

instance (s : List Int) : Decidable (plain_text s) := by
  unfold plain_text; exact inferInstance

/-- A configuration with four digits, a string of sixteen cells, four-byte
pointers and 32-bit `size_t`, on a common-cathode display whose segment masks
are the bits `0..7` and whose table gives the pattern `index + 1`. -/
def sample_led : LedConfig :=
  { CONFIG_LED_7SEG_DIGIT := 4, CONFIG_LED_7SEG_STRLEN := 16, CONFIG_LED_7SEG_CCAT := true,
    segstable := (List.range 39).map (fun i => i + 1),
    SEGMENT_EMPTY := 0, SEGMENT_A := 1, SEGMENT_B := 2, SEGMENT_C := 4, SEGMENT_D := 8,
    SEGMENT_E := 16, SEGMENT_F := 32, SEGMENT_G := 64, SEGMENT_P := 128,
    SET_SEGMENT := fun v seg => v ||| seg, pointer_size := 4, size_bits := 32,
    CONFIG_LED_7SEG_SSPEED := 10, uint_bits := 32 }

/-- The sample configuration with a string of nine cells only. -/
def sample_led_small : LedConfig := { sample_led with CONFIG_LED_7SEG_STRLEN := 9 }

/-- A locked display that has shown its run-once text `12345678` to the end. -/
def sample_ended : SevenSeg :=
  { busyedit := false, string := fun i => i + 1, string_len := 16, blink := false, bdigit := 0,
    runonce := true, curdigit := 4, curpos := 16, speed := 10, curspeed := 0,
    firstrun := true }

/-- An editable display showing nothing. -/
def sample_display : SevenSeg :=
  { busyedit := true, string := fun _ => 0, string_len := 4, blink := false, bdigit := 0,
    runonce := false, curdigit := 0, curpos := 0, speed := 10, curspeed := 10,
    firstrun := false }

end Led7Seg

namespace Ser

/-! ### Queue lemmas -/

theorem fifo_contents_length (fb : FIFOBuffer) :
    (fifo_contents fb).length = fb.count := by
  simp [fifo_contents]

theorem fifo_isempty_iff (fb : FIFOBuffer) :
    fifo_isempty fb = true ↔ fifo_contents fb = [] := by
  rw [← List.length_eq_zero, fifo_contents_length]
  simp [fifo_isempty]

theorem fifo_getD_lt (fb : FIFOBuffer) (hwf : fifo_wf fb) (i : Nat) (hi : i < fifo_cap fb) :
    fb.storage.getD i 0 < 256 := by
  have hi2 : i < fb.storage.length := hi
  rw [List.getD_eq_getElem _ _ hi2]
  exact hwf.2.2.2.2 _ (List.getElem_mem hi2)

theorem fifo_pop_fst (fb : FIFOBuffer) (h : fifo_isempty fb = false) :
    (fifo_pop fb).1 = some (fb.storage.getD fb.rd 0) := by
  simp [fifo_pop, h]

theorem fifo_pop_snd (fb : FIFOBuffer) (h : fifo_isempty fb = false) :
    (fifo_pop fb).2 = { fb with rd := (fb.rd + 1) % fifo_cap fb, count := fb.count - 1 } := by
  simp [fifo_pop, h]

theorem fifo_pop_contents (fb : FIFOBuffer) (hwf : fifo_wf fb) (h : fifo_isempty fb = false) :
    fifo_contents fb = fb.storage.getD fb.rd 0 :: fifo_contents (fifo_pop fb).2 := by
  have hc : fb.count ≠ 0 := by simpa [fifo_isempty] using h
  obtain ⟨n, hn⟩ := Nat.exists_eq_succ_of_ne_zero hc
  rw [fifo_pop_snd fb h]
  simp only [fifo_contents, fifo_cap, hn]
  rw [List.range_succ_eq_map]
  simp only [List.map_cons, List.map_map, Nat.add_zero, Nat.succ_sub_one]
  congr 1
  · have hlt : fb.rd < fb.storage.length := hwf.2.2.1
    rw [Nat.mod_eq_of_lt hlt]
  · apply List.map_congr_left
    intro i _
    simp only [Function.comp, Nat.succ_eq_add_one]
    rw [Nat.mod_add_mod, Nat.add_assoc, Nat.add_comm 1 i]

theorem fifo_pop_wf (fb : FIFOBuffer) (hwf : fifo_wf fb) : fifo_wf (fifo_pop fb).2 := by
  cases h : fifo_isempty fb
  · rw [fifo_pop_snd fb h]
    obtain ⟨h0, h1, h2, h3, h4⟩ := hwf
    have hc : fb.count ≠ 0 := by simpa [fifo_isempty] using h
    refine ⟨h0, ?_, Nat.mod_lt _ h0, ?_, h4⟩
    · show fb.count - 1 ≤ fifo_cap fb
      omega
    · show fb.wr = ((fb.rd + 1) % fifo_cap fb + (fb.count - 1)) % fifo_cap fb
      rw [h3, Nat.mod_add_mod]
      congr 1
      omega
  · simpa [fifo_pop, h] using hwf

theorem fifo_push_snd (fb : FIFOBuffer) (b : Nat) (h : fifo_isfull fb = false) :
    (fifo_push fb b).2 = { fb with storage := fb.storage.set fb.wr b,
                                   wr := (fb.wr + 1) % fifo_cap fb,
                                   count := fb.count + 1 } := by
  simp [fifo_push, h]

theorem fifo_mod_ne (cap rd i n : Nat) (hi : i < n) (hn : n < cap) :
    (rd + i) % cap ≠ (rd + n) % cap := by
  intro h
  have h1 : i % cap = n % cap := Nat.ModEq.add_left_cancel' rd h
  rw [Nat.mod_eq_of_lt (by omega), Nat.mod_eq_of_lt hn] at h1
  omega

theorem fifo_push_contents (fb : FIFOBuffer) (b : Nat) (hwf : fifo_wf fb)
    (h : fifo_isfull fb = false) :
    fifo_contents (fifo_push fb b).2 = fifo_contents fb ++ [b] := by
  obtain ⟨h0, h1, h2, h3, h4⟩ := hwf
  have hne : fb.count ≠ fifo_cap fb := by simpa [fifo_isfull] using h
  have hlt : fb.count < fb.storage.length := by
    have : fb.count ≤ fb.storage.length := h1
    have : fb.count ≠ fb.storage.length := hne
    omega
  rw [fifo_push_snd fb b h]
  simp only [fifo_contents, fifo_cap, List.length_set]
  rw [List.range_succ, List.map_append]
  congr 1
  · apply List.map_congr_left
    intro i hi
    have hi2 : i < fb.count := List.mem_range.mp hi
    have hne2 := fifo_mod_ne fb.storage.length fb.rd i fb.count hi2 hlt
    have h3b : fb.wr = (fb.rd + fb.count) % fb.storage.length := h3
    rw [List.getD_eq_getElem?_getD, List.getD_eq_getElem?_getD,
      List.getElem?_set_ne (by rw [h3b]; exact fun e => hne2 e.symm)]
  · have h3b : (fb.rd + fb.count) % fb.storage.length = fb.wr := h3.symm
    have hw : fb.wr < fb.storage.length := by
      rw [← h3b]; exact Nat.mod_lt _ (by omega)
    simp only [List.map_cons, List.map_nil, h3b]
    rw [List.getD_eq_getElem?_getD, List.getElem?_set_self hw]
    rfl

theorem fifo_push_wf (fb : FIFOBuffer) (b : Nat) (hb : b < 256) (hwf : fifo_wf fb) :
    fifo_wf (fifo_push fb b).2 := by
  cases h : fifo_isfull fb
  · rw [fifo_push_snd fb b h]
    obtain ⟨h0, h1, h2, h3, h4⟩ := hwf
    have hne : fb.count ≠ fifo_cap fb := by simpa [fifo_isfull] using h
    simp only [fifo_wf, fifo_cap, List.length_set] at *
    refine ⟨h0, by omega, h2, ?_, ?_⟩
    · rw [h3, Nat.mod_add_mod, Nat.add_assoc]
    · intro x hx
      rcases List.mem_or_eq_of_mem_set hx with hx | hx
      · exact h4 x hx
      · rw [hx]; exact hb
  · simpa [fifo_push, h] using hwf

theorem fifo_init_wf (size : Nat) (h : 0 < size) : fifo_wf (fifo_init size) := by
  refine ⟨by simpa [fifo_cap, fifo_init] using h, Nat.zero_le _, by simpa [fifo_cap, fifo_init] using h, ?_, ?_⟩
  · simp [fifo_init]
  · intro b hb
    have := List.eq_of_mem_replicate hb
    omega

theorem fifo_flush_contents (fb : FIFOBuffer) : fifo_contents (fifo_flush fb) = [] := by
  simp [fifo_contents, fifo_flush]

/-! ## Single-byte operations -/

theorem fifo_isempty_of_cons (fb : FIFOBuffer) (b : Nat) (rest : List Nat)
    (hq : fifo_contents fb = b :: rest) : fifo_isempty fb = false := by
  cases h : fifo_isempty fb
  · rfl
  · rw [(fifo_isempty_iff fb).mp h] at hq
    cases hq

/-- Popping a queue that holds `b :: rest`: the byte read is `b`, it is below
256, and the queue left holds `rest`. -/
theorem fifo_pop_cons (fb : FIFOBuffer) (b : Nat) (rest : List Nat) (hwf : fifo_wf fb)
    (hq : fifo_contents fb = b :: rest) :
    (fifo_pop fb).1 = some b ∧ b < 256 ∧ fifo_contents (fifo_pop fb).2 = rest ∧
      fifo_wf (fifo_pop fb).2 := by
  have he := fifo_isempty_of_cons fb b rest hq
  have hc := fifo_pop_contents fb hwf he
  rw [hq] at hc
  injection hc with h1 h2
  refine ⟨?_, ?_, h2.symm, fifo_pop_wf fb hwf⟩
  · rw [fifo_pop_fst fb he, h1]
  · rw [h1]; exact fifo_getD_lt fb hwf fb.rd hwf.2.2.1

/-- With a byte waiting, `ser_getchar` does not enter its wait loop. -/
theorem ser_getchar_ready (cfg : Config) (w : World) (polls : List Poll)
    (he : fifo_isempty w.port.rxfifo = false) :
    ser_getchar cfg w polls =
      some (if w.port.status ≠ 0 then EOF
            else (((fifo_pop w.port.rxfifo).1.getD 0 % 256 : Nat) : Int),
        { w with port := { w.port with rxfifo := (fifo_pop w.port.rxfifo).2 } }, polls) := by
  simp [ser_getchar, he]

/-- C1. Sticky-error short-circuit of `ser_getchar`: on a port whose rx queue
holds `b :: rest`, the call returns at once; it returns `EOF` exactly when the
status is non-zero; with a zero status it returns the oldest byte `b`, a value
in `0..255` (never `EOF`), leaving `rest` queued; and after the status has been
reset to zero the call on the same queue returns the byte `b` again. -/
theorem ser_getchar_sticky_error (cfg : Config) (w : World) (polls : List Poll)
    (b : Nat) (rest : List Nat) (hwf : fifo_wf w.port.rxfifo)
    (hq : fifo_contents w.port.rxfifo = b :: rest) :
    ∃ r w', ser_getchar cfg w polls = some (r, w', polls) ∧
      (r = EOF ↔ w.port.status ≠ 0) ∧
      (w.port.status = 0 →
        r = (b : Int) ∧ 0 ≤ r ∧ r ≤ 255 ∧ fifo_contents w'.port.rxfifo = rest) ∧
      ∃ w'', ser_getchar cfg (ser_setstatus w 0) polls = some ((b : Int), w'', polls) ∧
        (b : Int) ≠ EOF ∧ b ≤ 255 ∧ fifo_contents w''.port.rxfifo = rest := by
  have he := fifo_isempty_of_cons _ b rest hq
  obtain ⟨hp1, hb, hp2, _⟩ := fifo_pop_cons _ b rest hwf hq
  have hmod : b % 256 = b := Nat.mod_eq_of_lt hb
  have hne : (b : Int) ≠ EOF := by
    have : (0 : Int) ≤ (b : Int) := Int.ofNat_nonneg b
    unfold EOF; omega
  refine ⟨_, _, ser_getchar_ready cfg w polls he, ?_, ?_, ?_⟩
  · by_cases hs : w.port.status = 0
    · simp [hs, hp1, hmod, hne]
    · simp [hs]
  · intro hs
    simp only [hs, hp1, Option.getD_some, hmod, ne_eq, not_true_eq_false, if_false]
    refine ⟨trivial, Int.ofNat_nonneg b, ?_, hp2⟩
    omega
  · have he2 : fifo_isempty (ser_setstatus w 0).port.rxfifo = false := he
    refine ⟨{ ser_setstatus w 0 with port := { (ser_setstatus w 0).port with
      rxfifo := (fifo_pop w.port.rxfifo).2 } }, ?_, hne, by omega, hp2⟩
    rw [ser_getchar_ready cfg _ polls he2]
    simp [ser_setstatus, hp1, hmod]

/-- C5. `ser_getchar_nowait` returns `EOF` exactly when the rx queue is empty;
otherwise, whatever the status, it returns the oldest byte, a value in
`0..255`, and removes it; the status and the tx queue are unchanged in both
cases. -/
theorem ser_getchar_nowait_spec (w : World) (hwf : fifo_wf w.port.rxfifo) :
    ((ser_getchar_nowait w).1 = EOF ↔ fifo_contents w.port.rxfifo = []) ∧
    (∀ b rest, fifo_contents w.port.rxfifo = b :: rest →
      (ser_getchar_nowait w).1 = (b : Int) ∧ b ≤ 255 ∧
      fifo_contents (ser_getchar_nowait w).2.port.rxfifo = rest) ∧
    (ser_getchar_nowait w).2.port.status = w.port.status ∧
    (ser_getchar_nowait w).2.port.txfifo = w.port.txfifo := by
  cases he : fifo_isempty w.port.rxfifo
  · have hnil : fifo_contents w.port.rxfifo ≠ [] := by
      intro h
      rw [(fifo_isempty_iff _).mpr h] at he
      cases he
    refine ⟨?_, ?_, ?_, ?_⟩
    · simp only [ser_getchar_nowait, he, hnil, iff_false]
      have : (0 : Int) ≤ (((fifo_pop w.port.rxfifo).1.getD 0 % 256 : Nat) : Int) :=
        Int.ofNat_nonneg _
      simp only [Bool.false_eq_true, if_false, EOF]
      omega
    · intro b rest hq
      obtain ⟨hp1, hb, hp2, _⟩ := fifo_pop_cons _ b rest hwf hq
      simp only [ser_getchar_nowait, he, Bool.false_eq_true, if_false, hp1, Option.getD_some,
        Nat.mod_eq_of_lt hb, hp2, and_true, true_and]
      omega
    · simp [ser_getchar_nowait, he]
    · simp [ser_getchar_nowait, he]
  · have hnil := (fifo_isempty_iff _).mp he
    refine ⟨?_, ?_, ?_, ?_⟩
    · simp [ser_getchar_nowait, he, hnil]
    · intro b rest hq
      rw [hnil] at hq
      cases hq
    · simp [ser_getchar_nowait, he]
    · simp [ser_getchar_nowait, he]

/-- With room in the tx queue, `ser_putchar` does not enter its wait loop. -/
theorem ser_putchar_ready (cfg : Config) (c : Int) (w : World) (polls : List Poll)
    (hf : fifo_isfull w.port.txfifo = false) :
    ser_putchar cfg c w polls =
      some ((((c % 256).toNat : Nat) : Int),
        { w with port := { w.port with txfifo := (fifo_push w.port.txfifo (c % 256).toNat).2 },
                 hwlog := w.hwlog ++ [HwCall.enabletxirq w.port.hw] }, polls) := by
  simp [ser_putchar, hf]

theorem uchar_cast (c : Int) : (((c % 256).toNat : Nat) : Int) = c % 256 ∧ (c % 256).toNat < 256 := by
  have h1 : 0 ≤ c % 256 := Int.emod_nonneg c (by decide)
  have h2 : c % 256 < 256 := Int.emod_lt_of_pos c (by decide)
  constructor
  · exact Int.toNat_of_nonneg h1
  · omega

/-- C2. `ser_putchar` without waiting: for every `c`, every port whose tx queue
has room and every configured `txtimeout` (zero included), the call returns at
once the value `c mod 256` (in `0..255`, not `EOF`), appends exactly that byte
at the tail of the tx queue, calls `enabletxirq` exactly once, and leaves the
status (so `SERRF_TXTIMEOUT` is not set), the rx queue and the timeouts as they
were. -/
theorem ser_putchar_nowait (cfg : Config) (c : Int) (w : World) (polls : List Poll)
    (hwf : fifo_wf w.port.txfifo) (hf : fifo_isfull w.port.txfifo = false) :
    ∃ w', ser_putchar cfg c w polls = some (c % 256, w', polls) ∧
      0 ≤ c % 256 ∧ c % 256 ≤ 255 ∧ c % 256 ≠ EOF ∧
      fifo_contents w'.port.txfifo = fifo_contents w.port.txfifo ++ [(c % 256).toNat] ∧
      w'.hwlog = w.hwlog ++ [HwCall.enabletxirq w.port.hw] ∧
      w'.port.status = w.port.status ∧
      w'.port.rxfifo = w.port.rxfifo ∧
      w'.port.rxtimeout = w.port.rxtimeout ∧ w'.port.txtimeout = w.port.txtimeout := by
  obtain ⟨hc1, hc2⟩ := uchar_cast c
  have h1 : 0 ≤ c % 256 := Int.emod_nonneg c (by decide)
  have h2 : c % 256 < 256 := Int.emod_lt_of_pos c (by decide)
  refine ⟨{ w with port := { w.port with txfifo := (fifo_push w.port.txfifo (c % 256).toNat).2 },
                   hwlog := w.hwlog ++ [HwCall.enabletxirq w.port.hw] },
    ?_, h1, by omega, by unfold EOF; omega,
    fifo_push_contents _ _ hwf hf, rfl, rfl, rfl, rfl, rfl⟩
  rw [ser_putchar_ready cfg c w polls hf, hc1]

/-! ## Waiting -/

theorem isr_event_frame (cfg : Config) (port : Serial) (e : IsrEvent) :
    (isr_event cfg port e).rxtimeout = port.rxtimeout ∧
    (isr_event cfg port e).txtimeout = port.txtimeout ∧
    (isr_event cfg port e).hw = port.hw := by
  cases e with
  | rxByte b => by_cases h : fifo_isfull port.rxfifo = true <;> simp [isr_event, h]
  | txReady => simp [isr_event]

theorem isr_event_tx (cfg : Config) (port : Serial) (e : IsrEvent) :
    (isr_event cfg port e).txfifo = port.txfifo ∨
      ((isr_event cfg port e).txfifo.count < port.txfifo.count ∧
        fifo_cap (isr_event cfg port e).txfifo = fifo_cap port.txfifo) := by
  cases e with
  | rxByte b => by_cases h : fifo_isfull port.rxfifo = true <;> simp [isr_event, h]
  | txReady =>
    cases he : fifo_isempty port.txfifo
    · right
      have hc : port.txfifo.count ≠ 0 := by simpa [fifo_isempty] using he
      simp only [isr_event, fifo_pop_snd _ he, fifo_cap]
      exact ⟨by omega, trivial⟩
    · left
      simp [isr_event, fifo_pop, he]

theorem isr_event_rx (cfg : Config) (port : Serial) (e : IsrEvent) :
    (isr_event cfg port e).rxfifo = port.rxfifo ∨ 0 < (isr_event cfg port e).rxfifo.count := by
  cases e with
  | rxByte b =>
    cases h : fifo_isfull port.rxfifo
    · right
      simp [isr_event, h, fifo_push_snd _ _ h]
    · left
      simp [isr_event, h]
  | txReady => left; simp [isr_event]

theorem isr_events_frame (cfg : Config) (evs : List IsrEvent) (port : Serial) :
    (evs.foldl (isr_event cfg) port).rxtimeout = port.rxtimeout ∧
    (evs.foldl (isr_event cfg) port).txtimeout = port.txtimeout ∧
    (evs.foldl (isr_event cfg) port).hw = port.hw := by
  induction evs generalizing port with
  | nil => exact ⟨rfl, rfl, rfl⟩
  | cons e es ih =>
    obtain ⟨h1, h2, h3⟩ := ih (isr_event cfg port e)
    obtain ⟨g1, g2, g3⟩ := isr_event_frame cfg port e
    exact ⟨h1.trans g1, h2.trans g2, h3.trans g3⟩

theorem isr_events_tx (cfg : Config) (evs : List IsrEvent) (port : Serial) :
    (evs.foldl (isr_event cfg) port).txfifo = port.txfifo ∨
      ((evs.foldl (isr_event cfg) port).txfifo.count < port.txfifo.count ∧
        fifo_cap (evs.foldl (isr_event cfg) port).txfifo = fifo_cap port.txfifo) := by
  induction evs generalizing port with
  | nil => exact Or.inl rfl
  | cons e es ih =>
    simp only [List.foldl_cons]
    rcases ih (isr_event cfg port e) with h | ⟨h, hc⟩ <;>
      rcases isr_event_tx cfg port e with g | ⟨g, gc⟩
    · exact Or.inl (h.trans g)
    · right; rw [h]; exact ⟨g, gc⟩
    · right; rw [g] at h hc; exact ⟨h, hc⟩
    · right; exact ⟨by omega, hc.trans gc⟩

theorem isr_events_rx (cfg : Config) (evs : List IsrEvent) (port : Serial) :
    (evs.foldl (isr_event cfg) port).rxfifo = port.rxfifo ∨
      0 < (evs.foldl (isr_event cfg) port).rxfifo.count := by
  induction evs generalizing port with
  | nil => exact Or.inl rfl
  | cons e es ih =>
    simp only [List.foldl_cons]
    rcases ih (isr_event cfg port e) with h | h
    · rcases isr_event_rx cfg port e with g | g
      · exact Or.inl (h.trans g)
      · right; rw [h]; exact g
    · exact Or.inr h

/-- A yield after which the tx queue is still full has left that queue as it
was. -/
theorem proc_switch_tx_full (cfg : Config) (w : World) (p : Poll)
    (hf : fifo_isfull w.port.txfifo = true)
    (hf1 : fifo_isfull (proc_switch cfg w p).port.txfifo = true) :
    (proc_switch cfg w p).port.txfifo = w.port.txfifo := by
  rcases isr_events_tx cfg p.events w.port with h | ⟨h, hc⟩
  · exact h
  · exfalso
    have e0 : w.port.txfifo.count = fifo_cap w.port.txfifo := by simpa [fifo_isfull] using hf
    have e1 : (p.events.foldl (isr_event cfg) w.port).txfifo.count =
        fifo_cap (p.events.foldl (isr_event cfg) w.port).txfifo := by
      simpa [fifo_isfull, proc_switch] using hf1
    omega

/-- A yield after which the rx queue is still empty has left that queue as it
was. -/
theorem proc_switch_rx_empty (cfg : Config) (w : World) (p : Poll)
    (he1 : fifo_isempty (proc_switch cfg w p).port.rxfifo = true) :
    (proc_switch cfg w p).port.rxfifo = w.port.rxfifo := by
  rcases isr_events_rx cfg p.events w.port with h | h
  · exact h
  · exfalso
    have e1 : (p.events.foldl (isr_event cfg) w.port).rxfifo.count = 0 := by
      simpa [fifo_isempty, proc_switch] using he1
    omega

theorem proc_switch_frame (cfg : Config) (w : World) (p : Poll) :
    (proc_switch cfg w p).port.rxtimeout = w.port.rxtimeout ∧
    (proc_switch cfg w p).port.txtimeout = w.port.txtimeout ∧
    (proc_switch cfg w p).port.hw = w.port.hw ∧
    (proc_switch cfg w p).hwlog = w.hwlog ∧ (proc_switch cfg w p).now = p.now := by
  obtain ⟨h1, h2, h3⟩ := isr_events_frame cfg p.events w.port
  exact ⟨h1, h2, h3, rfl, rfl⟩

theorem run_polls_append (cfg : Config) (w : World) (ps qs : List Poll) :
    run_polls cfg w (ps ++ qs) = run_polls cfg (run_polls cfg w ps) qs := by
  simp [run_polls, List.foldl_append]

theorem run_polls_frame (cfg : Config) (ps : List Poll) (w : World) :
    (run_polls cfg w ps).port.rxtimeout = w.port.rxtimeout ∧
    (run_polls cfg w ps).port.txtimeout = w.port.txtimeout ∧
    (run_polls cfg w ps).port.hw = w.port.hw ∧
    (run_polls cfg w ps).hwlog = w.hwlog := by
  induction ps generalizing w with
  | nil => exact ⟨rfl, rfl, rfl, rfl⟩
  | cons p ps ih =>
    obtain ⟨h1, h2, h3, h4⟩ := ih (proc_switch cfg w p)
    obtain ⟨g1, g2, g3, g4, _⟩ := proc_switch_frame cfg w p
    exact ⟨h1.trans g1, h2.trans g2, h3.trans g3, h4.trans g4⟩

theorem run_polls_tx_full (cfg : Config) (ps : List Poll) (w : World)
    (hf : fifo_isfull w.port.txfifo = true) (hs : tx_stays_full cfg w ps) :
    (run_polls cfg w ps).port.txfifo = w.port.txfifo := by
  induction ps generalizing w with
  | nil => rfl
  | cons p ps ih =>
    obtain ⟨h1, h2⟩ := hs
    have := ih (proc_switch cfg w p) h1 h2
    exact this.trans (proc_switch_tx_full cfg w p hf h1)

theorem run_polls_rx_empty (cfg : Config) (ps : List Poll) (w : World)
    (hs : rx_stays_empty cfg w ps) :
    (run_polls cfg w ps).port.rxfifo = w.port.rxfifo := by
  induction ps generalizing w with
  | nil => rfl
  | cons p ps ih =>
    obtain ⟨h1, h2⟩ := hs
    have := ih (proc_switch cfg w p) h2
    exact this.trans (proc_switch_rx_empty cfg w p h1)

theorem or_flag_set (s f : Nat) : (s ||| f) &&& f = f := by
  apply Nat.eq_of_testBit_eq
  intro i
  simp only [Nat.testBit_and, Nat.testBit_or]
  cases s.testBit i <;> cases f.testBit i <;> rfl

/-- The wait loop of `ser_putchar` on a queue that stays full: it runs through
the polls whose elapsed time is below the timeout and leaves through the
timeout exit at the first poll that reaches it. -/
theorem ser_putchar_wait_timeout (cfg : Config) (hT : cfg.txtimeout_enabled = true)
    (start T : Nat) (p : Poll) (post : List Poll) (pre : List Poll) (w : World)
    (hw : w.port.txtimeout = T) (hf : fifo_isfull w.port.txfifo = true)
    (hs : tx_stays_full cfg w pre)
    (hlt : ∀ q ∈ pre, tick_diff cfg q.now start < T)
    (hge : T ≤ tick_diff cfg p.now start) :
    ser_putchar_wait cfg start w (pre ++ p :: post) =
      some (false, raise_flag (run_polls cfg w (pre ++ [p])) cfg.SERRF_TXTIMEOUT, post) := by
  induction pre generalizing w with
  | nil =>
    have h2 := (proc_switch_frame cfg w p).2.1
    simp only [List.nil_append, ser_putchar_wait, hT, Bool.true_and]
    have : tick_diff cfg (proc_switch cfg w p).now start ≥ (proc_switch cfg w p).port.txtimeout := by
      rw [h2, hw]; exact hge
    simp only [this, decide_True, if_true]
    rfl
  | cons q qs ih =>
    obtain ⟨hs1, hs2⟩ := hs
    have h2 := (proc_switch_frame cfg w q).2.1
    have hq : ¬ tick_diff cfg (proc_switch cfg w q).now start ≥ (proc_switch cfg w q).port.txtimeout := by
      rw [h2, hw]
      have := hlt q (List.mem_cons_self _ _)
      show ¬ T ≤ tick_diff cfg q.now start
      omega
    simp only [List.cons_append, ser_putchar_wait, hT, Bool.true_and, hq, decide_False,
      Bool.false_eq_true, if_false, hs1, if_true]
    exact ih (proc_switch cfg w q) (h2.trans hw) hs1 hs2
      (fun r hr => hlt r (List.mem_cons_of_mem _ hr))

/-- C3. `ser_putchar` timeout: with transmit timeouts compiled in, when the tx
queue is full at entry and is found full after every yield, the call returns
`EOF` at the first poll `p` at which `timer_ticks() - start_time >=
port->txtimeout` (the polls `post` after it are not consumed), the status has
`SERRF_TXTIMEOUT` set, the tx queue is exactly as it was (the byte is not
enqueued) and no call was made into the back-end. -/
theorem ser_putchar_timeout (cfg : Config) (c : Int) (w : World) (pre : List Poll) (p : Poll)
    (post : List Poll) (hT : cfg.txtimeout_enabled = true)
    (hf : fifo_isfull w.port.txfifo = true)
    (hs : tx_stays_full cfg w (pre ++ [p]))
    (hlt : ∀ q ∈ pre, tick_diff cfg q.now w.now < w.port.txtimeout)
    (hge : w.port.txtimeout ≤ tick_diff cfg p.now w.now) :
    ∃ w', ser_putchar cfg c w (pre ++ p :: post) = some (EOF, w', post) ∧
      w' = raise_flag (run_polls cfg w (pre ++ [p])) cfg.SERRF_TXTIMEOUT ∧
      w'.port.status &&& cfg.SERRF_TXTIMEOUT = cfg.SERRF_TXTIMEOUT ∧
      w'.port.txfifo = w.port.txfifo ∧
      fifo_contents w'.port.txfifo = fifo_contents w.port.txfifo ∧
      w'.hwlog = w.hwlog := by
  have hs' : tx_stays_full cfg w pre := by
    clear hlt hge hf
    induction pre generalizing w with
    | nil => trivial
    | cons q qs ih => exact ⟨hs.1, ih _ hs.2⟩
  have hwait := ser_putchar_wait_timeout cfg hT w.now w.port.txtimeout p post pre w rfl hf hs' hlt hge
  have htx : (run_polls cfg w (pre ++ [p])).port.txfifo = w.port.txfifo :=
    run_polls_tx_full cfg _ w hf hs
  refine ⟨_, ?_, rfl, ?_, ?_, ?_, ?_⟩
  · simp [ser_putchar, hf, hwait]
  · exact or_flag_set _ _
  · exact htx
  · show fifo_contents (run_polls cfg w (pre ++ [p])).port.txfifo = _
    rw [htx]
  · exact (run_polls_frame cfg _ w).2.2.2

theorem tick_diff_exact (cfg : Config) (now start : Nat) (h1 : start ≤ now)
    (h2 : now < 2 ^ cfg.time_bits) : tick_diff cfg now start = now - start := by
  unfold tick_diff
  generalize 2 ^ cfg.time_bits = M at *
  rw [Nat.mod_eq_of_lt h2, Nat.mod_eq_of_lt (by omega : start < M)]
  have : now + (M - start) = (now - start) + M := by omega
  rw [this, Nat.add_mod_right, Nat.mod_eq_of_lt (by omega)]

theorem isr_events_tx_quiet (cfg : Config) (evs : List IsrEvent) (port : Serial)
    (hq : IsrEvent.txReady ∉ evs) :
    (evs.foldl (isr_event cfg) port).txfifo = port.txfifo := by
  induction evs generalizing port with
  | nil => rfl
  | cons e es ih =>
    simp only [List.foldl_cons]
    rw [ih _ (fun h => hq (List.mem_cons_of_mem _ h))]
    cases e with
    | rxByte b => by_cases h : fifo_isfull port.rxfifo = true <;> simp [isr_event, h]
    | txReady => exact absurd (List.mem_cons_self _ _) hq

theorem run_polls_tx_quiet (cfg : Config) (ps : List Poll) (w : World)
    (hq : ∀ q ∈ ps, IsrEvent.txReady ∉ q.events) :
    (run_polls cfg w ps).port.txfifo = w.port.txfifo := by
  induction ps generalizing w with
  | nil => rfl
  | cons p ps ih =>
    have h1 := ih (proc_switch cfg w p) (fun q hq2 => hq q (List.mem_cons_of_mem _ hq2))
    exact h1.trans (isr_events_tx_quiet cfg p.events w.port (hq p (List.mem_cons_self _ _)))

/-- The wait loop of `ser_getchar` on a queue that stays empty can only leave
through the timeout exit, at a poll whose elapsed time has reached the
timeout, all earlier polls being below it. -/
theorem ser_getchar_wait_sound (cfg : Config) (hT : cfg.rxtimeout_enabled = true)
    (start T : Nat) (polls : List Poll) (w : World)
    (hw : w.port.rxtimeout = T) (hs : rx_stays_empty cfg w polls)
    (b : Bool) (w' : World) (rest : List Poll)
    (hr : ser_getchar_wait cfg start w polls = some (b, w', rest)) :
    b = false ∧ ∃ pre p, polls = pre ++ p :: rest ∧ T ≤ tick_diff cfg p.now start ∧
      (∀ q ∈ pre, tick_diff cfg q.now start < T) ∧
      w' = raise_flag (run_polls cfg w (pre ++ [p])) cfg.SERRF_RXTIMEOUT := by
  induction polls generalizing w with
  | nil => simp [ser_getchar_wait] at hr
  | cons p ps ih =>
    obtain ⟨hs1, hs2⟩ := hs
    have h2 := (proc_switch_frame cfg w p).1
    simp only [ser_getchar_wait] at hr
    by_cases ht : cfg.rxtimeout_enabled = true ∧
        tick_diff cfg (proc_switch cfg w p).now start ≥ (proc_switch cfg w p).port.rxtimeout
    · have hc : (cfg.rxtimeout_enabled && decide (tick_diff cfg (proc_switch cfg w p).now start ≥
          (proc_switch cfg w p).port.rxtimeout)) = true := by
        simp [ht.1, ht.2]
      rw [if_pos hc] at hr
      injection hr with hr
      injection hr with hb hr
      injection hr with hw' hrest
      refine ⟨hb.symm, [], p, by rw [hrest]; rfl, ?_, by simp, ?_⟩
      · have := ht.2
        rw [h2, hw] at this
        exact this
      · rw [← hw']; rfl
    · have hc : ¬ (cfg.rxtimeout_enabled && decide (tick_diff cfg (proc_switch cfg w p).now start ≥
          (proc_switch cfg w p).port.rxtimeout)) = true := by
        simpa using ht
      rw [if_neg hc, if_pos hs1] at hr
      obtain ⟨hb, pre, p', hp, hge, hlt, hw'⟩ := ih (proc_switch cfg w p) (h2.trans hw) hs2 hr
      refine ⟨hb, p :: pre, p', by rw [hp]; rfl, hge, ?_, by rw [hw']; rfl⟩
      intro q hq
      rcases List.mem_cons.mp hq with h | h
      · rw [h]
        by_contra hcon
        apply ht
        refine ⟨hT, ?_⟩
        rw [h2, hw]
        show T ≤ tick_diff cfg p.now start
        omega
      · exact hlt q h

/-- The wait loop of `ser_getchar` on a queue that stays empty does leave, as
soon as the schedule has a poll whose elapsed time reaches the timeout. -/
theorem ser_getchar_wait_complete (cfg : Config) (hT : cfg.rxtimeout_enabled = true)
    (start T : Nat) (polls : List Poll) (w : World)
    (hw : w.port.rxtimeout = T) (hs : rx_stays_empty cfg w polls)
    (hp : ∃ p ∈ polls, T ≤ tick_diff cfg p.now start) :
    ∃ w' rest, ser_getchar_wait cfg start w polls = some (false, w', rest) := by
  induction polls generalizing w with
  | nil =>
    obtain ⟨p, hp, _⟩ := hp
    cases hp
  | cons p ps ih =>
    obtain ⟨hs1, hs2⟩ := hs
    have h2 := (proc_switch_frame cfg w p).1
    simp only [ser_getchar_wait, hT, Bool.true_and]
    by_cases ht : tick_diff cfg (proc_switch cfg w p).now start ≥
        (proc_switch cfg w p).port.rxtimeout
    · simp only [ht, decide_True, if_true]
      exact ⟨_, _, rfl⟩
    · simp only [ht, decide_False, Bool.false_eq_true, if_false, hs1, if_true]
      apply ih (proc_switch cfg w p) (h2.trans hw) hs2
      obtain ⟨q, hq, hge⟩ := hp
      rcases List.mem_cons.mp hq with h | h
      · exfalso
        apply ht
        rw [h2, hw, ← h]
        exact hge
      · exact ⟨q, h, hge⟩

/-- C4. `ser_getchar` timeout lower bound: with receive timeouts compiled in
and a non-decreasing tick source, when the rx queue is empty at entry and is
found empty after every yield, a return of `ser_getchar` is a return of `EOF`
made at a poll `p` where the ticks elapsed since the wait began, `p.now -
w.now`, have reached `port->rxtimeout`, every earlier poll being below it;
the state returned is the one the environment produced with
`SERRF_RXTIMEOUT` raised in the status, so the call itself changed neither
queue: the rx queue is as at entry, and so is the tx queue when no
transmit-ready notification was served meanwhile.  The call does return once
the schedule has a poll at which the timeout has elapsed. -/
theorem ser_getchar_timeout_lower_bound (cfg : Config) (w : World) (polls : List Poll)
    (hT : cfg.rxtimeout_enabled = true) (he : fifo_isempty w.port.rxfifo = true)
    (hs : rx_stays_empty cfg w polls) (hm : ticks_monotone cfg w.now polls) :
    (∀ r w' rest, ser_getchar cfg w polls = some (r, w', rest) →
      r = EOF ∧ ∃ pre p, polls = pre ++ p :: rest ∧
        w.port.rxtimeout ≤ p.now - w.now ∧
        (∀ q ∈ pre, q.now - w.now < w.port.rxtimeout) ∧
        w' = raise_flag (run_polls cfg w (pre ++ [p])) cfg.SERRF_RXTIMEOUT ∧
        w'.port.status &&& cfg.SERRF_RXTIMEOUT = cfg.SERRF_RXTIMEOUT ∧
        w'.port.rxfifo = w.port.rxfifo ∧
        ((∀ q ∈ pre ++ [p], IsrEvent.txReady ∉ q.events) → w'.port.txfifo = w.port.txfifo) ∧
        w'.hwlog = w.hwlog) ∧
    ((∃ p ∈ polls, w.port.rxtimeout ≤ p.now - w.now) →
      ∃ w' rest, ser_getchar cfg w polls = some (EOF, w', rest)) := by
  have hexact : ∀ p ∈ polls, tick_diff cfg p.now w.now = p.now - w.now := by
    intro p hp
    apply tick_diff_exact cfg _ _ _ (hm.2 p hp)
    have := (List.pairwise_cons.mp hm.1).1 p.now (List.mem_map_of_mem _ hp)
    exact this
  constructor
  · intro r w' rest hr
    simp only [ser_getchar, he, if_true] at hr
    cases hwait : ser_getchar_wait cfg w.now w polls with
    | none => rw [hwait] at hr; cases hr
    | some res =>
      obtain ⟨b, w1, ps1⟩ := res
      obtain ⟨hb, pre, p, hp, hge, hlt, hw1⟩ :=
        ser_getchar_wait_sound cfg hT w.now w.port.rxtimeout polls w rfl hs b w1 ps1 hwait
      rw [hwait, hb] at hr
      simp only [Option.some.injEq, Prod.mk.injEq] at hr
      obtain ⟨hr1, hr2, hr3⟩ := hr
      subst hr1 hr2 hr3
      have hsub : rx_stays_empty cfg w (pre ++ [p]) := by
        rw [hp] at hs
        clear hp hexact hm hwait hlt hge hw1 he
        induction pre generalizing w with
        | nil => exact ⟨hs.1, trivial⟩
        | cons q qs ih => exact ⟨hs.1, ih _ hs.2⟩
      refine ⟨rfl, pre, p, hp, ?_, ?_, hw1, ?_, ?_, ?_, ?_⟩
      · rw [← hexact p (by rw [hp]; simp)]; exact hge
      · intro q hq
        rw [← hexact q (by rw [hp]; simp [hq])]; exact hlt q hq
      · rw [hw1]; exact or_flag_set _ _
      · rw [hw1]; exact run_polls_rx_empty cfg _ w hsub
      · intro hquiet
        rw [hw1]; exact run_polls_tx_quiet cfg _ w hquiet
      · rw [hw1]; exact (run_polls_frame cfg _ w).2.2.2
  · intro hp
    obtain ⟨p, hpm, hge⟩ := hp
    obtain ⟨w', rest, hwait⟩ := ser_getchar_wait_complete cfg hT w.now w.port.rxtimeout polls w
      rfl hs ⟨p, hpm, by rw [hexact p hpm]; exact hge⟩
    exact ⟨w', rest, by simp [ser_getchar, he, hwait]⟩

/-! ## Block read -/

theorem buf_store_same (buf : Buf) (i : Nat) (c : Int) :
    buf_store buf i c i = (c % 256).toNat := by
  simp [buf_store]

theorem buf_store_other (buf : Buf) (i j : Nat) (c : Int) (h : j ≠ i) :
    buf_store buf i c j = buf j := by
  simp [buf_store, Function.update, h]

/-- Cells outside `i .. i + len` are not touched by `write_bytes`. -/
theorem write_bytes_outside (cs : List Int) (buf : Buf) (i j : Nat)
    (h : j < i ∨ i + cs.length ≤ j) : write_bytes buf i cs j = buf j := by
  induction cs generalizing buf i with
  | nil => rfl
  | cons c cs ih =>
    simp only [write_bytes]
    simp only [List.length_cons] at h
    rw [ih _ _ (by omega), buf_store_other _ _ _ _ (by omega)]

/-- Cell `i + k` holds the low eight bits of the `k`-th value written. -/
theorem write_bytes_inside (cs : List Int) (buf : Buf) (i k : Nat) (hk : k < cs.length) :
    write_bytes buf i cs (i + k) = ((cs.getD k 0) % 256).toNat := by
  induction cs generalizing buf i k with
  | nil => cases hk
  | cons c cs ih =>
    simp only [write_bytes]
    cases k with
    | zero =>
      show write_bytes (buf_store buf i c) (i + 1) cs i = _
      rw [write_bytes_outside cs _ (i + 1) i (Or.inl (Nat.lt_succ_self i)), buf_store_same]
      rfl
    | succ k =>
      have := ih (buf_store buf i c) (i + 1) k (by simpa using hk)
      rw [show i + (k + 1) = i + 1 + k by omega, this]
      rfl

/-- `ser_read` is the run of `ser_getchar` calls, with the values stored in
order from `buf[i]` on. -/
theorem ser_read_loop_calls (cfg : Config) (n i : Nat) (buf : Buf) (w : World)
    (polls : List Poll) :
    ser_read_loop cfg n i buf w polls =
      (ser_getchar_calls cfg n w polls).map (fun r =>
        (if r.2.1 then size_to_int cfg (i + n) else EOF, r.2.2.1, r.2.2.2,
          write_bytes buf i r.1)) := by
  induction n generalizing i buf w polls with
  | zero => simp [ser_read_loop, ser_getchar_calls, write_bytes]
  | succ n ih =>
    simp only [ser_read_loop, ser_getchar_calls]
    cases hg : ser_getchar cfg w polls with
    | none => rfl
    | some res =>
      obtain ⟨c, w1, ps1⟩ := res
      by_cases hc : c = EOF
      · simp [hc, write_bytes]
      · simp only [hc, if_false]
        rw [ih]
        cases hcalls : ser_getchar_calls cfg n w1 ps1 with
        | none => rfl
        | some res2 =>
          obtain ⟨cs, ok, w2, ps2⟩ := res2
          simp only [Option.map_some', write_bytes]
          rw [show i + 1 + n = i + (n + 1) by omega]

theorem ser_getchar_calls_length (cfg : Config) (n : Nat) (w : World) (polls : List Poll)
    (cs : List Int) (ok : Bool) (w' : World) (ps' : List Poll)
    (h : ser_getchar_calls cfg n w polls = some (cs, ok, w', ps')) :
    (ok = true → cs.length = n) ∧ (ok = false → cs.length < n) ∧ ∀ c ∈ cs, c ≠ EOF := by
  induction n generalizing w polls cs w' ps' with
  | zero =>
    simp only [ser_getchar_calls, Option.some.injEq, Prod.mk.injEq] at h
    obtain ⟨h1, h2, _⟩ := h
    subst h1 h2
    simp
  | succ n ih =>
    simp only [ser_getchar_calls] at h
    cases hg : ser_getchar cfg w polls with
    | none => rw [hg] at h; cases h
    | some res =>
      obtain ⟨c, w1, ps1⟩ := res
      rw [hg] at h
      by_cases hc : c = EOF
      · simp only [hc, if_true, Option.some.injEq, Prod.mk.injEq] at h
        obtain ⟨h1, h2, _⟩ := h
        subst h1 h2
        simp
      · simp only [hc, if_false] at h
        cases hcalls : ser_getchar_calls cfg n w1 ps1 with
        | none => rw [hcalls] at h; cases h
        | some res2 =>
          obtain ⟨cs2, ok2, w2, ps2⟩ := res2
          rw [hcalls] at h
          simp only [Option.some.injEq, Prod.mk.injEq] at h
          obtain ⟨h1, h2, _⟩ := h
          subst h1 h2
          obtain ⟨i1, i2, i3⟩ := ih w1 ps1 cs2 w2 ps2 hcalls
          refine ⟨fun e => by simp [i1 e], fun e => by simpa using i2 e, ?_⟩
          intro x hx
          rcases List.mem_cons.mp hx with e | e
          · rw [e]; exact hc
          · exact i3 x e

/-- With a clear status and `b` at the head of the rx queue, `ser_getchar`
returns `b` at once and removes it. -/
theorem ser_getchar_head (cfg : Config) (w : World) (polls : List Poll) (b : Nat)
    (rest : List Nat) (hst : w.port.status = 0) (hwf : fifo_wf w.port.rxfifo)
    (hq : fifo_contents w.port.rxfifo = b :: rest) :
    ser_getchar cfg w polls = some ((b : Int), rx_popped w, polls) := by
  have he := fifo_isempty_of_cons _ b _ hq
  obtain ⟨hp1, hb, _, _⟩ := fifo_pop_cons _ b _ hwf hq
  rw [ser_getchar_ready cfg w polls he]
  simp [hst, hp1, Nat.mod_eq_of_lt hb, rx_popped]

theorem byte_ne_EOF (b : Nat) : ¬ ((b : Int) = EOF) := by
  have : (0 : Int) ≤ (b : Int) := Int.ofNat_nonneg b
  unfold EOF; omega

/-- With a clear status and `bs` at the head of the rx queue, `bs.length`
calls of `ser_getchar` succeed without waiting and deliver `bs` in order. -/
theorem ser_getchar_calls_fifo (cfg : Config) (bs rest : List Nat) (w : World)
    (polls : List Poll) (hst : w.port.status = 0) (hwf : fifo_wf w.port.rxfifo)
    (hq : fifo_contents w.port.rxfifo = bs ++ rest) :
    ∃ w', ser_getchar_calls cfg bs.length w polls =
        some (bs.map (Nat.cast : Nat → Int), true, w', polls) ∧
      fifo_contents w'.port.rxfifo = rest ∧ fifo_wf w'.port.rxfifo ∧
      w'.port.status = 0 ∧ w'.port.txfifo = w.port.txfifo ∧ w'.hwlog = w.hwlog := by
  induction bs generalizing w with
  | nil => exact ⟨w, rfl, hq, hwf, hst, rfl, rfl⟩
  | cons b bs ih =>
    have hq' : fifo_contents w.port.rxfifo = b :: (bs ++ rest) := hq
    obtain ⟨_, _, hp2, hp3⟩ := fifo_pop_cons _ b _ hwf hq'
    have hg := ser_getchar_head cfg w polls b _ hst hwf hq'
    obtain ⟨w', h1, h2, h3, h4, h5, h6⟩ :=
      ih (rx_popped w) hst hp3 hp2
    refine ⟨w', ?_, h2, h3, h4, h5, h6⟩
    simp only [List.length_cons, ser_getchar_calls, hg, byte_ne_EOF, if_false, h1, List.map_cons]

theorem size_to_int_small (cfg : Config) (n : Nat) (hn : n ≤ cfg.INT_MAX) :
    size_to_int cfg n = (n : Int) := by
  unfold size_to_int
  rw [Nat.mod_eq_of_lt (by omega), if_pos hn]

/-- C6. `ser_read` is all-or-nothing and order-preserving, for every size `n`
that the `int` result can hold.  The call is the run of at most `n`
consecutive `ser_getchar` calls that stops after the first `EOF`, the values
obtained being stored in order from `buf[0]`; so a result is `n` or `EOF`, it
is `n` exactly when all `n` calls succeeded, and after an `EOF` the state is
the one left by the failing call (no further call is made).  With a clear
status and `n` bytes `bs` at the head of the rx queue the call returns `n`
without waiting, `buf[0..n)` holds `bs` in FIFO order, the cells from `n` on
are untouched and the rx queue holds the remaining bytes. -/
theorem ser_read_all_or_nothing (cfg : Config) (w : World) (polls : List Poll) (buf : Buf)
    (n : Nat) (hmax : n ≤ cfg.INT_MAX) :
    ser_read cfg w polls buf n =
      (ser_getchar_calls cfg n w polls).map (fun r =>
        (if r.2.1 then (n : Int) else EOF, r.2.2.1, r.2.2.2, write_bytes buf 0 r.1)) ∧
    (∀ r w' ps' buf', ser_read cfg w polls buf n = some (r, w', ps', buf') →
      (r = (n : Int) ∨ r = EOF) ∧
      (r = (n : Int) ↔
        ∃ cs, cs.length = n ∧ ser_getchar_calls cfg n w polls = some (cs, true, w', ps')) ∧
      (r = EOF ↔
        ∃ cs, cs.length < n ∧ ser_getchar_calls cfg n w polls = some (cs, false, w', ps'))) ∧
    (∀ bs rest, w.port.status = 0 → fifo_wf w.port.rxfifo →
      fifo_contents w.port.rxfifo = bs ++ rest → bs.length = n →
      ∃ w' buf', ser_read cfg w polls buf n = some ((n : Int), w', polls, buf') ∧
        (∀ k, k < n → buf' k = bs.getD k 0) ∧ (∀ j, n ≤ j → buf' j = buf j) ∧
        fifo_contents w'.port.rxfifo = rest) := by
  have hmain : ser_read cfg w polls buf n =
      (ser_getchar_calls cfg n w polls).map (fun r =>
        (if r.2.1 then (n : Int) else EOF, r.2.2.1, r.2.2.2, write_bytes buf 0 r.1)) := by
    unfold ser_read
    rw [ser_read_loop_calls, Nat.zero_add, size_to_int_small cfg n hmax]
  have hn : ¬ ((n : Int) = EOF) := byte_ne_EOF n
  refine ⟨hmain, ?_, ?_⟩
  · intro r w' ps' buf' hr
    rw [hmain] at hr
    cases hcalls : ser_getchar_calls cfg n w polls with
    | none => rw [hcalls] at hr; cases hr
    | some res =>
      obtain ⟨cs, ok, w2, ps2⟩ := res
      obtain ⟨l1, l2, _⟩ := ser_getchar_calls_length cfg n w polls cs ok w2 ps2 hcalls
      rw [hcalls] at hr
      simp only [Option.map_some', Option.some.injEq, Prod.mk.injEq] at hr
      obtain ⟨hr1, hr2, hr3, _⟩ := hr
      subst hr2 hr3
      cases ok with
      | true =>
        simp only [if_true] at hr1
        subst hr1
        refine ⟨Or.inl rfl, ⟨fun _ => ⟨cs, l1 rfl, rfl⟩, fun _ => rfl⟩, ?_⟩
        constructor
        · intro h; exact absurd h hn
        · rintro ⟨cs', _, h⟩
          simp at h
      | false =>
        simp only [Bool.false_eq_true, if_false] at hr1
        subst hr1
        refine ⟨Or.inr rfl, ?_, ⟨fun _ => ⟨cs, l2 rfl, rfl⟩, fun _ => rfl⟩⟩
        constructor
        · intro h; exact absurd h.symm hn
        · rintro ⟨cs', _, h⟩
          simp at h
  · intro bs rest hst hwf hq hlen
    obtain ⟨w', h1, h2, _, _, _, _⟩ := ser_getchar_calls_fifo cfg bs rest w polls hst hwf hq
    rw [hlen] at h1
    refine ⟨w', write_bytes buf 0 (bs.map (Nat.cast : Nat → Int)), ?_, ?_, ?_, h2⟩
    · rw [hmain, h1]; rfl
    · intro k hk
      have hk2 : k < (bs.map (Nat.cast : Nat → Int)).length := by simpa [hlen] using hk
      have := write_bytes_inside (bs.map (Nat.cast : Nat → Int)) buf 0 k hk2
      rw [Nat.zero_add] at this
      rw [this]
      have hk3 : k < bs.length := by omega
      have hlt : bs.getD k 0 < 256 := by
        rw [List.getD_eq_getElem _ _ hk3]
        have hmem : bs[k] ∈ fifo_contents w.port.rxfifo := by
          rw [hq]; exact List.mem_append_left _ (List.getElem_mem hk3)
        simp only [fifo_contents, List.mem_map, List.mem_range] at hmem
        obtain ⟨i, hi, he⟩ := hmem
        rw [← he]
        exact fifo_getD_lt _ hwf _ (Nat.mod_lt _ hwf.1)
      rw [List.getD_eq_getElem _ _ hk2, List.getElem_map, List.getD_eq_getElem _ _ hk3] at *
      omega
    · intro j hj
      apply write_bytes_outside
      right
      simp [hlen, hj]

/-! ## Line input -/

theorem fifo_contents_lt (fb : FIFOBuffer) (hwf : fifo_wf fb) :
    ∀ b ∈ fifo_contents fb, b < 256 := by
  intro b hb
  simp only [fifo_contents, List.mem_map, List.mem_range] at hb
  obtain ⟨i, _, he⟩ := hb
  rw [← he]
  exact fifo_getD_lt _ hwf _ (Nat.mod_lt _ hwf.1)

theorem fifo_push_count (fb : FIFOBuffer) (b : Nat) (h : fifo_isfull fb = false) :
    (fifo_push fb b).2.count = fb.count + 1 ∧ fifo_cap (fifo_push fb b).2 = fifo_cap fb := by
  rw [fifo_push_snd fb b h]
  simp [fifo_cap]

/-- `ser_putchar` of a byte `b` on a tx queue with room for it. -/
theorem ser_putchar_room (cfg : Config) (b : Nat) (hb : b < 256) (w : World) (polls : List Poll)
    (hwf : fifo_wf w.port.txfifo) (hroom : w.port.txfifo.count + 1 ≤ fifo_cap w.port.txfifo) :
    ∃ w', ser_putchar cfg (b : Int) w polls = some ((b : Int), w', polls) ∧
      w'.port.rxfifo = w.port.rxfifo ∧ w'.port.status = w.port.status ∧
      w'.port.hw = w.port.hw ∧
      fifo_wf w'.port.txfifo ∧ w'.port.txfifo.count = w.port.txfifo.count + 1 ∧
      fifo_cap w'.port.txfifo = fifo_cap w.port.txfifo ∧
      fifo_contents w'.port.txfifo = fifo_contents w.port.txfifo ++ [b] ∧
      w'.hwlog = w.hwlog ++ [HwCall.enabletxirq w.port.hw] := by
  have hf : fifo_isfull w.port.txfifo = false := by
    simp only [fifo_isfull, beq_eq_false_iff_ne, ne_eq]
    omega
  have hcast : ((b : Int) % 256).toNat = b := by omega
  have hcast2 : (b : Int) % 256 = (b : Int) := by omega
  obtain ⟨hc1, hc2⟩ := fifo_push_count w.port.txfifo b hf
  refine ⟨{ w with port := { w.port with txfifo := (fifo_push w.port.txfifo b).2 },
                   hwlog := w.hwlog ++ [HwCall.enabletxirq w.port.hw] },
    ?_, rfl, rfl, rfl, fifo_push_wf _ _ hb hwf, hc1, hc2, fifo_push_contents _ _ hwf hf, rfl⟩
  rw [ser_putchar_ready cfg _ w polls hf, hcast]

/-- The echo of the line end, `ser_print(port, "\r\n")`, on a tx queue with
room for two bytes. -/
theorem ser_print_crlf (cfg : Config) (w : World) (polls : List Poll)
    (hwf : fifo_wf w.port.txfifo) (hroom : w.port.txfifo.count + 2 ≤ fifo_cap w.port.txfifo) :
    ∃ w', ser_print cfg [13, 10] w polls = some (0, w', polls) ∧
      w'.port.rxfifo = w.port.rxfifo ∧ w'.port.status = w.port.status ∧
      fifo_contents w'.port.txfifo = fifo_contents w.port.txfifo ++ [13, 10] ∧
      w'.hwlog = w.hwlog ++ List.replicate 2 (HwCall.enabletxirq w.port.hw) := by
  obtain ⟨w1, h1, r1, s1, g1, f1, c1, k1, t1, l1⟩ :=
    ser_putchar_room cfg 13 (by decide) w polls hwf (by omega)
  obtain ⟨w2, h2, r2, s2, g2, f2, c2, k2, t2, l2⟩ :=
    ser_putchar_room cfg 10 (by decide) w1 polls f1 (by omega)
  refine ⟨w2, ?_, r2.trans r1, s2.trans s1, ?_, ?_⟩
  · have e1 : ((13 : Nat) : Int) = 13 := rfl
    have e2 : ((10 : Nat) : Int) = 10 := rfl
    rw [e1] at h1
    rw [e2] at h2
    have n1 : ¬ ((13 : Int) = 0) := by decide
    have n2 : ¬ ((13 : Int) = EOF) := by decide
    have n3 : ¬ ((10 : Int) = 0) := by decide
    have n4 : ¬ ((10 : Int) = EOF) := by decide
    simp only [ser_print, h1, h2, n1, n2, n3, n4, if_false]
  · rw [t2, t1, List.append_assoc]; rfl
  · rw [l2, l1, g1, List.append_assoc]; rfl

theorem rx_popped_txfifo (w : World) : (rx_popped w).port.txfifo = w.port.txfifo := rfl

theorem rx_popped_rxfifo (w : World) :
    (rx_popped w).port.rxfifo = (fifo_pop w.port.rxfifo).2 := rfl

theorem rx_popped_status (w : World) : (rx_popped w).port.status = w.port.status := rfl

theorem rx_popped_hw (w : World) : (rx_popped w).port.hw = w.port.hw := rfl

theorem rx_popped_hwlog (w : World) : (rx_popped w).hwlog = w.hwlog := rfl

/-- The loop of `ser_gets_echo` when nothing has to wait: the status is clear,
the rx queue holds the bytes `acc` that will be accepted, then the byte `t` on
which the loop stops (a line end, or any byte once `size - 1` bytes are
stored), and with echo the tx queue has room for `acc` and the line end. -/
theorem ser_gets_echo_loop_nowait (cfg : Config) (size : Int) (echo : Bool) (t : Nat)
    (rest : List Nat) (polls : List Poll) (acc : List Nat) (i fuel : Nat) (buf : Buf)
    (w : World) (hst : w.port.status = 0) (hwf : fifo_wf w.port.rxfifo)
    (hq : fifo_contents w.port.rxfifo = acc ++ t :: rest)
    (hacc : ∀ b ∈ acc, b ≠ 13 ∧ b ≠ 10)
    (hlim : ∀ k, k < acc.length → ((i + k : Nat) : Int) < size - 1)
    (ht : t = 13 ∨ t = 10 ∨ ((i + acc.length : Nat) : Int) ≥ size - 1)
    (hfuel : acc.length < fuel)
    (hroom : echo = true → fifo_wf w.port.txfifo ∧
      w.port.txfifo.count + acc.length + 2 ≤ fifo_cap w.port.txfifo) :
    ∃ w', ser_gets_echo_loop cfg size echo fuel i buf w polls =
        some (((i + acc.length : Nat) : Int), w', polls,
          buf_store (write_bytes buf i (acc.map (Nat.cast : Nat → Int))) (i + acc.length) 0) ∧
      w'.port.status = 0 ∧ fifo_contents w'.port.rxfifo = rest ∧
      (echo = true →
        fifo_contents w'.port.txfifo = fifo_contents w.port.txfifo ++ acc ++ [13, 10] ∧
        w'.hwlog = w.hwlog ++ List.replicate (acc.length + 2) (HwCall.enabletxirq w.port.hw)) ∧
      (echo = false → w'.port.txfifo = w.port.txfifo ∧ w'.hwlog = w.hwlog) ∧
      ser_gets_echo_accepted cfg size echo fuel i w polls = acc.map (Nat.cast : Nat → Int) := by
  induction acc generalizing i fuel buf w with
  | nil =>
    obtain ⟨f, rfl⟩ := Nat.exists_eq_succ_of_ne_zero (Nat.pos_iff_ne_zero.mp hfuel)
    have hq' : fifo_contents w.port.rxfifo = t :: rest := hq
    obtain ⟨_, _, hp2, hp3⟩ := fifo_pop_cons _ t _ hwf hq'
    have hg := ser_getchar_head cfg w polls t _ hst hwf hq'
    have hcond : ((t : Int) = 13 ∨ (t : Int) = 10 ∨ (i : Int) ≥ size - 1) := by
      simp only [List.length_nil, Nat.add_zero] at ht
      omega
    cases echo with
    | false =>
      refine ⟨rx_popped w, ?_, hst, hp2, fun h => absurd h (by decide), fun _ => ⟨rfl, rfl⟩, ?_⟩
      · simp only [ser_gets_echo_loop, hg, byte_ne_EOF, if_false, hcond, if_true,
          Bool.false_eq_true, List.length_nil, Nat.add_zero, List.map_nil, write_bytes]
      · simp only [ser_gets_echo_accepted, hg, byte_ne_EOF, if_false, hcond, if_true, List.map_nil]
    | true =>
      obtain ⟨hwt, hr⟩ := hroom rfl
      obtain ⟨w2, h1, r1, s1, t1, l1⟩ := ser_print_crlf cfg
        (rx_popped w) polls hwt
        (by simpa using hr)
      simp only [rx_popped_txfifo, rx_popped_rxfifo, rx_popped_status, rx_popped_hw,
        rx_popped_hwlog] at r1 s1 t1 l1
      refine ⟨w2, ?_, s1.trans hst, by rw [r1]; exact hp2, fun _ => ⟨?_, ?_⟩,
        fun h => absurd h (by decide), ?_⟩
      · simp only [ser_gets_echo_loop, hg, byte_ne_EOF, if_false, hcond, if_true, h1,
          List.length_nil, Nat.add_zero, List.map_nil, write_bytes]
      · rw [t1]; simp
      · rw [l1]; rfl
      · simp only [ser_gets_echo_accepted, hg, byte_ne_EOF, if_false, hcond, if_true, List.map_nil]
  | cons a as ih =>
    obtain ⟨f, rfl⟩ := Nat.exists_eq_succ_of_ne_zero (Nat.not_eq_zero_of_lt hfuel)
    have hq' : fifo_contents w.port.rxfifo = a :: (as ++ t :: rest) := hq
    obtain ⟨_, ha, hp2, hp3⟩ := fifo_pop_cons _ a _ hwf hq'
    have hg := ser_getchar_head cfg w polls a _ hst hwf hq'
    have ha2 := hacc a (List.mem_cons_self _ _)
    have hi0 := hlim 0 (by simp)
    have hcond : ¬ ((a : Int) = 13 ∨ (a : Int) = 10 ∨ (i : Int) ≥ size - 1) := by
      simp only [Nat.add_zero] at hi0
      omega
    have hacc' : ∀ b ∈ as, b ≠ 13 ∧ b ≠ 10 := fun b hb => hacc b (List.mem_cons_of_mem _ hb)
    have hlim' : ∀ k, k < as.length → ((i + 1 + k : Nat) : Int) < size - 1 := by
      intro k hk
      have := hlim (k + 1) (by simpa using hk)
      rw [show i + 1 + k = i + (k + 1) by omega]
      exact this
    have ht' : t = 13 ∨ t = 10 ∨ ((i + 1 + as.length : Nat) : Int) ≥ size - 1 := by
      rw [show i + 1 + as.length = i + (a :: as).length by simp; omega]
      exact ht
    have hfuel' : as.length < f := by simpa using hfuel
    have hlen : i + 1 + as.length = i + (a :: as).length := by simp; omega
    cases echo with
    | false =>
      obtain ⟨w', h1, h2, h3, _, h5, h6⟩ := ih (i + 1) f (buf_store buf i (a : Int))
        (rx_popped w)
        hst hp3 hp2 hacc' hlim' ht' hfuel' (fun h => absurd h (by decide))
      refine ⟨w', ?_, h2, h3, fun h => absurd h (by decide), fun _ => h5 rfl, ?_⟩
      · simp only [ser_gets_echo_loop, hg, byte_ne_EOF, if_false, hcond, Bool.false_eq_true, h1,
          List.map_cons, write_bytes, hlen]
      · simp only [ser_gets_echo_accepted, hg, byte_ne_EOF, if_false, hcond, Bool.false_eq_true,
          h6, List.map_cons]
    | true =>
      obtain ⟨hwt, hr⟩ := hroom rfl
      simp only [List.length_cons] at hr
      obtain ⟨w1, p1, r1, s1, g1, f1, c1, k1, t1, l1⟩ := ser_putchar_room cfg a ha
        (rx_popped w) polls hwt
        (by show w.port.txfifo.count + 1 ≤ fifo_cap w.port.txfifo; omega)
      simp only [rx_popped_txfifo, rx_popped_rxfifo, rx_popped_status, rx_popped_hw,
        rx_popped_hwlog] at r1 s1 g1 c1 k1 t1 l1
      obtain ⟨w', h1, h2, h3, h4, _, h6⟩ := ih (i + 1) f (buf_store buf i (a : Int)) w1
        (s1.trans hst) (by rw [r1]; exact hp3) (by rw [r1]; exact hp2) hacc' hlim' ht' hfuel'
        (fun _ => ⟨f1, by rw [c1, k1]; show w.port.txfifo.count + 1 + as.length + 2 ≤ _; omega⟩)
      obtain ⟨h4a, h4b⟩ := h4 rfl
      refine ⟨w', ?_, h2, h3, fun _ => ⟨?_, ?_⟩, fun h => absurd h (by decide), ?_⟩
      · simp only [ser_gets_echo_loop, hg, byte_ne_EOF, if_false, hcond, if_true, p1, h1,
          List.map_cons, write_bytes, hlen]
      · rw [h4a, t1]
        simp
      · rw [h4b, l1, g1]
        simp only [List.length_cons, List.append_assoc]
        show _ = w.hwlog ++ List.replicate (as.length + 1 + 2) (HwCall.enabletxirq w.port.hw)
        rw [show as.length + 1 + 2 = (as.length + 2) + 1 by omega, List.replicate_succ]
        rfl
      · simp only [ser_gets_echo_accepted, hg, byte_ne_EOF, if_false, hcond, if_true, p1, h6,
          List.map_cons]

theorem line_before_eol_cases (input : List Nat) :
    (∀ b ∈ line_before_eol input, b ≠ 13 ∧ b ≠ 10) ∧
    (input = line_before_eol input ∨
      ∃ t rest, input = line_before_eol input ++ t :: rest ∧ (t = 13 ∨ t = 10)) := by
  induction input with
  | nil => exact ⟨fun b hb => (by cases hb), Or.inl rfl⟩
  | cons a as ih =>
    by_cases ha : a ≠ 13 ∧ a ≠ 10
    · have hp : line_before_eol (a :: as) = a :: line_before_eol as := by
        have : (a != 13 && a != 10) = true := by simp [ha.1, ha.2]
        simp [line_before_eol, List.takeWhile, this]
      rw [hp]
      refine ⟨?_, ?_⟩
      · intro b hb
        rcases List.mem_cons.mp hb with e | e
        · rw [e]; exact ha
        · exact ih.1 b e
      · rcases ih.2 with e | ⟨t, rest, e, ht⟩
        · left; rw [← e]
        · right; exact ⟨t, rest, by rw [List.cons_append, ← e], ht⟩
    · have hp : line_before_eol (a :: as) = [] := by
        have : (a != 13 && a != 10) = false := by
          by_cases h13 : a = 13
          · simp [h13]
          · have h10 : a = 10 := by
              by_contra h; exact ha ⟨h13, h⟩
            simp [h10]
        simp [line_before_eol, List.takeWhile, this]
      rw [hp]
      refine ⟨fun b hb => (by cases hb), Or.inr ⟨a, as, rfl, ?_⟩⟩
      by_cases h13 : a = 13
      · exact Or.inl h13
      · right
        by_contra h; exact ha ⟨h13, h⟩

/-- The cells of the buffer after the bytes `acc` have been stored from
`buf[0]` and the NUL after them. -/
theorem line_buffer_cells (buf : Buf) (acc : List Nat) (hlt : ∀ b ∈ acc, b < 256) :
    (∀ k, k < acc.length →
      buf_store (write_bytes buf 0 (acc.map (Nat.cast : Nat → Int))) (0 + acc.length) 0 k
        = acc.getD k 0) ∧
    buf_store (write_bytes buf 0 (acc.map (Nat.cast : Nat → Int))) (0 + acc.length) 0
      acc.length = 0 ∧
    (∀ j, acc.length < j →
      buf_store (write_bytes buf 0 (acc.map (Nat.cast : Nat → Int))) (0 + acc.length) 0 j
        = buf j) := by
  rw [Nat.zero_add]
  refine ⟨?_, ?_, ?_⟩
  · intro k hk
    rw [buf_store_other _ _ _ _ (by omega)]
    have hk2 : k < (acc.map (Nat.cast : Nat → Int)).length := by simpa using hk
    have := write_bytes_inside (acc.map (Nat.cast : Nat → Int)) buf 0 k hk2
    rw [Nat.zero_add] at this
    rw [this, List.getD_eq_getElem _ _ hk2, List.getElem_map, List.getD_eq_getElem _ _ hk]
    have := hlt _ (List.getElem_mem hk)
    omega
  · rw [buf_store_same]; rfl
  · intro j hj
    rw [buf_store_other _ _ _ _ (by omega)]
    apply write_bytes_outside
    right
    simp
    omega

/-- C7. The line produced by `ser_gets_echo` (and so by `ser_gets`, which is
the call with `echo = false`): with a clear status and `size >= 1`, when the rx
queue holds input that lets the call finish without waiting (and, with echo,
the tx queue has room), the call returns the length of `stored`, the prefix of
the input before the first CR or LF cut to `size - 1` bytes, and the buffer
holds `stored` followed by a NUL; the cells after the NUL are untouched and
the rx queue is left with what follows the byte on which the call stopped. -/
theorem ser_gets_line (cfg : Config) (w : World) (polls : List Poll) (buf : Buf) (size : Int)
    (echo : Bool) (input : List Nat) (hsize : 1 ≤ size) (hst : w.port.status = 0)
    (hwf : fifo_wf w.port.rxfifo) (hq : fifo_contents w.port.rxfifo = input)
    (hfin : ((line_before_eol input).take (size - 1).toNat).length < input.length)
    (hroom : echo = true → fifo_wf w.port.txfifo ∧
      w.port.txfifo.count + ((line_before_eol input).take (size - 1).toNat).length + 2
        ≤ fifo_cap w.port.txfifo) :
    ∃ w' buf', ser_gets_echo cfg w polls buf size echo =
        some ((((line_before_eol input).take (size - 1).toNat).length : Int), w', polls, buf') ∧
      (∀ k, k < ((line_before_eol input).take (size - 1).toNat).length →
        buf' k = ((line_before_eol input).take (size - 1).toNat).getD k 0) ∧
      buf' ((line_before_eol input).take (size - 1).toNat).length = 0 ∧
      (∀ j, ((line_before_eol input).take (size - 1).toNat).length < j → buf' j = buf j) ∧
      fifo_contents w'.port.rxfifo =
        input.drop (((line_before_eol input).take (size - 1).toNat).length + 1) ∧
      ser_gets cfg w polls buf size = ser_gets_echo cfg w polls buf size false := by
  obtain ⟨hnt, hsplit⟩ := line_before_eol_cases input
  generalize hm : (size - 1).toNat = m at *
  generalize hlp : line_before_eol input = lp at *
  have hmsize : (m : Int) = size - 1 := by omega
  -- the accepted bytes, the byte on which the loop stops, and what follows it
  have hdecomp : ∃ t rest, input = lp.take m ++ t :: rest ∧
      (t = 13 ∨ t = 10 ∨ (((0 + (lp.take m).length : Nat)) : Int) ≥ size - 1) := by
    by_cases hlen : m < lp.length
    · have hd : lp.drop m ≠ [] := by
        intro h
        have := congrArg List.length h
        simp at this
        omega
      obtain ⟨t, r, htr⟩ := List.exists_cons_of_ne_nil hd
      have hlp2 : lp = lp.take m ++ t :: r := by rw [← htr, List.take_append_drop]
      have hl : (lp.take m).length = m := by simp; omega
      rcases hsplit with e | ⟨t0, rest0, e, _⟩
      · exact ⟨t, r, by rw [e]; exact hlp2, Or.inr (Or.inr (by rw [hl]; omega))⟩
      · refine ⟨t, r ++ t0 :: rest0, ?_, Or.inr (Or.inr (by rw [hl]; omega))⟩
        rw [e]
        conv_lhs => rw [hlp2]
        simp
    · have htake : lp.take m = lp := List.take_of_length_le (by omega)
      rcases hsplit with e | ⟨t0, rest0, e, ht0⟩
      · exfalso
        rw [htake] at hfin
        rw [e] at hfin
        omega
      · exact ⟨t0, rest0, by rw [htake]; exact e, by
          rcases ht0 with h | h
          · exact Or.inl h
          · exact Or.inr (Or.inl h)⟩
  obtain ⟨t, rest, hin, ht⟩ := hdecomp
  have hacc : ∀ b ∈ lp.take m, b ≠ 13 ∧ b ≠ 10 := fun b hb => hnt b (List.mem_of_mem_take hb)
  have hle : (lp.take m).length ≤ m := by simp
  have hbytes : ∀ b ∈ lp.take m, b < 256 := by
    intro b hb
    apply fifo_contents_lt _ hwf
    rw [hq, hin]
    exact List.mem_append_left _ hb
  obtain ⟨w', h1, _, h3, _, _, _⟩ := ser_gets_echo_loop_nowait cfg size echo t rest polls
    (lp.take m) 0 (size.toNat + 1) buf w hst hwf (by rw [hq]; exact hin) hacc
    (by intro k hk; omega) ht (by omega) hroom
  obtain ⟨c1, c2, c3⟩ := line_buffer_cells buf (lp.take m) hbytes
  refine ⟨w', _, ?_, c1, c2, c3, ?_, rfl⟩
  · unfold ser_gets_echo
    rw [h1, Nat.zero_add]
  · rw [h3]
    conv_rhs => rw [hin]
    rw [List.drop_append]
    rfl

theorem ser_getchar_range (cfg : Config) (w : World) (polls : List Poll) (c : Int) (w' : World)
    (ps' : List Poll) (h : ser_getchar cfg w polls = some (c, w', ps')) :
    c = EOF ∨ (0 ≤ c ∧ c ≤ 255) := by
  have key : ∀ waited : Option (Bool × World × List Poll),
      (match waited with
        | none => none
        | some (false, w1, ps) => some (EOF, w1, ps)
        | some (true, w1, ps) =>
          some (if w1.port.status ≠ 0 then EOF
                else (((fifo_pop w1.port.rxfifo).1.getD 0 % 256 : Nat) : Int),
            { w1 with port := { w1.port with rxfifo := (fifo_pop w1.port.rxfifo).2 } }, ps))
        = some (c, w', ps') → c = EOF ∨ (0 ≤ c ∧ c ≤ 255) := by
    intro waited hw
    match waited, hw with
    | none, hw => cases hw
    | some (false, w1, ps), hw =>
      simp only [Option.some.injEq, Prod.mk.injEq] at hw
      exact Or.inl hw.1.symm
    | some (true, w1, ps), hw =>
      simp only [Option.some.injEq, Prod.mk.injEq] at hw
      obtain ⟨h1, _, _⟩ := hw
      by_cases hs : w1.port.status ≠ 0
      · rw [if_pos hs] at h1
        exact Or.inl h1.symm
      · rw [if_neg hs] at h1
        right
        rw [← h1]
        have := Nat.mod_lt ((fifo_pop w1.port.rxfifo).1.getD 0) (by decide : 0 < 256)
        omega
  exact key _ h

/-- The loop of `ser_gets_echo` makes at most `size - i` turns: any two
amounts of fuel above `size - 1 - i` give the same result. -/
theorem ser_gets_echo_loop_fuel (cfg : Config) (size : Int) (echo : Bool) (f1 f2 i : Nat)
    (buf : Buf) (w : World) (polls : List Poll)
    (h1 : (size - 1 - (i : Int)).toNat < f1) (h2 : (size - 1 - (i : Int)).toNat < f2) :
    ser_gets_echo_loop cfg size echo f1 i buf w polls =
      ser_gets_echo_loop cfg size echo f2 i buf w polls := by
  induction f1 generalizing f2 i buf w polls with
  | zero => omega
  | succ f1 ih =>
    obtain ⟨g2, rfl⟩ := Nat.exists_eq_succ_of_ne_zero (Nat.not_eq_zero_of_lt h2)
    simp only [ser_gets_echo_loop]
    cases hg : ser_getchar cfg w polls with
    | none => rfl
    | some res =>
      obtain ⟨c, w1, ps1⟩ := res
      simp only
      by_cases hc : c = EOF
      · simp only [hc, if_true]
      · simp only [hc, if_false]
        by_cases hcond : c = 13 ∨ c = 10 ∨ (i : Int) ≥ size - 1
        · simp only [hcond, if_true]
        · simp only [hcond, if_false]
          have hi : (i : Int) < size - 1 := by omega
          have e1 : (size - 1 - ((i + 1 : Nat) : Int)).toNat < f1 := by omega
          have e2 : (size - 1 - ((i + 1 : Nat) : Int)).toNat < g2 := by omega
          cases echo with
          | false => exact ih g2 (i + 1) _ w1 ps1 e1 e2
          | true =>
            simp only [if_true]
            cases ser_putchar cfg c w1 ps1 with
            | none => rfl
            | some res2 =>
              obtain ⟨r, w2, ps2⟩ := res2
              exact ih g2 (i + 1) _ w2 ps2 e1 e2

/-- Invariant of the loop of `ser_gets_echo`: entered with `i <= size - 1`,
a return has stored the accepted bytes from `buf[i]` on, then the NUL, at an
index that is still at most `size - 1`, and the value returned is that index
or `-1`. -/
theorem ser_gets_echo_loop_bounds (cfg : Config) (size : Int) (echo : Bool) (fuel i : Nat)
    (buf : Buf) (w : World) (polls : List Poll) (r : Int) (w' : World) (ps' : List Poll)
    (buf' : Buf) (hi : (i : Int) ≤ size - 1)
    (h : ser_gets_echo_loop cfg size echo fuel i buf w polls = some (r, w', ps', buf')) :
    buf' = buf_store (write_bytes buf i (ser_gets_echo_accepted cfg size echo fuel i w polls))
        (i + (ser_gets_echo_accepted cfg size echo fuel i w polls).length) 0 ∧
    ((i + (ser_gets_echo_accepted cfg size echo fuel i w polls).length : Nat) : Int) ≤ size - 1 ∧
    (r = ((i + (ser_gets_echo_accepted cfg size echo fuel i w polls).length : Nat) : Int) ∨
      r = -1) ∧
    ∀ c ∈ ser_gets_echo_accepted cfg size echo fuel i w polls, 0 ≤ c ∧ c ≤ 255 := by
  induction fuel generalizing i buf w polls with
  | zero => simp [ser_gets_echo_loop] at h
  | succ fuel ih =>
    simp only [ser_gets_echo_loop, ser_gets_echo_accepted] at h ⊢
    cases hg : ser_getchar cfg w polls with
    | none => rw [hg] at h; cases h
    | some res =>
      obtain ⟨c, w1, ps1⟩ := res
      rw [hg] at h
      simp only at h ⊢
      have hrange := ser_getchar_range cfg w polls c w1 ps1 hg
      by_cases hc : c = EOF
      · simp only [hc, if_true, Option.some.injEq, Prod.mk.injEq] at h ⊢
        obtain ⟨h1, _, _, h4⟩ := h
        simp only [List.length_nil, Nat.add_zero, write_bytes]
        exact ⟨h4.symm, hi, Or.inr h1.symm, fun c hc => (by cases hc)⟩
      · simp only [hc, if_false] at h ⊢
        by_cases hcond : c = 13 ∨ c = 10 ∨ (i : Int) ≥ size - 1
        · simp only [hcond, if_true] at h ⊢
          simp only [List.length_nil, Nat.add_zero, write_bytes]
          cases echo with
          | false =>
            simp only [Bool.false_eq_true, if_false, Option.some.injEq, Prod.mk.injEq] at h
            obtain ⟨h1, _, _, h4⟩ := h
            exact ⟨h4.symm, hi, Or.inl h1.symm, fun c hc => (by cases hc)⟩
          | true =>
            simp only [if_true] at h
            cases hp : ser_print cfg [13, 10] w1 ps1 with
            | none => rw [hp] at h; cases h
            | some res2 =>
              obtain ⟨r2, w2, ps2⟩ := res2
              rw [hp] at h
              simp only [Option.some.injEq, Prod.mk.injEq] at h
              obtain ⟨h1, _, _, h4⟩ := h
              exact ⟨h4.symm, hi, Or.inl h1.symm, fun c hc => (by cases hc)⟩
        · simp only [hcond, if_false] at h ⊢
          have hi' : ((i + 1 : Nat) : Int) ≤ size - 1 := by omega
          have hcr : 0 ≤ c ∧ c ≤ 255 := by
            rcases hrange with e | e
            · exact absurd e hc
            · exact e
          cases echo with
          | false =>
            simp only [Bool.false_eq_true, if_false] at h ⊢
            obtain ⟨k1, k2, k3, k4⟩ := ih (i + 1) _ w1 ps1 hi' h
            simp only [List.length_cons, write_bytes]
            rw [show i + ((ser_gets_echo_accepted cfg size false fuel (i + 1) w1 ps1).length + 1)
              = i + 1 + (ser_gets_echo_accepted cfg size false fuel (i + 1) w1 ps1).length by omega]
            refine ⟨k1, k2, k3, ?_⟩
            intro x hx
            rcases List.mem_cons.mp hx with e | e
            · rw [e]; exact hcr
            · exact k4 x e
          | true =>
            simp only [if_true] at h ⊢
            cases hp : ser_putchar cfg c w1 ps1 with
            | none => rw [hp] at h; cases h
            | some res2 =>
              obtain ⟨r2, w2, ps2⟩ := res2
              rw [hp] at h
              simp only at h ⊢
              obtain ⟨k1, k2, k3, k4⟩ := ih (i + 1) _ w2 ps2 hi' h
              simp only [List.length_cons, write_bytes]
              rw [show i + ((ser_gets_echo_accepted cfg size true fuel (i + 1) w2 ps2).length + 1)
                = i + 1 + (ser_gets_echo_accepted cfg size true fuel (i + 1) w2 ps2).length by omega]
              refine ⟨k1, k2, k3, ?_⟩
              intro x hx
              rcases List.mem_cons.mp hx with e | e
              · rw [e]; exact hcr
              · exact k4 x e

/-- What ends the loop of `ser_gets_echo`: a return is made on a value `c` of
`ser_getchar` that is `EOF`, and then `-1` is returned, or that is a line end
or arrives with `size - 1` bytes stored, and then the number of bytes stored is
returned. -/
theorem ser_gets_echo_loop_stop (cfg : Config) (size : Int) (echo : Bool) (fuel i : Nat)
    (buf : Buf) (w : World) (polls : List Poll) (r : Int) (w' : World) (ps' : List Poll)
    (buf' : Buf)
    (h : ser_gets_echo_loop cfg size echo fuel i buf w polls = some (r, w', ps', buf')) :
    ∃ c, ser_gets_echo_stop cfg size echo fuel i w polls = some c ∧
      (c = EOF → r = -1) ∧
      (c ≠ EOF →
        r = ((i + (ser_gets_echo_accepted cfg size echo fuel i w polls).length : Nat) : Int) ∧
        (c = 13 ∨ c = 10 ∨
          ((i + (ser_gets_echo_accepted cfg size echo fuel i w polls).length : Nat) : Int)
            ≥ size - 1)) := by
  induction fuel generalizing i buf w polls with
  | zero => simp [ser_gets_echo_loop] at h
  | succ fuel ih =>
    simp only [ser_gets_echo_loop, ser_gets_echo_accepted, ser_gets_echo_stop] at h ⊢
    cases hg : ser_getchar cfg w polls with
    | none => rw [hg] at h; cases h
    | some res =>
      obtain ⟨c, w1, ps1⟩ := res
      rw [hg] at h
      simp only at h ⊢
      by_cases hc : c = EOF
      · simp only [hc, if_true, Option.some.injEq, Prod.mk.injEq] at h ⊢
        exact ⟨EOF, rfl, fun _ => h.1.symm, fun hne => absurd rfl hne⟩
      · simp only [hc, if_false] at h ⊢
        by_cases hcond : c = 13 ∨ c = 10 ∨ (i : Int) ≥ size - 1
        · simp only [hcond, if_true] at h ⊢
          simp only [List.length_nil, Nat.add_zero]
          have hr : r = (i : Int) := by
            cases echo with
            | false =>
              simp only [Bool.false_eq_true, if_false, Option.some.injEq, Prod.mk.injEq] at h
              exact h.1.symm
            | true =>
              simp only [if_true] at h
              cases hp : ser_print cfg [13, 10] w1 ps1 with
              | none => rw [hp] at h; cases h
              | some res2 =>
                obtain ⟨r2, w2, ps2⟩ := res2
                rw [hp] at h
                simp only [Option.some.injEq, Prod.mk.injEq] at h
                exact h.1.symm
          exact ⟨c, rfl, fun e => absurd e hc, fun _ => ⟨hr, hcond⟩⟩
        · simp only [hcond, if_false] at h ⊢
          cases echo with
          | false =>
            simp only [Bool.false_eq_true, if_false] at h ⊢
            obtain ⟨c', k1, k2, k3⟩ := ih (i + 1) _ w1 ps1 h
            simp only [List.length_cons]
            rw [show i + ((ser_gets_echo_accepted cfg size false fuel (i + 1) w1 ps1).length + 1)
              = i + 1 + (ser_gets_echo_accepted cfg size false fuel (i + 1) w1 ps1).length by omega]
            exact ⟨c', k1, k2, k3⟩
          | true =>
            simp only [if_true] at h ⊢
            cases hp : ser_putchar cfg c w1 ps1 with
            | none => rw [hp] at h; cases h
            | some res2 =>
              obtain ⟨r2, w2, ps2⟩ := res2
              rw [hp] at h
              simp only at h ⊢
              obtain ⟨c', k1, k2, k3⟩ := ih (i + 1) _ w2 ps2 h
              simp only [List.length_cons]
              rw [show i + ((ser_gets_echo_accepted cfg size true fuel (i + 1) w2 ps2).length + 1)
                = i + 1 + (ser_gets_echo_accepted cfg size true fuel (i + 1) w2 ps2).length by omega]
              exact ⟨c', k1, k2, k3⟩

/-- C9. `ser_gets_echo` always yields a NUL-terminated buffer within bounds:
for `size >= 1`, every port state, schedule and echo setting, on every return,
with `acc` the bytes accepted and `j` their number: `j <= size - 1`,
`buf[j] = 0`, `buf[0..j)` holds `acc` in order, and no cell beyond `buf[j]`,
so none at an index `>= size`, has been written.  The return is made on a
value `c` of `ser_getchar` that is `EOF`, in which case `-1` is returned, or
that is a line end or arrives when the size limit is reached, in which case
`j` is returned.  The fuel of the loop is never what ends it: any fuel above
`size` gives the same result. -/
theorem ser_gets_echo_nul_terminated (cfg : Config) (w : World) (polls : List Poll) (buf : Buf)
    (size : Int) (echo : Bool) (hsize : 1 ≤ size) :
    (∀ fuel, size.toNat < fuel →
      ser_gets_echo_loop cfg size echo fuel 0 buf w polls =
        ser_gets_echo cfg w polls buf size echo) ∧
    ∀ r w' ps' buf', ser_gets_echo cfg w polls buf size echo = some (r, w', ps', buf') →
      ∃ acc j c, acc = ser_gets_echo_accepted cfg size echo (size.toNat + 1) 0 w polls ∧
        ser_gets_echo_stop cfg size echo (size.toNat + 1) 0 w polls = some c ∧
        j = acc.length ∧ (j : Int) ≤ size - 1 ∧ buf' j = 0 ∧
        (∀ k, k < j → ((buf' k : Nat) : Int) = acc.getD k 0) ∧
        (∀ idx, j < idx → buf' idx = buf idx) ∧
        (∀ idx : Nat, size ≤ (idx : Int) → buf' idx = buf idx) ∧
        (r = (j : Int) ∨ r = -1) ∧
        (c = EOF → r = -1) ∧
        (c ≠ EOF → r = (j : Int) ∧ (c = 13 ∨ c = 10 ∨ (j : Int) ≥ size - 1)) := by
  constructor
  · intro fuel hf
    unfold ser_gets_echo
    exact ser_gets_echo_loop_fuel cfg size echo fuel (size.toNat + 1) 0 buf w polls
      (by omega) (by omega)
  · intro r w' ps' buf' h
    obtain ⟨k1, k2, k3, k4⟩ := ser_gets_echo_loop_bounds cfg size echo (size.toNat + 1) 0 buf w
      polls r w' ps' buf' (by omega) h
    obtain ⟨c, s1, s2, s3⟩ := ser_gets_echo_loop_stop cfg size echo (size.toNat + 1) 0 buf w
      polls r w' ps' buf' h
    simp only [Nat.zero_add] at k1 k2 k3 s3
    generalize ser_gets_echo_accepted cfg size echo (size.toNat + 1) 0 w polls = acc at *
    have hout : ∀ idx, acc.length < idx → buf' idx = buf idx := by
      intro idx hidx
      rw [k1, buf_store_other _ _ _ _ (by omega)]
      exact write_bytes_outside _ _ _ _ (Or.inr (by omega))
    refine ⟨acc, acc.length, c, rfl, s1, rfl, k2, ?_, ?_, hout, ?_, k3, s2, s3⟩
    · rw [k1, buf_store_same]; rfl
    · intro k hk
      rw [k1, buf_store_other _ _ _ _ (by omega)]
      have := write_bytes_inside acc buf 0 k hk
      rw [Nat.zero_add] at this
      rw [this]
      have hmem : acc.getD k 0 ∈ acc := by
        rw [List.getD_eq_getElem _ _ hk]; exact List.getElem_mem hk
      have := k4 _ hmem
      omega
    · intro idx hidx
      exact hout idx (by omega)

/-! ### The tx queue during a read -/

/-- What a notification leaves in the tx queue depends on the tx queue only. -/
theorem isr_event_tx_congr (cfg : Config) (p1 p2 : Serial) (e : IsrEvent)
    (h : p1.txfifo = p2.txfifo) :
    (isr_event cfg p1 e).txfifo = (isr_event cfg p2 e).txfifo := by
  cases e with
  | rxByte b =>
    by_cases h1 : fifo_isfull p1.rxfifo = true <;> by_cases h2 : fifo_isfull p2.rxfifo = true <;>
      simp [isr_event, h1, h2, h]
  | txReady => simp [isr_event, h]

theorem isr_events_tx_congr (cfg : Config) (evs : List IsrEvent) (p1 p2 : Serial)
    (h : p1.txfifo = p2.txfifo) :
    (evs.foldl (isr_event cfg) p1).txfifo = (evs.foldl (isr_event cfg) p2).txfifo := by
  induction evs generalizing p1 p2 with
  | nil => exact h
  | cons e es ih =>
    simp only [List.foldl_cons]
    exact ih _ _ (isr_event_tx_congr cfg p1 p2 e h)

theorem run_polls_tx_congr (cfg : Config) (ps : List Poll) (w1 w2 : World)
    (h : w1.port.txfifo = w2.port.txfifo) :
    (run_polls cfg w1 ps).port.txfifo = (run_polls cfg w2 ps).port.txfifo := by
  induction ps generalizing w1 w2 with
  | nil => exact h
  | cons p ps ih =>
    exact ih _ _ (isr_events_tx_congr cfg p.events w1.port w2.port h)

/-- The wait loop of `ser_getchar` leaves in the tx queue what the yields it
took left there, and makes no call into the back-end. -/
theorem ser_getchar_wait_tx (cfg : Config) (start : Nat) (polls : List Poll) (w : World)
    (b : Bool) (w' : World) (ps' : List Poll)
    (h : ser_getchar_wait cfg start w polls = some (b, w', ps')) :
    ∃ served, polls = served ++ ps' ∧
      w'.port.txfifo = (run_polls cfg w served).port.txfifo ∧ w'.hwlog = w.hwlog := by
  induction polls generalizing w with
  | nil => simp [ser_getchar_wait] at h
  | cons p ps ih =>
    simp only [ser_getchar_wait] at h
    split at h
    · simp only [Option.some.injEq, Prod.mk.injEq] at h
      obtain ⟨_, h2, h3⟩ := h
      refine ⟨[p], by rw [h3]; rfl, by rw [← h2]; rfl, by rw [← h2]; rfl⟩
    · split at h
      · obtain ⟨served, k1, k2, k3⟩ := ih _ h
        exact ⟨p :: served, by rw [k1]; rfl, k2, k3⟩
      · simp only [Option.some.injEq, Prod.mk.injEq] at h
        obtain ⟨_, h2, h3⟩ := h
        refine ⟨[p], by rw [h3]; rfl, by rw [← h2]; rfl, by rw [← h2]; rfl⟩

/-- A call of `ser_getchar` leaves in the tx queue what the yields it took
left there, and makes no call into the back-end. -/
theorem ser_getchar_tx (cfg : Config) (w : World) (polls : List Poll) (r : Int)
    (w' : World) (ps' : List Poll) (h : ser_getchar cfg w polls = some (r, w', ps')) :
    ∃ served, polls = served ++ ps' ∧
      w'.port.txfifo = (run_polls cfg w served).port.txfifo ∧ w'.hwlog = w.hwlog := by
  have key : ∀ waited : Option (Bool × World × List Poll),
      (∀ b w1 ps, waited = some (b, w1, ps) → ∃ served, polls = served ++ ps ∧
        w1.port.txfifo = (run_polls cfg w served).port.txfifo ∧ w1.hwlog = w.hwlog) →
      (match waited with
        | none => none
        | some (false, w1, ps) => some (EOF, w1, ps)
        | some (true, w1, ps) =>
          some (if w1.port.status ≠ 0 then EOF
                else (((fifo_pop w1.port.rxfifo).1.getD 0 % 256 : Nat) : Int),
            { w1 with port := { w1.port with rxfifo := (fifo_pop w1.port.rxfifo).2 } }, ps))
        = some (r, w', ps') →
      ∃ served, polls = served ++ ps' ∧
        w'.port.txfifo = (run_polls cfg w served).port.txfifo ∧ w'.hwlog = w.hwlog := by
    intro waited hfr hw
    match waited, hfr, hw with
    | none, _, hw => cases hw
    | some (false, w1, ps), hfr, hw =>
      simp only [Option.some.injEq, Prod.mk.injEq] at hw
      obtain ⟨_, h2, h3⟩ := hw
      rw [← h2, ← h3]
      exact hfr false w1 ps rfl
    | some (true, w1, ps), hfr, hw =>
      simp only [Option.some.injEq, Prod.mk.injEq] at hw
      obtain ⟨_, h2, h3⟩ := hw
      rw [← h2, ← h3]
      exact hfr true w1 ps rfl
  apply key _ _ h
  intro b w1 ps hw
  by_cases hf : fifo_isempty w.port.rxfifo = true
  · rw [if_pos hf] at hw
    exact ser_getchar_wait_tx cfg _ _ _ _ _ _ hw
  · rw [if_neg hf] at hw
    simp only [Option.some.injEq, Prod.mk.injEq] at hw
    rw [← hw.2.1, ← hw.2.2]
    exact ⟨[], rfl, rfl, rfl⟩

/-- Without echo the loop of `ser_gets_echo` is made of `ser_getchar` calls
only: whatever it returns, the tx queue is what the yields taken meanwhile left
there, and no call into the back-end was made. -/
theorem ser_gets_echo_loop_noecho_tx (cfg : Config) (size : Int) (fuel i : Nat)
    (buf : Buf) (w : World) (polls : List Poll) (r : Int) (w' : World) (ps' : List Poll)
    (buf' : Buf)
    (h : ser_gets_echo_loop cfg size false fuel i buf w polls = some (r, w', ps', buf')) :
    ∃ served, polls = served ++ ps' ∧
      w'.port.txfifo = (run_polls cfg w served).port.txfifo ∧ w'.hwlog = w.hwlog := by
  induction fuel generalizing i buf w polls with
  | zero => simp [ser_gets_echo_loop] at h
  | succ fuel ih =>
    simp only [ser_gets_echo_loop] at h
    cases hg : ser_getchar cfg w polls with
    | none => rw [hg] at h; cases h
    | some res =>
      obtain ⟨c, w1, ps1⟩ := res
      rw [hg] at h
      obtain ⟨s1, g1, g2, g3⟩ := ser_getchar_tx cfg w polls c w1 ps1 hg
      simp only at h
      by_cases hc : c = EOF
      · simp only [hc, if_true, Option.some.injEq, Prod.mk.injEq] at h
        obtain ⟨_, h2, h3, _⟩ := h
        rw [← h2, ← h3]
        exact ⟨s1, g1, g2, g3⟩
      · simp only [hc, if_false] at h
        by_cases hcond : c = 13 ∨ c = 10 ∨ (i : Int) ≥ size - 1
        · simp only [hcond, if_true, Bool.false_eq_true, if_false, Option.some.injEq,
            Prod.mk.injEq] at h
          obtain ⟨_, h2, h3, _⟩ := h
          rw [← h2, ← h3]
          exact ⟨s1, g1, g2, g3⟩
        · simp only [hcond, if_false, Bool.false_eq_true] at h
          obtain ⟨s2, k1, k2, k3⟩ := ih _ _ _ _ h
          refine ⟨s1 ++ s2, by rw [g1, k1, List.append_assoc], ?_, k3.trans g3⟩
          rw [k2, run_polls_append]
          exact run_polls_tx_congr cfg s2 _ _ g2

/-- C10. Echo of `ser_gets_echo`.  With a clear status, when the rx queue holds
bytes `acc` that are accepted (no line end among them, at most `size - 1` of
them) followed by a line end `t`: the call with `echo = true`, the tx queue
having room for them and two more bytes, appends to the tx queue exactly `acc`
in order followed by CR, LF (the line end `t` itself is not echoed), calling
`enabletxirq` once per byte; the call with `echo = false` returns the same
count and leaves the tx queue and the back-end untouched, whatever room the tx
queue has.  And for every state, schedule and size, whatever a call with
`echo = false` returns, it has made no call into the back-end and the tx
queue is what the yields taken during the call left there: the tx queue at
entry when no transmit-ready notification was served meanwhile. -/
theorem ser_gets_echo_echoes (cfg : Config) (w : World) (polls : List Poll) (buf : Buf)
    (size : Int) :
    (∀ (acc : List Nat) (t : Nat) (rest : List Nat),
      w.port.status = 0 → fifo_wf w.port.rxfifo →
      fifo_contents w.port.rxfifo = acc ++ t :: rest →
      (∀ b ∈ acc, b ≠ 13 ∧ b ≠ 10) → (t = 13 ∨ t = 10) →
      (acc.length : Int) ≤ size - 1 →
      (fifo_wf w.port.txfifo →
        w.port.txfifo.count + acc.length + 2 ≤ fifo_cap w.port.txfifo →
        ∃ w' buf', ser_gets_echo cfg w polls buf size true =
            some ((acc.length : Int), w', polls, buf') ∧
          fifo_contents w'.port.txfifo = fifo_contents w.port.txfifo ++ acc ++ [13, 10] ∧
          w'.hwlog =
            w.hwlog ++ List.replicate (acc.length + 2) (HwCall.enabletxirq w.port.hw)) ∧
      (∃ w' buf', ser_gets_echo cfg w polls buf size false =
          some ((acc.length : Int), w', polls, buf') ∧
        w'.port.txfifo = w.port.txfifo ∧ w'.hwlog = w.hwlog)) ∧
    (∀ r w' ps' buf', ser_gets_echo cfg w polls buf size false = some (r, w', ps', buf') →
      w'.hwlog = w.hwlog ∧
      (∃ served, polls = served ++ ps' ∧
        w'.port.txfifo = (run_polls cfg w served).port.txfifo ∧
        ((∀ q ∈ served, IsrEvent.txReady ∉ q.events) → w'.port.txfifo = w.port.txfifo)) ∧
      ((∀ q ∈ polls, IsrEvent.txReady ∉ q.events) → w'.port.txfifo = w.port.txfifo)) := by
  constructor
  · intro acc t rest hst hwf hq hacc ht hlen
    have hlim : ∀ k, k < acc.length → ((0 + k : Nat) : Int) < size - 1 := by
      intro k hk; omega
    have ht' : t = 13 ∨ t = 10 ∨ ((0 + acc.length : Nat) : Int) ≥ size - 1 := by
      rcases ht with h | h
      · exact Or.inl h
      · exact Or.inr (Or.inl h)
    have hfuel : acc.length < size.toNat + 1 := by omega
    constructor
    · intro hwt hroom
      obtain ⟨w', h1, _, _, h4, _, _⟩ := ser_gets_echo_loop_nowait cfg size true t rest polls
        acc 0 (size.toNat + 1) buf w hst hwf hq hacc hlim ht' hfuel (fun _ => ⟨hwt, hroom⟩)
      refine ⟨w',
        buf_store (write_bytes buf 0 (acc.map (Nat.cast : Nat → Int))) (0 + acc.length) 0,
        ?_, (h4 rfl).1, (h4 rfl).2⟩
      unfold ser_gets_echo
      rw [h1, Nat.zero_add]
    · obtain ⟨w', h1, _, _, _, h5, _⟩ := ser_gets_echo_loop_nowait cfg size false t rest polls
        acc 0 (size.toNat + 1) buf w hst hwf hq hacc hlim ht' hfuel
        (fun h => absurd h (by decide))
      refine ⟨w',
        buf_store (write_bytes buf 0 (acc.map (Nat.cast : Nat → Int))) (0 + acc.length) 0,
        ?_, (h5 rfl).1, (h5 rfl).2⟩
      unfold ser_gets_echo
      rw [h1, Nat.zero_add]
  · intro r w' ps' buf' h
    obtain ⟨served, k1, k2, k3⟩ :=
      ser_gets_echo_loop_noecho_tx cfg size _ 0 buf w polls r w' ps' buf' h
    have hquiet : (∀ q ∈ served, IsrEvent.txReady ∉ q.events) →
        w'.port.txfifo = w.port.txfifo := by
      intro hq
      rw [k2]
      exact run_polls_tx_quiet cfg served w hq
    refine ⟨k3, ⟨served, k1, k2, hquiet⟩, ?_⟩
    intro hq
    apply hquiet
    intro q hqs
    exact hq q (by rw [k1]; exact List.mem_append_left _ hqs)

/-- C8, as the code has it.  `ser_gets_echo` reports the number of bytes
stored: with a clear status and nothing to wait for, a call that stops on a
line end seen after `k < size - 1` stored bytes returns `k`, and a call that
stops because `size - 1` bytes were stored returns `size - 1`; so two such
calls never return the same value. -/
theorem ser_gets_echo_length_reported (cfg : Config) (size : Int) (echo : Bool)
    (wA wB : World) (pollsA pollsB : List Poll) (bufA bufB : Buf)
    (accA : List Nat) (tA : Nat) (restA : List Nat)
    (accB : List Nat) (tB : Nat) (restB : List Nat)
    (hstA : wA.port.status = 0) (hwfA : fifo_wf wA.port.rxfifo)
    (hqA : fifo_contents wA.port.rxfifo = accA ++ tA :: restA)
    (haccA : ∀ b ∈ accA, b ≠ 13 ∧ b ≠ 10) (htA : tA = 13 ∨ tA = 10)
    (hlenA : (accA.length : Int) < size - 1)
    (hroomA : echo = true → fifo_wf wA.port.txfifo ∧
      wA.port.txfifo.count + accA.length + 2 ≤ fifo_cap wA.port.txfifo)
    (hstB : wB.port.status = 0) (hwfB : fifo_wf wB.port.rxfifo)
    (hqB : fifo_contents wB.port.rxfifo = accB ++ tB :: restB)
    (haccB : ∀ b ∈ accB, b ≠ 13 ∧ b ≠ 10)
    (hlenB : (accB.length : Int) = size - 1)
    (hroomB : echo = true → fifo_wf wB.port.txfifo ∧
      wB.port.txfifo.count + accB.length + 2 ≤ fifo_cap wB.port.txfifo) :
    ∃ rA rB wA' wB' bufA' bufB',
      ser_gets_echo cfg wA pollsA bufA size echo = some (rA, wA', pollsA, bufA') ∧
      ser_gets_echo cfg wB pollsB bufB size echo = some (rB, wB', pollsB, bufB') ∧
      rA = (accA.length : Int) ∧ rB = size - 1 ∧ rA < size - 1 ∧ rA ≠ rB := by
  obtain ⟨wA', hA, _⟩ := ser_gets_echo_loop_nowait cfg size echo tA restA pollsA accA 0
    (size.toNat + 1) bufA wA hstA hwfA hqA haccA (by intro k hk; omega)
    (by rcases htA with h | h
        · exact Or.inl h
        · exact Or.inr (Or.inl h)) (by omega) hroomA
  obtain ⟨wB', hB, _⟩ := ser_gets_echo_loop_nowait cfg size echo tB restB pollsB accB 0
    (size.toNat + 1) bufB wB hstB hwfB hqB haccB (by intro k hk; omega)
    (Or.inr (Or.inr (by omega))) (by omega) hroomB
  refine ⟨_, _, wA', wB', _, _, hA, hB, by rw [Nat.zero_add], ?_, ?_, ?_⟩
  · rw [Nat.zero_add]; exact hlenB
  · rw [Nat.zero_add]; exact hlenA
  · rw [Nat.zero_add, Nat.zero_add]; omega

/-! ## Instances on sample states -/

/-- Instance of C1: a port holding `h`, `i`, CR, LF with the transmit-timeout
flag set. -/
theorem ser_getchar_sticky_error_witness :
    ∃ r w', ser_getchar sample_cfg
        (sample_world (sample_port sample_line sample_full 4 5 5)) [] = some (r, w', []) ∧
      (r = EOF ↔ (sample_world (sample_port sample_line sample_full 4 5 5)).port.status ≠ 0) ∧
      ∃ w'', ser_getchar sample_cfg
        (ser_setstatus (sample_world (sample_port sample_line sample_full 4 5 5)) 0) [] =
          some (104, w'', []) :=
  let ⟨r, w', h1, h2, _, w'', h3, _⟩ :=
    ser_getchar_sticky_error sample_cfg (sample_world (sample_port sample_line sample_full 4 5 5))
      [] 104 [105, 13, 10] (by decide) (by decide)
  ⟨r, w', h1, h2, w'', h3⟩

/-- Instance of C5 on the same port. -/
theorem ser_getchar_nowait_spec_witness :
    fifo_wf sample_line ∧
    (ser_getchar_nowait (sample_world (sample_port sample_line sample_full 4 5 5))).1 = 104 :=
  ⟨by decide,
    ((ser_getchar_nowait_spec (sample_world (sample_port sample_line sample_full 4 5 5))
      (by decide)).2.1 104 [105, 13, 10] (by decide)).1⟩

/-- Instance of C2: the character `-1` written with a zero transmit timeout. -/
theorem ser_putchar_nowait_witness :
    ∃ w', ser_putchar sample_cfg (-1)
        (sample_world (sample_port sample_full sample_line 0 5 0)) [] = some (255, w', []) ∧
      fifo_contents w'.port.txfifo = [104, 105, 13, 10, 255] :=
  let ⟨w', h1, _, _, _, h2, _⟩ :=
    ser_putchar_nowait sample_cfg (-1) (sample_world (sample_port sample_full sample_line 0 5 0))
      [] (by decide) (by decide)
  ⟨w', h1, h2⟩

/-- Instance of C3: a full tx queue, timeout 5, polls at ticks 102, 104 and
105; the call gives up at the third poll and leaves the fourth. -/
theorem ser_putchar_timeout_witness :
    ∃ w', ser_putchar sample_cfg 65 (sample_world (sample_port sample_line sample_full 0 5 5))
        ([⟨102, []⟩, ⟨104, [IsrEvent.rxByte 7]⟩] ++ ⟨105, []⟩ :: [⟨109, []⟩]) =
          some (EOF, w', [⟨109, []⟩]) ∧
      w'.port.txfifo = sample_full :=
  let ⟨w', h1, _, _, h2, _⟩ :=
    ser_putchar_timeout sample_cfg 65 (sample_world (sample_port sample_line sample_full 0 5 5))
      [⟨102, []⟩, ⟨104, [IsrEvent.rxByte 7]⟩] ⟨105, []⟩ [⟨109, []⟩]
      (by decide) (by decide) (by decide) (by decide) (by decide)
  ⟨w', h1, h2⟩

/-- Instance of C4: an empty rx queue, timeout 5, polls at ticks 102, 104, 105
and 109. -/
theorem ser_getchar_timeout_lower_bound_witness :
    ∃ w' rest, ser_getchar sample_cfg
        (sample_world (sample_port (fifo_init 8) sample_full 0 5 5))
        [⟨102, []⟩, ⟨104, [IsrEvent.txReady]⟩, ⟨105, []⟩, ⟨109, []⟩] = some (EOF, w', rest) :=
  (ser_getchar_timeout_lower_bound sample_cfg
      (sample_world (sample_port (fifo_init 8) sample_full 0 5 5))
      [⟨102, []⟩, ⟨104, [IsrEvent.txReady]⟩, ⟨105, []⟩, ⟨109, []⟩]
      (by decide) (by decide) (by decide) (by decide)).2 ⟨⟨105, []⟩, by decide, by decide⟩

/-- Instance of C6: three bytes read from a queue holding `h`, `i`, CR, LF. -/
theorem ser_read_all_or_nothing_witness :
    ∃ w' buf', ser_read sample_cfg (sample_world (sample_port sample_line sample_full 0 5 5)) []
        (fun _ => 7) 3 = some (3, w', [], buf') ∧
      buf' 0 = 104 ∧ buf' 1 = 105 ∧ buf' 2 = 13 ∧ buf' 3 = 7 ∧
      fifo_contents w'.port.rxfifo = [10] :=
  let ⟨w', buf', h, c1, c2, c3⟩ :=
    (ser_read_all_or_nothing sample_cfg (sample_world (sample_port sample_line sample_full 0 5 5))
      [] (fun _ => 7) 3 (by decide)).2.2 [104, 105, 13] [10] (by decide) (by decide) (by decide) (by decide)
  ⟨w', buf', h, c1 0 (by decide), c1 1 (by decide), c1 2 (by decide), c2 3 (by decide), c3⟩

/-- Instance of C7, the scenario of the specification: the input `h`, `i`, CR,
LF gives `"hi"` (value 2) with `size = 10` and `"h"` (value 1) with
`size = 2`. -/
theorem ser_gets_line_witness :
    (∃ w' buf', ser_gets_echo sample_cfg
        (sample_world (sample_port sample_line sample_full 0 5 5)) [] (fun _ => 7) 10 false =
          some (2, w', [], buf') ∧
      buf' 0 = 104 ∧ buf' 1 = 105 ∧ buf' 2 = 0 ∧ fifo_contents w'.port.rxfifo = [10]) ∧
    (∃ w' buf', ser_gets_echo sample_cfg
        (sample_world (sample_port sample_line sample_full 0 5 5)) [] (fun _ => 7) 2 false =
          some (1, w', [], buf') ∧
      buf' 0 = 104 ∧ buf' 1 = 0 ∧ fifo_contents w'.port.rxfifo = [13, 10]) :=
  by
  constructor
  · obtain ⟨w', buf', h, c1, c2, _, c4, _⟩ :=
      ser_gets_line sample_cfg (sample_world (sample_port sample_line sample_full 0 5 5)) []
        (fun _ => 7) 10 false [104, 105, 13, 10] (by decide) (by decide) (by decide) (by decide)
        (by decide) (by decide)
    exact ⟨w', buf', h, c1 0 (by decide), c1 1 (by decide), c2, c4⟩
  · obtain ⟨w', buf', h, c1, c2, _, c4, _⟩ :=
      ser_gets_line sample_cfg (sample_world (sample_port sample_line sample_full 0 5 5)) []
        (fun _ => 7) 2 false [104, 105, 13, 10] (by decide) (by decide) (by decide) (by decide)
        (by decide) (by decide)
    exact ⟨w', buf', h, c1 0 (by decide), c2, c4⟩

/-- C8 fails on the code.  With `size = 2`, the input `h`, CR (the call stops
on the line end) and the input `h`, `i` (the call stops because `size - 1`
bytes are stored, no line end in sight) give the same value, `1`, and the
same buffer, `"h"`. -/
theorem ser_gets_echo_termination_not_told :
    fifo_contents (sample_queue [104, 13]) = [104, 13] ∧
    fifo_contents (sample_queue [104, 105]) = [104, 105] ∧
    (ser_gets_echo sample_cfg
        (sample_world (sample_port (sample_queue [104, 13]) sample_full 0 5 5)) []
        (fun _ => 0) 2 false).map
      (fun r => (r.1, r.2.2.2 0, r.2.2.2 1, fifo_contents r.2.1.port.rxfifo))
      = some (1, 104, 0, []) ∧
    (ser_gets_echo sample_cfg
        (sample_world (sample_port (sample_queue [104, 105]) sample_full 0 5 5)) []
        (fun _ => 0) 2 false).map
      (fun r => (r.1, r.2.2.2 0, r.2.2.2 1, fifo_contents r.2.1.port.rxfifo))
      = some (1, 104, 0, []) ∧
    (ser_gets_echo sample_cfg
        (sample_world (sample_port (sample_queue [104, 13]) sample_full 0 5 5)) []
        (fun _ => 0) 2 false).map (fun r => (r.1, r.2.2.2))
      = (ser_gets_echo sample_cfg
        (sample_world (sample_port (sample_queue [104, 105]) sample_full 0 5 5)) []
        (fun _ => 0) 2 false).map (fun r => (r.1, r.2.2.2)) :=
  ⟨by decide, by decide, by decide, by decide, rfl⟩

/-- Instance of the amended C8 with `size = 3`: `h`, CR returns 1 and `h`,
`i`, `j` returns 2. -/
theorem ser_gets_echo_length_reported_witness :
    ∃ rA rB wA' wB' bufA' bufB',
      ser_gets_echo sample_cfg
        (sample_world (sample_port (sample_queue [104, 13]) sample_full 0 5 5)) []
        (fun _ => 0) 3 false = some (rA, wA', [], bufA') ∧
      ser_gets_echo sample_cfg
        (sample_world (sample_port (sample_queue [104, 105, 106]) sample_full 0 5 5)) []
        (fun _ => 0) 3 false = some (rB, wB', [], bufB') ∧
      rA = 1 ∧ rB = 2 ∧ rA ≠ rB :=
  let ⟨rA, rB, wA', wB', bufA', bufB', hA, hB, eA, eB, _, hne⟩ :=
    ser_gets_echo_length_reported sample_cfg 3 false
      (sample_world (sample_port (sample_queue [104, 13]) sample_full 0 5 5))
      (sample_world (sample_port (sample_queue [104, 105, 106]) sample_full 0 5 5))
      [] [] (fun _ => 0) (fun _ => 0) [104] 13 [] [104, 105] 106 []
      (by decide) (by decide) (by decide) (by decide) (by decide) (by decide) (by decide)
      (by decide) (by decide) (by decide) (by decide) (by decide) (by decide)
  ⟨rA, rB, wA', wB', bufA', bufB', hA, hB, eA, eB, hne⟩

/-- Instance of C9: on a port with a sticky flag the first `ser_getchar`
returns `EOF`, `-1` is returned and the NUL is written at `buf[0]`. -/
theorem ser_gets_echo_nul_terminated_witness :
    ∃ (j : Nat) (c : Int), (j : Int) ≤ 2 - 1 ∧ buf_store (fun _ => 7) 0 0 j = 0 ∧
      ((-1 : Int) = (j : Int) ∨ (-1 : Int) = -1) ∧
      ser_gets_echo_stop sample_cfg 2 false ((2 : Int).toNat + 1) 0
        (sample_world (sample_port sample_line sample_full 4 5 5)) [] = some c :=
  let ⟨_, j, c, _, hs, _, h1, h2, _, _, _, h3, _⟩ :=
    (ser_gets_echo_nul_terminated sample_cfg
      (sample_world (sample_port sample_line sample_full 4 5 5)) [] (fun _ => 7) 2 false
      (by decide)).2 (-1) (rx_popped (sample_world (sample_port sample_line sample_full 4 5 5)))
      [] (buf_store (fun _ => 7) 0 0) rfl
  ⟨j, c, h1, h2, h3, hs⟩

/-- Instance of C10: the line `hi` echoed behind the two bytes already in the
tx queue, the same line read without echo, and a read without echo that
returns -1 on a port with a full tx queue. -/
theorem ser_gets_echo_echoes_witness :
    (∃ w' buf', ser_gets_echo sample_cfg
        (sample_world (sample_port sample_line (sample_queue [1, 2]) 0 5 5)) [] (fun _ => 7)
        10 true = some (2, w', [], buf') ∧
      fifo_contents w'.port.txfifo = [1, 2, 104, 105, 13, 10]) ∧
    (∃ w' buf', ser_gets_echo sample_cfg
        (sample_world (sample_port sample_line (sample_queue [1, 2]) 0 5 5)) [] (fun _ => 7)
        10 false = some (2, w', [], buf') ∧
      w'.port.txfifo = sample_queue [1, 2]) ∧
    (ser_gets_echo sample_cfg (sample_world (sample_port sample_line sample_full 4 5 5)) []
        (fun _ => 7) 2 false =
      some (-1, rx_popped (sample_world (sample_port sample_line sample_full 4 5 5)), [],
        buf_store (fun _ => 7) 0 0) ∧
      (rx_popped (sample_world (sample_port sample_line sample_full 4 5 5))).port.txfifo =
        sample_full) :=
  let ⟨hecho, hplain⟩ :=
    (ser_gets_echo_echoes sample_cfg
      (sample_world (sample_port sample_line (sample_queue [1, 2]) 0 5 5)) [] (fun _ => 7) 10).1
      [104, 105] 13 [10] (by decide) (by decide) (by decide) (by decide) (by decide) (by decide)
  let ⟨w1, b1, h1, t1, _⟩ := hecho (by decide) (by decide)
  let ⟨w2, b2, h2, t2, _⟩ := hplain
  ⟨⟨w1, b1, h1, t1⟩, ⟨w2, b2, h2, t2⟩, rfl,
    ((ser_gets_echo_echoes sample_cfg (sample_world (sample_port sample_line sample_full 4 5 5))
      [] (fun _ => 7) 2).2 (-1)
      (rx_popped (sample_world (sample_port sample_line sample_full 4 5 5))) []
      (buf_store (fun _ => 7) 0 0) rfl).2.2 (fun q hq => absurd hq (List.not_mem_nil q))⟩


/-! ## Block write -/

theorem ser_putchar_wait_frame (cfg : Config) (start : Nat) (polls : List Poll) (w : World)
    (b : Bool) (w' : World) (ps' : List Poll)
    (h : ser_putchar_wait cfg start w polls = some (b, w', ps')) :
    w'.hwlog = w.hwlog ∧ w'.port.hw = w.port.hw := by
  induction polls generalizing w with
  | nil => simp [ser_putchar_wait] at h
  | cons p ps ih =>
    obtain ⟨_, _, g3, g4, _⟩ := proc_switch_frame cfg w p
    simp only [ser_putchar_wait] at h
    split at h
    · simp only [Option.some.injEq, Prod.mk.injEq] at h
      obtain ⟨_, h2, _⟩ := h
      rw [← h2]
      exact ⟨g4, g3⟩
    · split at h
      · obtain ⟨k1, k2⟩ := ih _ h
        exact ⟨k1.trans g4, k2.trans g3⟩
      · simp only [Option.some.injEq, Prod.mk.injEq] at h
        obtain ⟨_, h2, _⟩ := h
        rw [← h2]
        exact ⟨g4, g3⟩

/-- What a call of `ser_putchar` leaves in the back-end log: nothing when it
returns `EOF`, one `enabletxirq` when it returns the byte. -/
theorem ser_putchar_log (cfg : Config) (c : Int) (w : World) (polls : List Poll) (r : Int)
    (w' : World) (ps' : List Poll) (h : ser_putchar cfg c w polls = some (r, w', ps')) :
    w'.port.hw = w.port.hw ∧
    ((r = EOF ∧ w'.hwlog = w.hwlog) ∨
      (r = c % 256 ∧ r ≠ EOF ∧ w'.hwlog = w.hwlog ++ [HwCall.enabletxirq w.port.hw])) := by
  obtain ⟨hc1, hc2⟩ := uchar_cast c
  have hne : c % 256 ≠ EOF := by
    have h1 : 0 ≤ c % 256 := Int.emod_nonneg c (by decide)
    unfold EOF; omega
  have key : ∀ waited : Option (Bool × World × List Poll),
      (∀ b w1 ps, waited = some (b, w1, ps) → w1.hwlog = w.hwlog ∧ w1.port.hw = w.port.hw) →
      (match waited with
        | none => none
        | some (false, w1, ps) => some (EOF, w1, ps)
        | some (true, w1, ps) =>
          some ((((c % 256).toNat : Nat) : Int),
            { w1 with port := { w1.port with
                        txfifo := (fifo_push w1.port.txfifo (c % 256).toNat).2 },
                      hwlog := w1.hwlog ++ [HwCall.enabletxirq w1.port.hw] }, ps))
        = some (r, w', ps') →
      w'.port.hw = w.port.hw ∧
      ((r = EOF ∧ w'.hwlog = w.hwlog) ∨
        (r = c % 256 ∧ r ≠ EOF ∧ w'.hwlog = w.hwlog ++ [HwCall.enabletxirq w.port.hw])) := by
    intro waited hfr hw
    match waited, hfr, hw with
    | none, _, hw => cases hw
    | some (false, w1, ps), hfr, hw =>
      simp only [Option.some.injEq, Prod.mk.injEq] at hw
      obtain ⟨h1, h2, _⟩ := hw
      obtain ⟨f1, f2⟩ := hfr false w1 ps rfl
      rw [← h2]
      exact ⟨f2, Or.inl ⟨h1.symm, f1⟩⟩
    | some (true, w1, ps), hfr, hw =>
      simp only [Option.some.injEq, Prod.mk.injEq] at hw
      obtain ⟨h1, h2, _⟩ := hw
      obtain ⟨f1, f2⟩ := hfr true w1 ps rfl
      rw [← h2, ← h1, hc1]
      refine ⟨f2, Or.inr ⟨rfl, hne, ?_⟩⟩
      show w1.hwlog ++ [HwCall.enabletxirq w1.port.hw] = _
      rw [f1, f2]
  apply key _ _ h
  intro b w1 ps hw
  by_cases hf : fifo_isfull w.port.txfifo = true
  · rw [if_pos hf] at hw
    exact ser_putchar_wait_frame cfg _ _ _ _ _ _ hw
  · rw [if_neg hf] at hw
    simp only [Option.some.injEq, Prod.mk.injEq] at hw
    rw [← hw.2.1]
    exact ⟨rfl, rfl⟩

theorem ser_write_append (cfg : Config) (a b : List Int) (w : World) (polls : List Poll) :
    ser_write cfg (a ++ b) w polls =
      match ser_write cfg a w polls with
      | none => none
      | some (r, w1, ps1) => if r = EOF then some (EOF, w1, ps1) else ser_write cfg b w1 ps1 := by
  induction a generalizing w polls with
  | nil =>
    have : ¬ ((0 : Int) = EOF) := by decide
    simp [ser_write, this]
  | cons c cs ih =>
    simp only [List.cons_append, ser_write]
    cases hp : ser_putchar cfg c w polls with
    | none => rfl
    | some res =>
      obtain ⟨r, w1, ps1⟩ := res
      simp only
      by_cases hr : r = EOF
      · simp [hr]
      · simp only [hr, if_false]
        exact ih w1 ps1

/-- The outcome of `ser_write` in terms of its `ser_putchar` calls. -/
theorem ser_write_outcome (cfg : Config) (buf : List Int) (w : World) (polls : List Poll)
    (r : Int) (w' : World) (ps' : List Poll)
    (h : ser_write cfg buf w polls = some (r, w', ps')) :
    (r = 0 ∧ w'.hwlog = w.hwlog ++ List.replicate buf.length (HwCall.enabletxirq w.port.hw)) ∨
    (r = EOF ∧ ∃ i w1 ps1, i < buf.length ∧
      ser_write cfg (buf.take i) w polls = some (0, w1, ps1) ∧
      ser_putchar cfg (buf.getD i 0) w1 ps1 = some (EOF, w', ps') ∧
      w'.hwlog = w.hwlog ++ List.replicate i (HwCall.enabletxirq w.port.hw)) := by
  induction buf generalizing w polls with
  | nil =>
    simp only [ser_write, Option.some.injEq, Prod.mk.injEq] at h
    obtain ⟨h1, h2, _⟩ := h
    left
    rw [← h1, ← h2]
    simp
  | cons c cs ih =>
    simp only [ser_write] at h
    cases hp : ser_putchar cfg c w polls with
    | none => rw [hp] at h; cases h
    | some res =>
      obtain ⟨r1, w1, ps1⟩ := res
      rw [hp] at h
      simp only at h
      obtain ⟨hhw, hlog⟩ := ser_putchar_log cfg c w polls r1 w1 ps1 hp
      by_cases hr : r1 = EOF
      · simp only [hr, if_true, Option.some.injEq, Prod.mk.injEq] at h
        obtain ⟨h1, h2, h3⟩ := h
        right
        subst hr
        rcases hlog with ⟨_, l⟩ | ⟨_, ne, _⟩
        · refine ⟨h1.symm, 0, w, polls, by simp, rfl, ?_, ?_⟩
          · rw [← h2, ← h3]; exact hp
          · rw [← h2, l]; simp
        · exact absurd rfl ne
      · simp only [hr, if_false] at h
        rcases hlog with ⟨e, _⟩ | ⟨_, _, l⟩
        · exact absurd e hr
        · rcases ih w1 ps1 h with ⟨k1, k2⟩ | ⟨k1, i, w2, ps2, k2, k3, k4, k5⟩
          · left
            refine ⟨k1, ?_⟩
            rw [k2, l, hhw, List.append_assoc]
            rfl
          · right
            refine ⟨k1, i + 1, w2, ps2, by simpa using k2, ?_, ?_, ?_⟩
            · simp only [List.take_succ_cons, ser_write, hp, hr, if_false]
              exact k3
            · simpa using k4
            · rw [k5, l, hhw, List.append_assoc]
              rfl

/-- `ser_putchar` of any character on a tx queue with room for it. -/
theorem ser_putchar_room_char (cfg : Config) (c : Int) (w : World) (polls : List Poll)
    (hwf : fifo_wf w.port.txfifo) (hroom : w.port.txfifo.count + 1 ≤ fifo_cap w.port.txfifo) :
    ∃ w', ser_putchar cfg c w polls = some (c % 256, w', polls) ∧
      w'.port.rxfifo = w.port.rxfifo ∧ w'.port.status = w.port.status ∧
      w'.port.hw = w.port.hw ∧ w'.now = w.now ∧
      w'.port.txtimeout = w.port.txtimeout ∧ w'.port.rxtimeout = w.port.rxtimeout ∧
      fifo_wf w'.port.txfifo ∧ w'.port.txfifo.count = w.port.txfifo.count + 1 ∧
      fifo_cap w'.port.txfifo = fifo_cap w.port.txfifo ∧
      fifo_contents w'.port.txfifo = fifo_contents w.port.txfifo ++ [(c % 256).toNat] ∧
      w'.hwlog = w.hwlog ++ [HwCall.enabletxirq w.port.hw] := by
  have hf : fifo_isfull w.port.txfifo = false := by
    simp only [fifo_isfull, beq_eq_false_iff_ne, ne_eq]
    omega
  obtain ⟨hc1, hc2⟩ := uchar_cast c
  obtain ⟨k1, k2⟩ := fifo_push_count w.port.txfifo (c % 256).toNat hf
  refine ⟨{ w with port := { w.port with
                     txfifo := (fifo_push w.port.txfifo (c % 256).toNat).2 },
                   hwlog := w.hwlog ++ [HwCall.enabletxirq w.port.hw] },
    ?_, rfl, rfl, rfl, rfl, rfl, rfl, fifo_push_wf _ _ hc2 hwf, k1, k2,
    fifo_push_contents _ _ hwf hf, rfl⟩
  rw [ser_putchar_ready cfg _ w polls hf, hc1]

/-- `ser_write` when the tx queue has room for the whole buffer. -/
theorem ser_write_room (cfg : Config) (buf : List Int) (w : World) (polls : List Poll)
    (hwf : fifo_wf w.port.txfifo)
    (hroom : w.port.txfifo.count + buf.length ≤ fifo_cap w.port.txfifo) :
    ∃ w', ser_write cfg buf w polls = some (0, w', polls) ∧
      w'.port.rxfifo = w.port.rxfifo ∧ w'.port.status = w.port.status ∧
      w'.port.hw = w.port.hw ∧ w'.now = w.now ∧
      w'.port.txtimeout = w.port.txtimeout ∧ w'.port.rxtimeout = w.port.rxtimeout ∧
      fifo_wf w'.port.txfifo ∧ w'.port.txfifo.count = w.port.txfifo.count + buf.length ∧
      fifo_cap w'.port.txfifo = fifo_cap w.port.txfifo ∧
      fifo_contents w'.port.txfifo =
        fifo_contents w.port.txfifo ++ buf.map (fun c => (c % 256).toNat) ∧
      w'.hwlog = w.hwlog ++ List.replicate buf.length (HwCall.enabletxirq w.port.hw) := by
  induction buf generalizing w with
  | nil => exact ⟨w, rfl, rfl, rfl, rfl, rfl, rfl, rfl, hwf, rfl, rfl, by simp, by simp⟩
  | cons c cs ih =>
    simp only [List.length_cons] at hroom
    obtain ⟨w1, p1, a1, a2, a3, a4, a5, a6, a7, a8, a9, a10, a11⟩ :=
      ser_putchar_room_char cfg c w polls hwf (by omega)
    obtain ⟨w2, q1, b1, b2, b3, b4, b5, b6, b7, b8, b9, b10, b11⟩ :=
      ih w1 a7 (by rw [a8, a9]; omega)
    have hne : ¬ (c % 256 = EOF) := by
      have h1 : 0 ≤ c % 256 := Int.emod_nonneg c (by decide)
      unfold EOF; omega
    refine ⟨w2, ?_, b1.trans a1, b2.trans a2, b3.trans a3, b4.trans a4, b5.trans a5,
      b6.trans a6, b7, ?_, b9.trans a9, ?_, ?_⟩
    · simp only [ser_write, p1, hne, if_false]
      exact q1
    · rw [b8, a8, List.length_cons]; omega
    · rw [b10, a10, List.map_cons, List.append_assoc]; rfl
    · rw [b11, a11, a3, List.append_assoc, List.length_cons, List.replicate_succ]; rfl

theorem ser_print_eq_ser_write (cfg : Config) (s : List Int) (w : World) (polls : List Poll) :
    ser_print cfg s w polls = ser_write cfg (s.takeWhile (fun c => c != 0)) w polls := by
  induction s generalizing w polls with
  | nil => rfl
  | cons c cs ih =>
    by_cases hc : c = 0
    · simp [ser_print, ser_write, hc, List.takeWhile]
    · have hb : (c != 0) = true := by simpa using hc
      simp only [ser_print, hc, if_false, List.takeWhile, hb, ser_write]
      cases hp : ser_putchar cfg c w polls with
      | none => rfl
      | some res =>
        obtain ⟨r, w1, ps1⟩ := res
        simp only
        by_cases hr : r = EOF
        · simp [hr]
        · simp only [hr, if_false]
          exact ih w1 ps1

theorem tx_stays_full_of_quiet (cfg : Config) (ps : List Poll) (w : World)
    (hf : fifo_isfull w.port.txfifo = true)
    (hq : ∀ q ∈ ps, IsrEvent.txReady ∉ q.events) : tx_stays_full cfg w ps := by
  induction ps generalizing w with
  | nil => trivial
  | cons p ps ih =>
    have e : (proc_switch cfg w p).port.txfifo = w.port.txfifo :=
      isr_events_tx_quiet cfg p.events w.port (hq p (List.mem_cons_self _ _))
    have hf1 : fifo_isfull (proc_switch cfg w p).port.txfifo = true := by rw [e]; exact hf
    exact ⟨hf1, ih _ hf1 (fun q hq2 => hq q (List.mem_cons_of_mem _ hq2))⟩

/-- `ser_write` of `pre ++ c :: post` when the tx queue has room for `pre`
only, nothing is drained meanwhile and the wait for `c` times out at the poll
`p`: `pre` is enqueued in order, `c` and `post` are not. -/
theorem ser_write_timeout (cfg : Config) (pre : List Int) (c : Int) (post : List Int)
    (w : World) (wpre : List Poll) (p : Poll) (wpost : List Poll)
    (hT : cfg.txtimeout_enabled = true) (hwf : fifo_wf w.port.txfifo)
    (hroom : w.port.txfifo.count + pre.length = fifo_cap w.port.txfifo)
    (hq : ∀ q ∈ wpre ++ [p], IsrEvent.txReady ∉ q.events)
    (hlt : ∀ q ∈ wpre, tick_diff cfg q.now w.now < w.port.txtimeout)
    (hge : w.port.txtimeout ≤ tick_diff cfg p.now w.now) :
    ∃ w', ser_write cfg (pre ++ c :: post) w (wpre ++ p :: wpost) = some (EOF, w', wpost) ∧
      fifo_contents w'.port.txfifo =
        fifo_contents w.port.txfifo ++ pre.map (fun c => (c % 256).toNat) ∧
      w'.port.status &&& cfg.SERRF_TXTIMEOUT = cfg.SERRF_TXTIMEOUT ∧
      w'.hwlog = w.hwlog ++ List.replicate pre.length (HwCall.enabletxirq w.port.hw) := by
  obtain ⟨w1, q1, _, _, _, b4, b5, _, b7, b8, b9, b10, b11⟩ :=
    ser_write_room cfg pre w (wpre ++ p :: wpost) hwf (by omega)
  have hf : fifo_isfull w1.port.txfifo = true := by
    simp only [fifo_isfull, beq_iff_eq]
    rw [b8, b9]; exact hroom
  have hs : tx_stays_full cfg w1 wpre :=
    tx_stays_full_of_quiet cfg wpre w1 hf (fun q hq2 => hq q (List.mem_append_left _ hq2))
  have hwait := ser_putchar_wait_timeout cfg hT w1.now w1.port.txtimeout p wpost wpre w1 rfl hf hs
    (by rw [b4, b5]; exact hlt) (by rw [b4, b5]; exact hge)
  have hput : ser_putchar cfg c w1 (wpre ++ p :: wpost) =
      some (EOF, raise_flag (run_polls cfg w1 (wpre ++ [p])) cfg.SERRF_TXTIMEOUT, wpost) := by
    simp [ser_putchar, hf, hwait]
  refine ⟨raise_flag (run_polls cfg w1 (wpre ++ [p])) cfg.SERRF_TXTIMEOUT, ?_, ?_, ?_, ?_⟩
  · have hne : ¬ ((0 : Int) = EOF) := by decide
    rw [ser_write_append, q1]
    simp only [hne, if_false, ser_write, hput, if_true]
  · show fifo_contents (run_polls cfg w1 (wpre ++ [p])).port.txfifo = _
    rw [run_polls_tx_quiet cfg _ w1 hq, b10]
  · exact or_flag_set _ _
  · show (run_polls cfg w1 (wpre ++ [p])).hwlog = _
    rw [(run_polls_frame cfg _ w1).2.2.2, b11]

/-- C11. `ser_write` emits in order and aborts on the first failure.  A result
is `0` or `EOF`.  It is `0` when all `len` calls of `ser_putchar` succeeded
(`len` calls of `enabletxirq` were made).  It is `EOF` when, the calls on
`buf[0..i)` having succeeded, the call on `buf[i]` returned `EOF`: the state
returned is the one left by that call, exactly `i` bytes were enqueued and no
call is made for a later byte; conversely, if the `i`-th call returns `EOF`,
so does `ser_write`.  With room in the tx queue for the whole buffer the call
returns `0` without waiting and `buf[0..len)` is appended to the tx queue in
order; with room for `pre` only, nothing drained and a transmit timeout, the
call on `pre ++ c :: post` returns `EOF` having appended `pre` and nothing
else.  `ser_print(port, s)` is `ser_write` on the characters of `s` before its
first NUL. -/
theorem ser_write_in_order (cfg : Config) (buf : List Int) (w : World) (polls : List Poll) :
    (∀ r w' ps', ser_write cfg buf w polls = some (r, w', ps') →
      (r = 0 ∧
        w'.hwlog = w.hwlog ++ List.replicate buf.length (HwCall.enabletxirq w.port.hw)) ∨
      (r = EOF ∧ ∃ i w1 ps1, i < buf.length ∧
        ser_write cfg (buf.take i) w polls = some (0, w1, ps1) ∧
        ser_putchar cfg (buf.getD i 0) w1 ps1 = some (EOF, w', ps') ∧
        w'.hwlog = w.hwlog ++ List.replicate i (HwCall.enabletxirq w.port.hw))) ∧
    (∀ pre c post w1 ps1 w2 ps2, buf = pre ++ c :: post →
      ser_write cfg pre w polls = some (0, w1, ps1) →
      ser_putchar cfg c w1 ps1 = some (EOF, w2, ps2) →
      ser_write cfg buf w polls = some (EOF, w2, ps2)) ∧
    (fifo_wf w.port.txfifo →
      w.port.txfifo.count + buf.length ≤ fifo_cap w.port.txfifo →
      ∃ w', ser_write cfg buf w polls = some (0, w', polls) ∧
        fifo_contents w'.port.txfifo =
          fifo_contents w.port.txfifo ++ buf.map (fun c => (c % 256).toNat) ∧
        w'.port.rxfifo = w.port.rxfifo ∧ w'.port.status = w.port.status) ∧
    (∀ pre c post wpre p wpost, buf = pre ++ c :: post → polls = wpre ++ p :: wpost →
      cfg.txtimeout_enabled = true → fifo_wf w.port.txfifo →
      w.port.txfifo.count + pre.length = fifo_cap w.port.txfifo →
      (∀ q ∈ wpre ++ [p], IsrEvent.txReady ∉ q.events) →
      (∀ q ∈ wpre, tick_diff cfg q.now w.now < w.port.txtimeout) →
      w.port.txtimeout ≤ tick_diff cfg p.now w.now →
      ∃ w', ser_write cfg buf w polls = some (EOF, w', wpost) ∧
        fifo_contents w'.port.txfifo =
          fifo_contents w.port.txfifo ++ pre.map (fun c => (c % 256).toNat) ∧
        w'.port.status &&& cfg.SERRF_TXTIMEOUT = cfg.SERRF_TXTIMEOUT) ∧
    ser_print cfg buf w polls = ser_write cfg (buf.takeWhile (fun c => c != 0)) w polls := by
  refine ⟨fun r w' ps' h => ser_write_outcome cfg buf w polls r w' ps' h, ?_, ?_, ?_,
    ser_print_eq_ser_write cfg buf w polls⟩
  · intro pre c post w1 ps1 w2 ps2 hb h1 h2
    have hne : ¬ ((0 : Int) = EOF) := by decide
    rw [hb, ser_write_append, h1]
    simp only [hne, if_false, ser_write, h2, if_true]
  · intro hwf hroom
    obtain ⟨w', q1, b1, b2, _, _, _, _, _, _, _, b10, _⟩ := ser_write_room cfg buf w polls hwf hroom
    exact ⟨w', q1, b10, b1, b2⟩
  · intro pre c post wpre p wpost hb hp hT hwf hroom hq hlt hge
    obtain ⟨w', k1, k2, k3, _⟩ :=
      ser_write_timeout cfg pre c post w wpre p wpost hT hwf hroom hq hlt hge
    rw [hb, hp]
    exact ⟨w', k1, k2, k3⟩

/-- Instance of C11: three characters written behind the two bytes of the tx
queue, and four characters written to a queue with room for two. -/
theorem ser_write_in_order_witness :
    (∃ w', ser_write sample_cfg [65, -1, 66]
        (sample_world (sample_port sample_line (sample_queue [1, 2]) 0 5 5)) [] =
          some (0, w', []) ∧
      fifo_contents w'.port.txfifo = [1, 2, 65, 255, 66]) ∧
    (∃ w', ser_write sample_cfg [65, 66, 67, 68]
        (sample_world (sample_port sample_line (sample_queue [1, 2, 3, 4, 5, 6]) 0 5 5))
        [⟨102, []⟩, ⟨105, []⟩, ⟨109, []⟩] = some (EOF, w', [⟨109, []⟩]) ∧
      fifo_contents w'.port.txfifo = [1, 2, 3, 4, 5, 6, 65, 66]) := by
  constructor
  · obtain ⟨w', h1, h2, _⟩ :=
      (ser_write_in_order sample_cfg [65, -1, 66]
        (sample_world (sample_port sample_line (sample_queue [1, 2]) 0 5 5)) []).2.2.1
        (by decide) (by decide)
    exact ⟨w', h1, h2⟩
  · obtain ⟨w', h1, h2, _⟩ :=
      (ser_write_in_order sample_cfg [65, 66, 67, 68]
        (sample_world (sample_port sample_line (sample_queue [1, 2, 3, 4, 5, 6]) 0 5 5))
        [⟨102, []⟩, ⟨105, []⟩, ⟨109, []⟩]).2.2.2.1 [65, 66] 67 [68] [⟨102, []⟩] ⟨105, []⟩
        [⟨109, []⟩] rfl rfl (by decide) (by decide) (by decide) (by decide) (by decide)
        (by decide)
    exact ⟨w', h1, h2⟩


/-! ## Sticky status flags -/

theorem flags_kept_refl (a : Nat) : flags_kept a a := Nat.and_self a

theorem flags_kept_trans (a b c : Nat) (h1 : flags_kept a b) (h2 : flags_kept b c) :
    flags_kept a c := by
  unfold flags_kept at *
  calc a &&& c = (a &&& b) &&& c := by rw [h1]
    _ = a &&& (b &&& c) := Nat.and_assoc a b c
    _ = a := by rw [h2, h1]

theorem flags_kept_or (a f : Nat) : flags_kept a (a ||| f) := by
  unfold flags_kept
  apply Nat.eq_of_testBit_eq
  intro i
  simp only [Nat.testBit_and, Nat.testBit_or]
  cases a.testBit i <;> cases f.testBit i <;> rfl

theorem isr_event_flags (cfg : Config) (port : Serial) (e : IsrEvent) :
    flags_kept port.status (isr_event cfg port e).status := by
  cases e with
  | rxByte b =>
    by_cases h : fifo_isfull port.rxfifo = true
    · simp only [isr_event, h, if_true]
      exact flags_kept_or _ _
    · simp only [isr_event, h, if_false]
      exact flags_kept_refl _
  | txReady => exact flags_kept_refl _

theorem proc_switch_flags (cfg : Config) (w : World) (p : Poll) :
    flags_kept w.port.status (proc_switch cfg w p).port.status := by
  have key : ∀ (evs : List IsrEvent) (port : Serial),
      flags_kept port.status (evs.foldl (isr_event cfg) port).status := by
    intro evs
    induction evs with
    | nil => intro port; exact flags_kept_refl _
    | cons e es ih =>
      intro port
      exact flags_kept_trans _ _ _ (isr_event_flags cfg port e) (ih _)
  exact key p.events w.port

theorem ser_putchar_wait_flags (cfg : Config) (start : Nat) (polls : List Poll) (w : World)
    (b : Bool) (w' : World) (ps' : List Poll)
    (h : ser_putchar_wait cfg start w polls = some (b, w', ps')) :
    flags_kept w.port.status w'.port.status := by
  induction polls generalizing w with
  | nil => simp [ser_putchar_wait] at h
  | cons p ps ih =>
    have g := proc_switch_flags cfg w p
    simp only [ser_putchar_wait] at h
    split at h
    · simp only [Option.some.injEq, Prod.mk.injEq] at h
      obtain ⟨_, h2, _⟩ := h
      rw [← h2]
      exact flags_kept_trans _ _ _ g (flags_kept_or _ _)
    · split at h
      · exact flags_kept_trans _ _ _ g (ih _ h)
      · simp only [Option.some.injEq, Prod.mk.injEq] at h
        obtain ⟨_, h2, _⟩ := h
        rw [← h2]
        exact g

theorem ser_getchar_wait_flags (cfg : Config) (start : Nat) (polls : List Poll) (w : World)
    (b : Bool) (w' : World) (ps' : List Poll)
    (h : ser_getchar_wait cfg start w polls = some (b, w', ps')) :
    flags_kept w.port.status w'.port.status := by
  induction polls generalizing w with
  | nil => simp [ser_getchar_wait] at h
  | cons p ps ih =>
    have g := proc_switch_flags cfg w p
    simp only [ser_getchar_wait] at h
    split at h
    · simp only [Option.some.injEq, Prod.mk.injEq] at h
      obtain ⟨_, h2, _⟩ := h
      rw [← h2]
      exact flags_kept_trans _ _ _ g (flags_kept_or _ _)
    · split at h
      · exact flags_kept_trans _ _ _ g (ih _ h)
      · simp only [Option.some.injEq, Prod.mk.injEq] at h
        obtain ⟨_, h2, _⟩ := h
        rw [← h2]
        exact g

theorem ser_putchar_flags (cfg : Config) (c : Int) (w : World) (polls : List Poll) (r : Int)
    (w' : World) (ps' : List Poll) (h : ser_putchar cfg c w polls = some (r, w', ps')) :
    flags_kept w.port.status w'.port.status := by
  have key : ∀ waited : Option (Bool × World × List Poll),
      (∀ b w1 ps, waited = some (b, w1, ps) → flags_kept w.port.status w1.port.status) →
      (match waited with
        | none => none
        | some (false, w1, ps) => some (EOF, w1, ps)
        | some (true, w1, ps) =>
          some ((((c % 256).toNat : Nat) : Int),
            { w1 with port := { w1.port with
                        txfifo := (fifo_push w1.port.txfifo (c % 256).toNat).2 },
                      hwlog := w1.hwlog ++ [HwCall.enabletxirq w1.port.hw] }, ps))
        = some (r, w', ps') → flags_kept w.port.status w'.port.status := by
    intro waited hfr hw
    match waited, hfr, hw with
    | none, _, hw => cases hw
    | some (false, w1, ps), hfr, hw =>
      simp only [Option.some.injEq, Prod.mk.injEq] at hw
      rw [← hw.2.1]
      exact hfr false w1 ps rfl
    | some (true, w1, ps), hfr, hw =>
      simp only [Option.some.injEq, Prod.mk.injEq] at hw
      rw [← hw.2.1]
      exact hfr true w1 ps rfl
  apply key _ _ h
  intro b w1 ps hw
  by_cases hf : fifo_isfull w.port.txfifo = true
  · rw [if_pos hf] at hw
    exact ser_putchar_wait_flags cfg _ _ _ _ _ _ hw
  · rw [if_neg hf] at hw
    simp only [Option.some.injEq, Prod.mk.injEq] at hw
    rw [← hw.2.1]
    exact flags_kept_refl _

theorem ser_getchar_flags (cfg : Config) (w : World) (polls : List Poll) (r : Int)
    (w' : World) (ps' : List Poll) (h : ser_getchar cfg w polls = some (r, w', ps')) :
    flags_kept w.port.status w'.port.status := by
  have key : ∀ waited : Option (Bool × World × List Poll),
      (∀ b w1 ps, waited = some (b, w1, ps) → flags_kept w.port.status w1.port.status) →
      (match waited with
        | none => none
        | some (false, w1, ps) => some (EOF, w1, ps)
        | some (true, w1, ps) =>
          some (if w1.port.status ≠ 0 then EOF
                else (((fifo_pop w1.port.rxfifo).1.getD 0 % 256 : Nat) : Int),
            { w1 with port := { w1.port with rxfifo := (fifo_pop w1.port.rxfifo).2 } }, ps))
        = some (r, w', ps') → flags_kept w.port.status w'.port.status := by
    intro waited hfr hw
    match waited, hfr, hw with
    | none, _, hw => cases hw
    | some (false, w1, ps), hfr, hw =>
      simp only [Option.some.injEq, Prod.mk.injEq] at hw
      rw [← hw.2.1]
      exact hfr false w1 ps rfl
    | some (true, w1, ps), hfr, hw =>
      simp only [Option.some.injEq, Prod.mk.injEq] at hw
      rw [← hw.2.1]
      exact hfr true w1 ps rfl
  apply key _ _ h
  intro b w1 ps hw
  by_cases hf : fifo_isempty w.port.rxfifo = true
  · rw [if_pos hf] at hw
    exact ser_getchar_wait_flags cfg _ _ _ _ _ _ hw
  · rw [if_neg hf] at hw
    simp only [Option.some.injEq, Prod.mk.injEq] at hw
    rw [← hw.2.1]
    exact flags_kept_refl _

theorem ser_write_flags (cfg : Config) (buf : List Int) (w : World) (polls : List Poll)
    (r : Int) (w' : World) (ps' : List Poll)
    (h : ser_write cfg buf w polls = some (r, w', ps')) :
    flags_kept w.port.status w'.port.status := by
  induction buf generalizing w polls with
  | nil =>
    simp only [ser_write, Option.some.injEq, Prod.mk.injEq] at h
    rw [← h.2.1]
    exact flags_kept_refl _
  | cons c cs ih =>
    simp only [ser_write] at h
    cases hp : ser_putchar cfg c w polls with
    | none => rw [hp] at h; cases h
    | some res =>
      obtain ⟨r1, w1, ps1⟩ := res
      rw [hp] at h
      have g := ser_putchar_flags cfg c w polls r1 w1 ps1 hp
      simp only at h
      split at h
      · simp only [Option.some.injEq, Prod.mk.injEq] at h
        rw [← h.2.1]
        exact g
      · exact flags_kept_trans _ _ _ g (ih _ _ h)

theorem ser_read_loop_flags (cfg : Config) (n i : Nat) (buf : Buf) (w : World)
    (polls : List Poll) (r : Int) (w' : World) (ps' : List Poll) (buf' : Buf)
    (h : ser_read_loop cfg n i buf w polls = some (r, w', ps', buf')) :
    flags_kept w.port.status w'.port.status := by
  induction n generalizing i buf w polls with
  | zero =>
    simp only [ser_read_loop, Option.some.injEq, Prod.mk.injEq] at h
    rw [← h.2.1]
    exact flags_kept_refl _
  | succ n ih =>
    simp only [ser_read_loop] at h
    cases hg : ser_getchar cfg w polls with
    | none => rw [hg] at h; cases h
    | some res =>
      obtain ⟨c, w1, ps1⟩ := res
      rw [hg] at h
      have g := ser_getchar_flags cfg w polls c w1 ps1 hg
      simp only at h
      split at h
      · simp only [Option.some.injEq, Prod.mk.injEq] at h
        rw [← h.2.1]
        exact g
      · exact flags_kept_trans _ _ _ g (ih _ _ _ _ h)

theorem ser_gets_echo_loop_flags (cfg : Config) (size : Int) (echo : Bool) (fuel i : Nat)
    (buf : Buf) (w : World) (polls : List Poll) (r : Int) (w' : World) (ps' : List Poll)
    (buf' : Buf)
    (h : ser_gets_echo_loop cfg size echo fuel i buf w polls = some (r, w', ps', buf')) :
    flags_kept w.port.status w'.port.status := by
  induction fuel generalizing i buf w polls with
  | zero => simp [ser_gets_echo_loop] at h
  | succ fuel ih =>
    simp only [ser_gets_echo_loop] at h
    cases hg : ser_getchar cfg w polls with
    | none => rw [hg] at h; cases h
    | some res =>
      obtain ⟨c, w1, ps1⟩ := res
      rw [hg] at h
      have g := ser_getchar_flags cfg w polls c w1 ps1 hg
      simp only at h
      by_cases hc : c = EOF
      · simp only [hc, if_true, Option.some.injEq, Prod.mk.injEq] at h
        rw [← h.2.1]
        exact g
      · simp only [hc, if_false] at h
        by_cases hcond : c = 13 ∨ c = 10 ∨ (i : Int) ≥ size - 1
        · simp only [hcond, if_true] at h
          cases echo with
          | false =>
            simp only [Bool.false_eq_true, if_false, Option.some.injEq, Prod.mk.injEq] at h
            rw [← h.2.1]
            exact g
          | true =>
            simp only [if_true] at h
            cases hp : ser_print cfg [13, 10] w1 ps1 with
            | none => rw [hp] at h; cases h
            | some res2 =>
              obtain ⟨r2, w2, ps2⟩ := res2
              rw [hp] at h
              simp only [Option.some.injEq, Prod.mk.injEq] at h
              rw [← h.2.1]
              rw [ser_print_eq_ser_write] at hp
              exact flags_kept_trans _ _ _ g (ser_write_flags cfg _ w1 ps1 r2 w2 ps2 hp)
        · simp only [hcond, if_false] at h
          cases echo with
          | false =>
            simp only [Bool.false_eq_true, if_false] at h
            exact flags_kept_trans _ _ _ g (ih _ _ _ _ h)
          | true =>
            simp only [if_true] at h
            cases hp : ser_putchar cfg c w1 ps1 with
            | none => rw [hp] at h; cases h
            | some res2 =>
              obtain ⟨r2, w2, ps2⟩ := res2
              rw [hp] at h
              simp only at h
              exact flags_kept_trans _ _ _ g
                (flags_kept_trans _ _ _ (ser_putchar_flags cfg c w1 ps1 r2 w2 ps2 hp)
                  (ih _ _ _ _ h))

theorem ser_drain_flags (cfg : Config) (polls : List Poll) (w : World) (w' : World)
    (ps' : List Poll) (h : ser_drain cfg w polls = some (w', ps')) :
    flags_kept w.port.status w'.port.status := by
  induction polls generalizing w with
  | nil =>
    simp only [ser_drain] at h
    split at h
    · simp only [Option.some.injEq, Prod.mk.injEq] at h
      rw [← h.1]
      exact flags_kept_refl _
    · cases h
  | cons p ps ih =>
    simp only [ser_drain] at h
    split at h
    · simp only [Option.some.injEq, Prod.mk.injEq] at h
      rw [← h.1]
      exact flags_kept_refl _
    · exact flags_kept_trans _ _ _ (proc_switch_flags cfg w p) (ih _ h)


/-- C12. Sticky flags accumulate: for every port state and schedule, each of
`ser_putchar`, `ser_getchar`, `ser_getchar_nowait`, `ser_read`,
`ser_gets_echo`, `ser_write`, `ser_print`, `ser_purge`, `ser_drain` and
`ser_settimeouts` leaves every status bit that was set before the call set
after it; the explicit reset `ser_setstatus(port, 0)` is what clears the
flags, and `ser_printf` starts with it. -/
theorem ser_status_flags_accumulate (cfg : Config) (w : World) (polls : List Poll) :
    (∀ c r w' ps', ser_putchar cfg c w polls = some (r, w', ps') →
      flags_kept w.port.status w'.port.status) ∧
    (∀ r w' ps', ser_getchar cfg w polls = some (r, w', ps') →
      flags_kept w.port.status w'.port.status) ∧
    flags_kept w.port.status (ser_getchar_nowait w).2.port.status ∧
    (∀ buf n r w' ps' buf', ser_read cfg w polls buf n = some (r, w', ps', buf') →
      flags_kept w.port.status w'.port.status) ∧
    (∀ buf size echo r w' ps' buf',
      ser_gets_echo cfg w polls buf size echo = some (r, w', ps', buf') →
      flags_kept w.port.status w'.port.status) ∧
    (∀ buf r w' ps', ser_write cfg buf w polls = some (r, w', ps') →
      flags_kept w.port.status w'.port.status) ∧
    (∀ s r w' ps', ser_print cfg s w polls = some (r, w', ps') →
      flags_kept w.port.status w'.port.status) ∧
    flags_kept w.port.status (ser_purge w).port.status ∧
    (∀ w' ps', ser_drain cfg w polls = some (w', ps') →
      flags_kept w.port.status w'.port.status) ∧
    (∀ rxtimeout txtimeout,
      flags_kept w.port.status (ser_settimeouts w rxtimeout txtimeout).port.status) ∧
    (ser_setstatus w 0).port.status = 0 ∧
    (∀ rendered, ser_printf cfg rendered w polls =
      formatted_write cfg rendered (ser_setstatus w 0) polls) := by
  refine ⟨fun c r w' ps' h => ser_putchar_flags cfg c w polls r w' ps' h,
    fun r w' ps' h => ser_getchar_flags cfg w polls r w' ps' h, ?_,
    fun buf n r w' ps' buf' h => ser_read_loop_flags cfg n 0 buf w polls r w' ps' buf' h,
    fun buf size echo r w' ps' buf' h =>
      ser_gets_echo_loop_flags cfg size echo _ 0 buf w polls r w' ps' buf' h,
    fun buf r w' ps' h => ser_write_flags cfg buf w polls r w' ps' h, ?_,
    flags_kept_refl _, fun w' ps' h => ser_drain_flags cfg polls w w' ps' h,
    fun _ _ => flags_kept_refl _, rfl, fun _ => rfl⟩
  · by_cases he : fifo_isempty w.port.rxfifo = true
    · simp only [ser_getchar_nowait, he, if_true]
      exact flags_kept_refl _
    · simp only [ser_getchar_nowait, he, if_false]
      exact flags_kept_refl _
  · intro s r w' ps' h
    rw [ser_print_eq_ser_write] at h
    exact ser_write_flags cfg _ w polls r w' ps' h

/-- Instance of C12: a receive timeout on a port whose status already has the
transmit-timeout flag; both flags are set afterwards. -/
theorem ser_status_flags_accumulate_witness :
    ser_getchar sample_cfg (sample_world (sample_port (fifo_init 8) sample_full 4 5 5))
        [⟨105, []⟩] =
      some (EOF, raise_flag (run_polls sample_cfg
        (sample_world (sample_port (fifo_init 8) sample_full 4 5 5)) [⟨105, []⟩]) 2, []) ∧
    flags_kept 4 (raise_flag (run_polls sample_cfg
        (sample_world (sample_port (fifo_init 8) sample_full 4 5 5)) [⟨105, []⟩]) 2).port.status :=
  ⟨by decide,
    (ser_status_flags_accumulate sample_cfg
      (sample_world (sample_port (fifo_init 8) sample_full 4 5 5)) [⟨105, []⟩]).2.1
      EOF _ [] (by decide)⟩


/-! ## Formatted write -/

theorem flag_stays (s1 s2 f : Nat) (h1 : s1 &&& f = f) (h2 : flags_kept s1 s2) :
    s2 &&& f = f := by
  unfold flags_kept at h2
  calc s2 &&& f = s2 &&& (s1 &&& f) := by rw [h1]
    _ = (s2 &&& s1) &&& f := (Nat.and_assoc s2 s1 f).symm
    _ = (s1 &&& s2) &&& f := by rw [Nat.and_comm s2 s1]
    _ = f := by rw [h2, h1]

/-- The formatter is `ser_write` with another result: `EOF` where `ser_write`
returns `EOF`, the count of the characters where it returns `0`. -/
theorem formatted_write_eq_ser_write (cfg : Config) (cs : List Int) (w : World)
    (polls : List Poll) :
    formatted_write cfg cs w polls =
      (ser_write cfg cs w polls).map (fun r =>
        (if r.1 = EOF then EOF else (cs.length : Int), r.2.1, r.2.2)) := by
  induction cs generalizing w polls with
  | nil =>
    have hne : ¬ ((0 : Int) = EOF) := by decide
    simp [formatted_write, ser_write, hne]
  | cons c cs ih =>
    simp only [formatted_write, ser_write]
    cases hp : ser_putchar cfg c w polls with
    | none => rfl
    | some res =>
      obtain ⟨r, w1, ps1⟩ := res
      simp only
      by_cases hr : r = EOF
      · simp [hr]
      · simp only [hr, if_false]
        rw [ih]
        cases hw : ser_write cfg cs w1 ps1 with
        | none => rfl
        | some res2 =>
          obtain ⟨r2, w2, ps2⟩ := res2
          simp only [Option.map_some']
          by_cases hr2 : r2 = EOF
          · simp [hr2]
          · have hlen : ¬ ((cs.length : Int) = EOF) := byte_ne_EOF _
            simp [hr2, hlen]

/-- `formatted_write` when the tx queue has room for all the characters. -/
theorem formatted_write_room (cfg : Config) (cs : List Int) (w : World) (polls : List Poll)
    (hwf : fifo_wf w.port.txfifo)
    (hroom : w.port.txfifo.count + cs.length ≤ fifo_cap w.port.txfifo) :
    ∃ w', formatted_write cfg cs w polls = some ((cs.length : Int), w', polls) ∧
      w'.port.status = w.port.status ∧
      fifo_contents w'.port.txfifo =
        fifo_contents w.port.txfifo ++ cs.map (fun c => (c % 256).toNat) := by
  obtain ⟨w', q1, _, b2, _, _, _, _, _, _, _, b10, _⟩ := ser_write_room cfg cs w polls hwf hroom
  have hne : ¬ ((0 : Int) = EOF) := by decide
  refine ⟨w', ?_, b2, b10⟩
  rw [formatted_write_eq_ser_write, q1]
  simp [hne]

/-- C14. `ser_printf` resets the sticky status on entry: it is the formatter
run from the state whose status has been set to `0`, so its result does not
depend on the status before the call; every flag in the status after the call
was raised during it, and there is none when the tx queue has room for every
character (the count of the characters is returned and they are appended to
the tx queue). -/
theorem ser_printf_resets_status (cfg : Config) (rendered : List Int) (w : World)
    (polls : List Poll) :
    ser_printf cfg rendered w polls = formatted_write cfg rendered (ser_setstatus w 0) polls ∧
    (ser_setstatus w 0).port.status = 0 ∧
    (∀ s, ser_printf cfg rendered (ser_setstatus w s) polls = ser_printf cfg rendered w polls) ∧
    (fifo_wf w.port.txfifo →
      w.port.txfifo.count + rendered.length ≤ fifo_cap w.port.txfifo →
      ∃ w', ser_printf cfg rendered w polls = some ((rendered.length : Int), w', polls) ∧
        w'.port.status = 0 ∧
        fifo_contents w'.port.txfifo =
          fifo_contents w.port.txfifo ++ rendered.map (fun c => (c % 256).toNat)) := by
  refine ⟨rfl, rfl, fun s => rfl, ?_⟩
  intro hwf hroom
  obtain ⟨w', h1, h2, h3⟩ := formatted_write_room cfg rendered (ser_setstatus w 0) polls hwf hroom
  exact ⟨w', h1, h2, h3⟩

/-- Instance of C14: two characters printed on a port that had two flags
set. -/
theorem ser_printf_resets_status_witness :
    ∃ w', ser_printf sample_cfg [111, 107]
        (sample_world (sample_port sample_line (sample_queue [1, 2]) 6 5 5)) [] =
          some (2, w', []) ∧
      w'.port.status = 0 ∧ fifo_contents w'.port.txfifo = [1, 2, 111, 107] :=
  (ser_printf_resets_status sample_cfg [111, 107]
    (sample_world (sample_port sample_line (sample_queue [1, 2]) 6 5 5)) []).2.2.2
    (by decide) (by decide)

theorem driver_world_store (d : Driver) (h : Nat) (w : World) (hh : h < d.ser_handles.length) :
    driver_world (driver_store d h w) h = w := by
  simp only [driver_world, driver_store]
  have : (d.ser_handles.set h w.port).getD h serial_zero = w.port := by
    rw [List.getD_eq_getElem _ _ (by simpa using hh)]
    simp
  rw [this]

/-- What a successful `ser_open` leaves in the port: the status and the
timeouts apart, every field is set afresh. -/
theorem ser_open_spec (cfg : Config) (d : Driver) (unit : Nat)
    (hu : unit < d.ser_handles.length)
    (hc : (cfg.debug && (driver_world d unit).port.is_open) = false) :
    ∃ d', ser_open cfg d unit = some (unit, d') ∧
      d'.ser_handles.length = d.ser_handles.length ∧
      (driver_world d' unit).port.status = (driver_world d unit).port.status ∧
      (driver_world d' unit).port.rxfifo = fifo_init cfg.rxbuffer_size ∧
      (driver_world d' unit).port.txfifo = fifo_init cfg.txbuffer_size ∧
      (driver_world d' unit).port.unit = unit ∧
      (driver_world d' unit).port.hw = some unit ∧
      (driver_world d' unit).port.is_open =
        (if cfg.debug then true else (driver_world d unit).port.is_open) := by
  unfold ser_open
  rw [if_pos hu]
  simp only [hc, Bool.false_eq_true, if_false]
  refine ⟨_, rfl, by simp [driver_store], ?_, ?_, ?_, ?_, ?_, ?_⟩ <;>
    rw [driver_world_store _ _ _ hu] <;>
    simp only [ser_settimeouts, ser_setbaudrate] <;>
    split_ifs <;> rfl

/-- What a successful `ser_close` leaves in the port. -/
theorem ser_close_spec (cfg : Config) (d : Driver) (h : Nat)
    (hu : h < d.ser_handles.length)
    (hc : (cfg.debug && !(driver_world d h).port.is_open) = false)
    (hw : Nat) (hhw : (driver_world d h).port.hw = some hw) :
    ∃ d', ser_close cfg d h = some d' ∧
      d'.ser_handles.length = d.ser_handles.length ∧
      (driver_world d' h).port.status = (driver_world d h).port.status ∧
      (driver_world d' h).port.hw = none ∧
      (driver_world d' h).port.is_open =
        (if cfg.debug then false else (driver_world d h).port.is_open) ∧
      d'.hwlog = d.hwlog ++ [HwCall.cleanup (driver_world d h).port.hw] := by
  unfold ser_close
  rw [if_pos hu]
  simp only [hc, Bool.false_eq_true, if_false, hhw]
  refine ⟨_, rfl, by simp [driver_store], ?_, ?_, ?_, rfl⟩ <;>
    rw [driver_world_store _ _ _ hu]

/-- C16. `ser_purge` empties both queues: whatever they hold, both are empty
after the call, a following `ser_getchar_nowait` returns `EOF`, a following
`ser_drain` returns at once, and the status and the timeouts are unchanged; in
particular both queues are empty when `ser_purge` follows `ser_open`. -/
theorem ser_purge_empties (cfg : Config) (w : World) (polls : List Poll) :
    fifo_contents (ser_purge w).port.rxfifo = [] ∧
    fifo_contents (ser_purge w).port.txfifo = [] ∧
    fifo_isempty (ser_purge w).port.rxfifo = true ∧
    fifo_isempty (ser_purge w).port.txfifo = true ∧
    (ser_getchar_nowait (ser_purge w)).1 = EOF ∧
    ser_drain cfg (ser_purge w) polls = some (ser_purge w, polls) ∧
    (ser_purge w).port.status = w.port.status ∧
    (ser_purge w).port.rxtimeout = w.port.rxtimeout ∧
    (ser_purge w).port.txtimeout = w.port.txtimeout ∧
    (∀ d unit h d', ser_open cfg d unit = some (h, d') →
      fifo_contents (ser_purge (driver_world d' h)).port.rxfifo = [] ∧
      fifo_contents (ser_purge (driver_world d' h)).port.txfifo = []) := by
  have e1 : fifo_isempty (ser_purge w).port.rxfifo = true := rfl
  have e2 : fifo_isempty (ser_purge w).port.txfifo = true := rfl
  refine ⟨fifo_flush_contents _, fifo_flush_contents _, e1, e2, ?_, ?_, rfl, rfl, rfl, ?_⟩
  · simp only [ser_getchar_nowait, e1, if_true]
  · cases polls with
    | nil => simp only [ser_drain, e2, if_true]
    | cons p ps => simp only [ser_drain, e2, if_true]
  · intro d unit h d' _
    exact ⟨fifo_flush_contents _, fifo_flush_contents _⟩

/-- Instance of C16: a port with four bytes received and a full tx queue, and
the port that `ser_open` gives for unit 0. -/
theorem ser_purge_empties_witness :
    fifo_contents (sample_world (sample_port sample_line sample_full 4 5 5)).port.rxfifo
      = [104, 105, 13, 10] ∧
    fifo_contents (ser_purge
      (sample_world (sample_port sample_line sample_full 4 5 5))).port.rxfifo = [] ∧
    fifo_contents (ser_purge
      (sample_world (sample_port sample_line sample_full 4 5 5))).port.txfifo = [] ∧
    (ser_purge (sample_world (sample_port sample_line sample_full 4 5 5))).port.status = 4 ∧
    ∃ d', ser_open sample_cfg (driver_init 2 100) 0 = some (0, d') ∧
      fifo_contents (ser_purge (driver_world d' 0)).port.txfifo = [] := by
  have hp := ser_purge_empties sample_cfg
    (sample_world (sample_port sample_line sample_full 4 5 5)) []
  obtain ⟨d', hd⟩ : ∃ d', ser_open sample_cfg (driver_init 2 100) 0 = some (0, d') :=
    ⟨(ser_open sample_cfg (driver_init 2 100) 0).get (by decide) |>.2, by decide⟩
  exact ⟨by decide, hp.1, hp.2.1, hp.2.2.2.2.2.2.1,
    d', hd, (hp.2.2.2.2.2.2.2.2.2 (driver_init 2 100) 0 0 d' hd).2⟩

/-- C17. Port lifecycle.  In a debug build, `ser_open` on a unit that is
already open fails on its assertion, and `ser_close` on a port that is not open
fails on its assertion.  From the all-closed state of start-up, `ser_open` of
a unit below `SER_CNT` succeeds and returns the handle of that unit, with
`port->unit == unit`; `ser_close` of it succeeds, and the unit can then be
opened again. -/
theorem ser_port_lifecycle (cfg : Config) (ser_cnt now unit : Nat) (hunit : unit < ser_cnt) :
    (∀ d : Driver, cfg.debug = true → (driver_world d unit).port.is_open = true →
      ser_open cfg d unit = none) ∧
    (∀ d : Driver, cfg.debug = true → (driver_world d unit).port.is_open = false →
      ser_close cfg d unit = none) ∧
    (∃ d1, ser_open cfg (driver_init ser_cnt now) unit = some (unit, d1) ∧
      (driver_world d1 unit).port.unit = unit ∧
      (cfg.debug = true → (driver_world d1 unit).port.is_open = true) ∧
      ∃ d2, ser_close cfg d1 unit = some d2 ∧
        (cfg.debug = true → (driver_world d2 unit).port.is_open = false) ∧
        ∃ d3, ser_open cfg d2 unit = some (unit, d3) ∧
          (driver_world d3 unit).port.unit = unit) := by
  refine ⟨?_, ?_, ?_⟩
  · intro d hd ho
    unfold ser_open
    split
    · simp [hd, ho]
    · rfl
  · intro d hd ho
    unfold ser_close
    split
    · simp [hd, ho]
    · rfl
  · have hlen : unit < (driver_init ser_cnt now).ser_handles.length := by
      simpa [driver_init] using hunit
    have hclosed : (driver_world (driver_init ser_cnt now) unit).port.is_open = false := by
      simp only [driver_world, driver_init]
      rw [List.getD_eq_getElem _ _ (by simpa using hunit)]
      simp [serial_zero]
    obtain ⟨d1, o1, l1, _, _, _, u1, hw1, i1⟩ :=
      ser_open_spec cfg (driver_init ser_cnt now) unit hlen (by simp [hclosed])
    have hc1 : (cfg.debug && !(driver_world d1 unit).port.is_open) = false := by
      rw [i1]
      cases cfg.debug <;> simp
    obtain ⟨d2, c2, l2, _, _, i2, _⟩ := ser_close_spec cfg d1 unit (by omega) hc1 unit hw1
    have hc2 : (cfg.debug && (driver_world d2 unit).port.is_open) = false := by
      rw [i2]
      cases cfg.debug <;> simp [i1, hclosed]
    obtain ⟨d3, o3, _, _, _, _, u3, _, _⟩ := ser_open_spec cfg d2 unit (by omega) hc2
    refine ⟨d1, o1, u1, ?_, d2, c2, ?_, d3, o3, u3⟩
    · intro hd; rw [i1, hd]; rfl
    · intro hd; rw [i2, hd]; rfl

/-- Instance of C17: unit 1 of two, in the debug build of the sample
configuration. -/
theorem ser_port_lifecycle_witness :
    (ser_open sample_cfg (driver_init 2 100) 1).map (fun r => r.1) = some 1 ∧
    (ser_open sample_cfg (driver_init 2 100) 1).bind
      (fun r => (ser_open sample_cfg r.2 1).map (fun r2 => r2.1)) = none ∧
    ser_close sample_cfg (driver_init 2 100) 1 = none ∧
    ∃ d1, ser_open sample_cfg (driver_init 2 100) 1 = some (1, d1) ∧
      (driver_world d1 1).port.unit = 1 :=
  ⟨by decide, by decide, by decide,
    let ⟨d1, h1, h2, _⟩ := (ser_port_lifecycle sample_cfg 2 100 1 (by decide)).2.2
    ⟨d1, h1, h2⟩⟩

/-- C13 fails on the code.  Unit 0 is opened, a `ser_getchar` on its empty rx
queue times out and sets `SERRF_RXTIMEOUT`, the port is closed and opened
again: the flag is still set after the second `ser_open`. -/
theorem ser_open_keeps_stale_flags :
    (ser_open sample_cfg (driver_init 2 100) 0).bind (fun r1 =>
      (ser_getchar sample_cfg (driver_world r1.2 r1.1) [⟨200, []⟩]).bind (fun r2 =>
        (ser_close sample_cfg (driver_store r1.2 r1.1 r2.2.1) r1.1).bind (fun d2 =>
          (ser_open sample_cfg d2 r1.1).map (fun r3 =>
            (r2.1, (driver_world r3.2 r3.1).port.status))))) = some (EOF, 2) := by
  decide

/-- C13, as the code has it.  `ser_open` does not touch the status: after a
successful `ser_open(unit)` the status of the port is what it was before the
call, so it has no flag set when it had none, as on the first opening of a
unit after start-up. -/
theorem ser_open_keeps_status (cfg : Config) (d : Driver) (unit h : Nat) (d' : Driver)
    (hopen : ser_open cfg d unit = some (h, d')) :
    h = unit ∧
    (driver_world d' h).port.status = (driver_world d unit).port.status ∧
    ((driver_world d unit).port.status = 0 → (driver_world d' h).port.status = 0) ∧
    (∀ ser_cnt now, d = driver_init ser_cnt now → (driver_world d' h).port.status = 0) := by
  have hu : unit < d.ser_handles.length := by
    by_contra hcon
    simp [ser_open, hcon] at hopen
  have hc : (cfg.debug && (driver_world d unit).port.is_open) = false := by
    by_contra hcon
    have : (cfg.debug && (driver_world d unit).port.is_open) = true := by
      simpa using hcon
    simp [ser_open, hu, this] at hopen
  obtain ⟨d1, o1, _, s1, _⟩ := ser_open_spec cfg d unit hu hc
  rw [o1] at hopen
  simp only [Option.some.injEq, Prod.mk.injEq] at hopen
  obtain ⟨e1, e2⟩ := hopen
  subst e1 e2
  refine ⟨rfl, s1, fun h0 => s1.trans h0, ?_⟩
  intro ser_cnt now hd
  rw [s1, hd]
  simp only [driver_world, driver_init]
  rw [List.getD_eq_getElem _ _ (by rw [hd] at hu; simpa [driver_init] using hu)]
  simp [serial_zero]

/-- Instance of the amended C13: the first opening of unit 0. -/
theorem ser_open_keeps_status_witness :
    ∃ d', ser_open sample_cfg (driver_init 2 100) 0 = some (0, d') ∧
      (driver_world d' 0).port.status = 0 :=
  ⟨(driver_store (driver_init 2 100) 0
      (ser_setbaudrate (ser_settimeouts
        { port := { serial_zero with is_open := true, rxfifo := fifo_init 8,
                                     txfifo := fifo_init 8, hw := some 0 },
          now := 100, hwlog := [HwCall.init (some 0)] } 5 5) 9600)),
    by decide,
    (ser_open_keeps_status sample_cfg (driver_init 2 100) 0 0 _ (by decide)).2.2.2 2 100 rfl⟩


/-! ## Loopback and drain -/

/-- The loopback back-end moving the bytes `bs` that the tx queue holds into
an rx queue with room for them. -/
theorem loopback_moves (cfg : Config) (bs : List Nat) (w : World)
    (hwt : fifo_wf w.port.txfifo) (htx : fifo_contents w.port.txfifo = bs)
    (hwr : fifo_wf w.port.rxfifo)
    (hroom : w.port.rxfifo.count + bs.length ≤ fifo_cap w.port.rxfifo) :
    fifo_contents (loopback cfg bs.length w).port.rxfifo = fifo_contents w.port.rxfifo ++ bs ∧
    fifo_contents (loopback cfg bs.length w).port.txfifo = [] ∧
    fifo_wf (loopback cfg bs.length w).port.rxfifo ∧
    (loopback cfg bs.length w).port.status = w.port.status := by
  induction bs generalizing w with
  | nil => exact ⟨by simp [loopback], by simpa [loopback] using htx, hwr, rfl⟩
  | cons b bs ih =>
    obtain ⟨hp1, hb, hp2, hp3⟩ := fifo_pop_cons _ b bs hwt htx
    simp only [List.length_cons] at hroom
    have hnf : fifo_isfull w.port.rxfifo = false := by
      simp only [fifo_isfull, beq_eq_false_iff_ne, ne_eq]
      omega
    have hstep : loopback_byte cfg w =
        { w with port := { w.port with txfifo := (fifo_pop w.port.txfifo).2,
                                       rxfifo := (fifo_push w.port.rxfifo b).2 } } := by
      simp only [loopback_byte, hp1, isr_event, hnf, Bool.false_eq_true, if_false,
        Nat.mod_eq_of_lt hb]
    obtain ⟨c1, c2⟩ := fifo_push_count w.port.rxfifo b hnf
    have := ih (loopback_byte cfg w) (by rw [hstep]; exact hp3) (by rw [hstep]; exact hp2)
      (by rw [hstep]; exact fifo_push_wf _ _ hb hwr)
      (by rw [hstep]; show (fifo_push w.port.rxfifo b).2.count + bs.length ≤
            fifo_cap (fifo_push w.port.rxfifo b).2
          rw [c1, c2]; omega)
    obtain ⟨k1, k2, k3, k4⟩ := this
    simp only [List.length_cons, loopback]
    refine ⟨?_, k2, k3, ?_⟩
    · rw [k1, hstep]
      show fifo_contents (fifo_push w.port.rxfifo b).2 ++ bs = _
      rw [fifo_push_contents _ _ hwr hnf, List.append_assoc]
      rfl
    · rw [k4, hstep]

theorem fifo_init_contents (size : Nat) : fifo_contents (fifo_init size) = [] := by
  simp [fifo_contents, fifo_init]

/-- The round trip through a loopback back-end, for buffers of non-zero
size. -/
theorem ser_loopback_round_trip_sized (cfg : Config) (d : Driver) (unit h : Nat) (d' : Driver)
    (bs : List Nat) (buf : Buf) (polls1 polls2 : List Poll)
    (hopen : ser_open cfg d unit = some (h, d'))
    (hst : (driver_world d' h).port.status = 0)
    (hbytes : ∀ b ∈ bs, b < 256)
    (hrx : 0 < cfg.rxbuffer_size ∧ bs.length ≤ cfg.rxbuffer_size)
    (htx : 0 < cfg.txbuffer_size ∧ bs.length ≤ cfg.txbuffer_size)
    (hmax : bs.length ≤ cfg.INT_MAX) :
    ∃ w1 w2 buf',
      ser_write cfg (bs.map (Nat.cast : Nat → Int)) (driver_world d' h) polls1 =
        some (0, w1, polls1) ∧
      ser_read cfg (loopback cfg bs.length w1) polls2 buf bs.length =
        some ((bs.length : Int), w2, polls2, buf') ∧
      (∀ k, k < bs.length → buf' k = bs.getD k 0) ∧
      fifo_contents w2.port.rxfifo = [] ∧ fifo_contents w2.port.txfifo = [] := by
  have hu : unit < d.ser_handles.length := by
    by_contra hcon
    simp [ser_open, hcon] at hopen
  have hc : (cfg.debug && (driver_world d unit).port.is_open) = false := by
    by_contra hcon
    have : (cfg.debug && (driver_world d unit).port.is_open) = true := by
      simpa using hcon
    simp [ser_open, hu, this] at hopen
  obtain ⟨d1, o1, _, _, r1, t1, _⟩ := ser_open_spec cfg d unit hu hc
  rw [o1] at hopen
  simp only [Option.some.injEq, Prod.mk.injEq] at hopen
  obtain ⟨e1, e2⟩ := hopen
  subst e1 e2
  have hwt : fifo_wf (driver_world d1 unit).port.txfifo := by
    rw [t1]; exact fifo_init_wf _ htx.1
  have hwr : fifo_wf (driver_world d1 unit).port.rxfifo := by
    rw [r1]; exact fifo_init_wf _ hrx.1
  have hmap : (bs.map (Nat.cast : Nat → Int)).map (fun c => (c % 256).toNat) = bs := by
    rw [List.map_map]
    conv_rhs => rw [← List.map_id bs]
    apply List.map_congr_left
    intro b hb
    have := hbytes b hb
    simp only [Function.comp, id]
    omega
  obtain ⟨w1, q1, b1, b2, _, _, _, _, b7, _, _, b10, _⟩ :=
    ser_write_room cfg (bs.map (Nat.cast : Nat → Int)) (driver_world d1 unit) polls1 hwt
      (by rw [t1]; simp [fifo_init, fifo_cap]; exact htx.2)
  rw [t1, fifo_init_contents, List.nil_append, hmap] at b10
  obtain ⟨m1, m2, m3, m4⟩ := loopback_moves cfg bs w1 b7 b10 (by rw [b1]; exact hwr)
    (by rw [b1, r1]; simp [fifo_init, fifo_cap]; exact hrx.2)
  rw [b1, r1, fifo_init_contents, List.nil_append] at m1
  obtain ⟨w2, h1, h2, h3, _, h5, _⟩ := ser_getchar_calls_fifo cfg bs [] (loopback cfg bs.length w1)
    polls2 (by rw [m4, b2]; exact hst) m3 (by rw [m1, List.append_nil])
  refine ⟨w1, w2, write_bytes buf 0 (bs.map (Nat.cast : Nat → Int)), q1, ?_, ?_, h2, ?_⟩
  · unfold ser_read
    rw [ser_read_loop_calls, h1, Nat.zero_add, size_to_int_small cfg _ hmax]
    rfl
  · intro k hk
    have hk2 : k < (bs.map (Nat.cast : Nat → Int)).length := by simpa using hk
    have := write_bytes_inside (bs.map (Nat.cast : Nat → Int)) buf 0 k hk2
    rw [Nat.zero_add] at this
    rw [this, List.getD_eq_getElem _ _ hk2, List.getElem_map, List.getD_eq_getElem _ _ hk]
    have := hbytes _ (List.getElem_mem hk)
    omega
  · rw [h5]; exact m2

/-- C18. Loopback round trip: on a freshly opened port with clear status, for
every sequence `bs` of bytes not longer than the rx and tx buffers, `ser_write`
of the sequence returns `0`, and after a loopback back-end has moved every byte
of the tx queue in order into the rx queue, `ser_read` of as many bytes returns
their number and stores exactly `bs`, in order, in the buffer. -/
theorem ser_loopback_round_trip (cfg : Config) (d : Driver) (unit h : Nat) (d' : Driver)
    (bs : List Nat) (buf : Buf) (polls1 polls2 : List Poll)
    (hopen : ser_open cfg d unit = some (h, d'))
    (hst : (driver_world d' h).port.status = 0)
    (hbytes : ∀ b ∈ bs, b < 256)
    (hrx : bs.length ≤ cfg.rxbuffer_size) (htx : bs.length ≤ cfg.txbuffer_size)
    (hmax : bs.length ≤ cfg.INT_MAX) :
    ∃ w1 w2 buf',
      ser_write cfg (bs.map (Nat.cast : Nat → Int)) (driver_world d' h) polls1 =
        some (0, w1, polls1) ∧
      ser_read cfg (loopback cfg bs.length w1) polls2 buf bs.length =
        some ((bs.length : Int), w2, polls2, buf') ∧
      (∀ k, k < bs.length → buf' k = bs.getD k 0) := by
  cases bs with
  | nil =>
    refine ⟨driver_world d' h, driver_world d' h, buf, rfl, ?_, ?_⟩
    · simp [ser_read, ser_read_loop, loopback, size_to_int]
    · intro k hk
      cases hk
  | cons b bs =>
    simp only [List.length_cons] at hrx htx
    obtain ⟨w1, w2, buf', h1, h2, h3, _⟩ :=
      ser_loopback_round_trip_sized cfg d unit h d' (b :: bs) buf polls1 polls2 hopen hst hbytes
        ⟨by omega, hrx⟩ ⟨by omega, htx⟩ hmax
    exact ⟨w1, w2, buf', h1, h2, h3⟩

/-- Instance of C18: three bytes through unit 0 of the sample
configuration. -/
theorem ser_loopback_round_trip_witness :
    ∃ d' w1 w2 buf',
      ser_open sample_cfg (driver_init 2 100) 0 = some (0, d') ∧
      ser_write sample_cfg [200, 0, 13] (driver_world d' 0) [] = some (0, w1, []) ∧
      ser_read sample_cfg (loopback sample_cfg 3 w1) [] (fun _ => 7) 3 =
        some (3, w2, [], buf') ∧
      buf' 0 = 200 ∧ buf' 1 = 0 ∧ buf' 2 = 13 := by
  obtain ⟨d', hd, hs⟩ : ∃ d', ser_open sample_cfg (driver_init 2 100) 0 = some (0, d') ∧
      (driver_world d' 0).port.status = 0 :=
    ⟨(ser_open sample_cfg (driver_init 2 100) 0).get (by decide) |>.2, by decide, by decide⟩
  obtain ⟨w1, w2, buf', h1, h2, h3⟩ :=
    ser_loopback_round_trip sample_cfg (driver_init 2 100) 0 0 d' [200, 0, 13] (fun _ => 7)
      [] [] hd hs (by decide) (by decide) (by decide) (by decide)
  exact ⟨d', w1, w2, buf', hd, h1, h2, h3 0 (by decide), h3 1 (by decide), h3 2 (by decide)⟩

theorem proc_switch_tx_ready (cfg : Config) (w : World) (p : Poll)
    (hp : p.events = [IsrEvent.txReady]) :
    (proc_switch cfg w p).port.txfifo = (fifo_pop w.port.txfifo).2 ∧
    (proc_switch cfg w p).port.rxfifo = w.port.rxfifo ∧
    (proc_switch cfg w p).port.status = w.port.status := by
  simp [proc_switch, hp, isr_event]

/-- C19. `ser_drain` returns only on an empty tx queue: when each yield lets
the notification handler remove one byte of the tx queue, a tx queue holding
`k` bytes makes `ser_drain` take exactly `k` polls, each of which found the
queue non-empty, and return with the tx queue empty, the polls after them
untouched, and the rx queue, the status and the timeouts as they were; with
`k = 0` it returns at once. -/
theorem ser_drain_empties (cfg : Config) (w : World) (drains rest : List Poll)
    (hk : drains.length = w.port.txfifo.count)
    (hd : ∀ p ∈ drains, p.events = [IsrEvent.txReady]) :
    ∃ w', ser_drain cfg w (drains ++ rest) = some (w', rest) ∧
      w' = run_polls cfg w drains ∧
      fifo_isempty w'.port.txfifo = true ∧ fifo_contents w'.port.txfifo = [] ∧
      (∀ pre q post, drains = pre ++ q :: post →
        fifo_isempty (run_polls cfg w pre).port.txfifo = false) ∧
      w'.port.rxfifo = w.port.rxfifo ∧ w'.port.status = w.port.status ∧
      w'.port.rxtimeout = w.port.rxtimeout ∧ w'.port.txtimeout = w.port.txtimeout ∧
      (drains = [] → w' = w) := by
  induction drains generalizing w with
  | nil =>
    have he : fifo_isempty w.port.txfifo = true := by
      simp only [fifo_isempty, beq_iff_eq]
      simpa using hk.symm
    refine ⟨w, ?_, rfl, he, (fifo_isempty_iff _).mp he, ?_, rfl, rfl, rfl, rfl, fun _ => rfl⟩
    · cases rest with
      | nil => simp only [List.nil_append, ser_drain, he, if_true]
      | cons p ps => simp only [List.nil_append, ser_drain, he, if_true]
    · intro pre q post hcon
      cases pre <;> cases hcon
  | cons p ps ih =>
    simp only [List.length_cons] at hk
    have he : fifo_isempty w.port.txfifo = false := by
      simp only [fifo_isempty, beq_eq_false_iff_ne, ne_eq]
      omega
    obtain ⟨s1, s2, s3⟩ := proc_switch_tx_ready cfg w p (hd p (List.mem_cons_self _ _))
    obtain ⟨f1, f2, _⟩ := proc_switch_frame cfg w p
    have hcount : ps.length = (proc_switch cfg w p).port.txfifo.count := by
      rw [s1, fifo_pop_snd _ he]
      show ps.length = w.port.txfifo.count - 1
      omega
    obtain ⟨w', k1, k2, k3, k4, k5, k6, k7, k8, k9, _⟩ :=
      ih (proc_switch cfg w p) hcount (fun q hq => hd q (List.mem_cons_of_mem _ hq))
    refine ⟨w', ?_, k2, k3, k4, ?_, k6.trans s2, k7.trans s3, k8.trans f1, k9.trans f2,
      fun hcon => by cases hcon⟩
    · simp only [List.cons_append, ser_drain, he, Bool.false_eq_true, if_false]
      exact k1
    · intro pre q post hsplit
      cases pre with
      | nil => exact he
      | cons a as =>
        simp only [List.cons_append, List.cons.injEq] at hsplit
        obtain ⟨ha, hrest⟩ := hsplit
        subst ha
        exact k5 as q post hrest

/-- Instance of C19: a tx queue of three bytes and four polls. -/
theorem ser_drain_empties_witness :
    ∃ w', ser_drain sample_cfg
        (sample_world (sample_port sample_line (sample_queue [1, 2, 3]) 4 5 5))
        ([⟨101, [IsrEvent.txReady]⟩, ⟨102, [IsrEvent.txReady]⟩, ⟨103, [IsrEvent.txReady]⟩] ++
          [⟨104, [IsrEvent.txReady]⟩]) = some (w', [⟨104, [IsrEvent.txReady]⟩]) ∧
      fifo_contents w'.port.txfifo = [] ∧ w'.port.rxfifo = sample_line ∧ w'.port.status = 4 :=
  let ⟨w', h1, _, _, h2, _, h3, h4, _⟩ :=
    ser_drain_empties sample_cfg
      (sample_world (sample_port sample_line (sample_queue [1, 2, 3]) 4 5 5))
      [⟨101, [IsrEvent.txReady]⟩, ⟨102, [IsrEvent.txReady]⟩, ⟨103, [IsrEvent.txReady]⟩]
      [⟨104, [IsrEvent.txReady]⟩] (by decide) (by decide)
  ⟨w', h1, h2, h3, h4⟩

/-! ### Reads on a port with an error pending -/

/-- With a status flag set and a byte queued, `ser_getchar` returns `EOF` at
once and pops the oldest byte, changing nothing else. -/
theorem ser_getchar_error_pop (cfg : Config) (w : World) (polls : List Poll) (b : Nat)
    (rest : List Nat) (hst : w.port.status ≠ 0) (hwf : fifo_wf w.port.rxfifo)
    (hq : fifo_contents w.port.rxfifo = b :: rest) :
    ser_getchar cfg w polls = some (EOF, rx_popped w, polls) ∧
      fifo_contents (rx_popped w).port.rxfifo = rest ∧
      fifo_wf (rx_popped w).port.rxfifo ∧
      (rx_popped w).port.status = w.port.status := by
  have hp := fifo_pop_cons w.port.rxfifo b rest hwf hq
  refine ⟨?_, hp.2.2.1, hp.2.2.2, rfl⟩
  rw [ser_getchar_ready cfg w polls (fifo_isempty_of_cons _ b rest hq)]
  simp [hst, rx_popped]

/-- With a status flag set, as many calls of `ser_getchar` as there are bytes
at the head of the queue all return `EOF` and pop those bytes. -/
theorem ser_getchar_repeat_error (cfg : Config) (polls : List Poll) (bs : List Nat) :
    ∀ (w : World) (rest : List Nat), w.port.status ≠ 0 → fifo_wf w.port.rxfifo →
      fifo_contents w.port.rxfifo = bs ++ rest →
      ∃ w', ser_getchar_repeat cfg bs.length w polls =
          some (List.replicate bs.length EOF, w', polls) ∧
        fifo_contents w'.port.rxfifo = rest ∧ w'.port.status = w.port.status ∧
        w'.port.txfifo = w.port.txfifo := by
  induction bs with
  | nil =>
    intro w rest _ _ hq
    exact ⟨w, rfl, by simpa using hq, rfl, rfl⟩
  | cons b tl ih =>
    intro w rest hst hwf hq
    have h1 := ser_getchar_error_pop cfg w polls b (tl ++ rest) hst hwf (by simpa using hq)
    obtain ⟨w', hw', hc, hs, ht⟩ :=
      ih (rx_popped w) rest (by rw [h1.2.2.2]; exact hst) h1.2.2.1 h1.2.1
    refine ⟨w', ?_, hc, by rw [hs, h1.2.2.2], by rw [ht]; rfl⟩
    simp only [List.length_cons, ser_getchar_repeat, h1.1, hw', List.replicate_succ]

/-- C27. On a port whose status is non-zero and whose receive queue is not
empty, `ser_getchar` returns `EOF` and leaves the receive queue without its
oldest byte; so `n` such calls, made while `n` bytes are queued, all return
`EOF` and discard those `n` bytes, the status staying as it was. -/
theorem ser_getchar_error_consumes (cfg : Config) (w : World) (polls : List Poll)
    (b : Nat) (bs rest : List Nat) (hst : w.port.status ≠ 0)
    (hwf : fifo_wf w.port.rxfifo)
    (hq : fifo_contents w.port.rxfifo = b :: bs ++ rest) :
    (∃ w', ser_getchar cfg w polls = some (EOF, w', polls) ∧
        fifo_contents w'.port.rxfifo = bs ++ rest ∧
        w'.port.status = w.port.status) ∧
      (∃ w', ser_getchar_repeat cfg (b :: bs).length w polls =
          some (List.replicate (b :: bs).length EOF, w', polls) ∧
        fifo_contents w'.port.rxfifo = rest ∧
        w'.port.status = w.port.status) := by
  have h1 := ser_getchar_error_pop cfg w polls b (bs ++ rest) hst hwf (by simpa using hq)
  obtain ⟨w', hw', hc, hs, _⟩ :=
    ser_getchar_repeat_error cfg polls (b :: bs) w rest hst hwf (by simpa using hq)
  exact ⟨⟨rx_popped w, h1.1, h1.2.1, h1.2.2.2⟩, ⟨w', hw', hc, hs⟩⟩

theorem ser_getchar_error_consumes_witness :
    (∃ w', ser_getchar sample_cfg
          (sample_world (sample_port (sample_queue [104, 105, 106]) sample_full 4 5 5)) [] =
          some (EOF, w', []) ∧
        fifo_contents w'.port.rxfifo = [105] ++ [106] ∧
        w'.port.status =
          (sample_world (sample_port (sample_queue [104, 105, 106]) sample_full 4 5 5)).port.status) ∧
      (∃ w', ser_getchar_repeat sample_cfg (104 :: [105]).length
          (sample_world (sample_port (sample_queue [104, 105, 106]) sample_full 4 5 5)) [] =
          some (List.replicate (104 :: [105]).length EOF, w', []) ∧
        fifo_contents w'.port.rxfifo = [106] ∧
        w'.port.status =
          (sample_world (sample_port (sample_queue [104, 105, 106]) sample_full 4 5 5)).port.status) :=
  ser_getchar_error_consumes sample_cfg
    (sample_world (sample_port (sample_queue [104, 105, 106]) sample_full 4 5 5)) []
    104 [105] [106] (by decide) (by decide) (by decide)

/-! ### Sizes beyond `INT_MAX` -/

/-- A call of `ser_getchar` on an empty rx queue, served by one yield during
which the byte `b` arrives before the timeout: the call returns `b` and leaves
the rx queue empty again. -/
theorem ser_getchar_served (cfg : Config) (w : World) (t b : Nat) (ps : List Poll)
    (hst : w.port.status = 0) (hwf : fifo_wf w.port.rxfifo)
    (he : fifo_contents w.port.rxfifo = []) (hb : b < 256) (hnow : w.now = t)
    (hT : tick_diff cfg t t < w.port.rxtimeout) :
    ∃ w', ser_getchar cfg w (⟨t, [IsrEvent.rxByte b]⟩ :: ps) = some ((b : Int), w', ps) ∧
      w'.port.status = 0 ∧ fifo_wf w'.port.rxfifo ∧ fifo_contents w'.port.rxfifo = [] ∧
      w'.now = t ∧ w'.port.rxtimeout = w.port.rxtimeout := by
  have hemp : fifo_isempty w.port.rxfifo = true := (fifo_isempty_iff _).mpr he
  have hcount : w.port.rxfifo.count = 0 := by simpa [fifo_isempty] using hemp
  have hnf : fifo_isfull w.port.rxfifo = false := by
    have := hwf.1
    simp only [fifo_isfull, beq_eq_false_iff_ne, ne_eq]
    omega
  have hw1 : proc_switch cfg w ⟨t, [IsrEvent.rxByte b]⟩ =
      { w with port := { w.port with rxfifo := (fifo_push w.port.rxfifo b).2 }, now := t } := by
    simp [proc_switch, isr_event, hnf, Nat.mod_eq_of_lt hb]
  have hq1 : fifo_contents (fifo_push w.port.rxfifo b).2 = [b] := by
    rw [fifo_push_contents _ _ hwf hnf, he]; rfl
  have hwf1 : fifo_wf (fifo_push w.port.rxfifo b).2 := fifo_push_wf _ _ hb hwf
  have hne1 : fifo_isempty (fifo_push w.port.rxfifo b).2 = false :=
    fifo_isempty_of_cons _ b [] hq1
  have hto : ¬ (tick_diff cfg t t ≥ w.port.rxtimeout) := by omega
  have hwait : ser_getchar_wait cfg w.now w (⟨t, [IsrEvent.rxByte b]⟩ :: ps) =
      some (true, { w with port := { w.port with rxfifo := (fifo_push w.port.rxfifo b).2 },
                           now := t }, ps) := by
    simp only [ser_getchar_wait, hw1, hnow, hto, decide_False, Bool.and_false,
      Bool.false_eq_true, if_false, hne1]
  have hstep : ser_getchar cfg w (⟨t, [IsrEvent.rxByte b]⟩ :: ps) =
      ser_getchar cfg
        { w with port := { w.port with rxfifo := (fifo_push w.port.rxfifo b).2 }, now := t }
        ps := by
    simp only [ser_getchar, hemp, if_true, hwait, hne1, Bool.false_eq_true, if_false]
  obtain ⟨_, _, hp2, hp3⟩ := fifo_pop_cons _ b [] hwf1 hq1
  refine ⟨rx_popped
    { w with port := { w.port with rxfifo := (fifo_push w.port.rxfifo b).2 }, now := t },
    ?_, hst, hp3, hp2, rfl, rfl⟩
  rw [hstep]
  exact ser_getchar_head cfg _ ps b [] hst hwf1 hq1

/-- With a clear status and an empty rx queue, `n` calls of `ser_getchar`, each
served by one yield during which the byte `b` arrives, all succeed. -/
theorem ser_getchar_calls_served (cfg : Config) (t b : Nat) (ps : List Poll) (hb : b < 256)
    (n : Nat) :
    ∀ w : World, w.port.status = 0 → fifo_wf w.port.rxfifo →
      fifo_contents w.port.rxfifo = [] → w.now = t → tick_diff cfg t t < w.port.rxtimeout →
      ∃ w', ser_getchar_calls cfg n w (List.replicate n ⟨t, [IsrEvent.rxByte b]⟩ ++ ps) =
          some (List.replicate n (b : Int), true, w', ps) ∧
        fifo_contents w'.port.rxfifo = [] := by
  induction n with
  | zero => intro w _ _ he _ _; exact ⟨w, rfl, he⟩
  | succ k ih =>
    intro w hst hwf he hnow hT
    obtain ⟨w1, g1, g2, g3, g4, g5, g6⟩ := ser_getchar_served cfg w t b
      (List.replicate k ⟨t, [IsrEvent.rxByte b]⟩ ++ ps) hst hwf he hb hnow hT
    obtain ⟨w', k1, k2⟩ := ih w1 g2 g3 g4 g5 (by rw [g6]; exact hT)
    refine ⟨w', ?_, k2⟩
    simp only [List.replicate_succ, List.cons_append, ser_getchar_calls, g1, byte_ne_EOF,
      if_false, k1]

/-- C6 fails on the code for a size above `INT_MAX`.  With 16-bit `int`
(`INT_MAX` 32767), a clear status, an eight-cell rx queue and 65535 bytes
arriving one per yield, `ser_read` of 65535 bytes makes 65535 calls of
`ser_getchar` that all succeed, and returns `EOF`: the count 65535, converted
to `int` by `return i`, is -1. -/
theorem ser_read_count_wraps :
    ∃ w' buf',
      ser_getchar_calls sample_cfg 65535
          (sample_world (sample_port (fifo_init 8) sample_full 0 5 5))
          (List.replicate 65535 ⟨100, [IsrEvent.rxByte 65]⟩) =
        some (List.replicate 65535 (65 : Int), true, w', []) ∧
      ser_read sample_cfg (sample_world (sample_port (fifo_init 8) sample_full 0 5 5))
          (List.replicate 65535 ⟨100, [IsrEvent.rxByte 65]⟩) (fun _ => 7) 65535 =
        some (EOF, w', [], buf') ∧
      fifo_contents w'.port.rxfifo = [] := by
  have hconv : size_to_int sample_cfg (0 + 65535) = EOF := by decide
  obtain ⟨w', h1, h2⟩ := ser_getchar_calls_served sample_cfg 100 65 [] (by decide) 65535
    (sample_world (sample_port (fifo_init 8) sample_full 0 5 5)) rfl
    (fifo_init_wf 8 (by decide)) (fifo_init_contents 8) rfl (by decide)
  have hcast : ((65 : Nat) : Int) = 65 := rfl
  rw [List.append_nil, hcast] at h1
  refine ⟨w', write_bytes (fun _ => 7) 0 (List.replicate 65535 (65 : Int)), h1, ?_, h2⟩
  unfold ser_read
  rw [ser_read_loop_calls, h1]
  simp only [Option.map_some', if_true, hconv]

end Ser

namespace Led7Seg

/-! ## `sevenseg_print`: the length check -/

theorem translate_loop_ret (cfg : LedConfig) (sstring : List Int) (string_lenght : Nat)
    (fuel x y : Nat) (SS : SevenSeg) (r : Int) (y' : Nat) (SS' : SevenSeg)
    (h : translate_loop cfg sstring string_lenght fuel x y SS = some (r, y', SS')) :
    r = 0 ∨ r = -3 := by
  induction fuel generalizing x y SS with
  | zero =>
    simp only [translate_loop, Option.some.injEq, Prod.mk.injEq] at h
    exact Or.inl h.1.symm
  | succ fuel ih =>
    simp only [translate_loop] at h
    split at h
    · split at h
      · split at h
        · simp only [Option.some.injEq, Prod.mk.injEq] at h
          exact Or.inr h.1.symm
        · split at h
          · cases h
          · split at h
            · simp only [Option.some.injEq, Prod.mk.injEq] at h
              exact Or.inr h.1.symm
            · exact ih _ _ _ h
      · split at h
        · exact ih _ _ _ h
        · exact ih _ _ _ h
    · simp only [Option.some.injEq, Prod.mk.injEq] at h
      exact Or.inl h.1.symm

/-- The length check of `sevenseg_print` does not look at the string: on an
editable display the call returns `-2` for every string when the size of a
pointer exceeds `CONFIG_LED_7SEG_STRLEN - 2 * CONFIG_LED_7SEG_DIGIT`, and for
no string otherwise. -/
theorem sevenseg_print_length_check (cfg : LedConfig) (SS : SevenSeg) (sstring : List Int)
    (hb : SS.busyedit = true) :
    (cfg.pointer_size > to_size cfg
        ((cfg.CONFIG_LED_7SEG_STRLEN : Int) - 2 * (cfg.CONFIG_LED_7SEG_DIGIT : Int)) →
      sevenseg_print cfg SS sstring = some (-2, SS)) ∧
    (¬ cfg.pointer_size > to_size cfg
        ((cfg.CONFIG_LED_7SEG_STRLEN : Int) - 2 * (cfg.CONFIG_LED_7SEG_DIGIT : Int)) →
      ∀ r SS', sevenseg_print cfg SS sstring = some (r, SS') → r ≠ -2) := by
  constructor
  · intro hp
    simp [sevenseg_print, hb, hp]
  · intro hp r SS' h
    unfold sevenseg_print at h
    rw [if_neg (by simp [hb]), if_neg hp] at h
    split at h
    · cases h
    · simp only at h
      split at h
      · simp only [Option.some.injEq, Prod.mk.injEq] at h
        rw [← h.1]; decide
      · split at h
        · cases h
        · rename_i r1 y1 SS1 htr
          have hret := translate_loop_ret cfg _ _ _ _ _ _ _ _ _ htr
          split at h
          · simp only [Option.some.injEq, Prod.mk.injEq] at h
            rw [← h.1]
            rcases hret with e | e <;> rw [e] <;> decide
          · simp only [Option.some.injEq, Prod.mk.injEq] at h
            rw [← h.1]; decide

/-- C20 fails on the code.  With four digits and a string of sixteen cells
(`CONFIG_LED_7SEG_STRLEN - 2 * CONFIG_LED_7SEG_DIGIT = 8`, the size of a
pointer being 4), the nine-character string `"123456789"` on an editable
display is not rejected: `sevenseg_print` returns `0`, sets `string_len` to
17 and writes the space pattern at `string[16]`, one past the array. -/
theorem sevenseg_print_long_string_accepted :
    sample_display.busyedit = true ∧
    strlen [49, 50, 51, 52, 53, 54, 55, 56, 57, 0] = some 9 ∧
    (sample_led.CONFIG_LED_7SEG_STRLEN : Int) - 2 * (sample_led.CONFIG_LED_7SEG_DIGIT : Int)
      = 8 ∧
    (sevenseg_print sample_led sample_display [49, 50, 51, 52, 53, 54, 55, 56, 57, 0]).map
      (fun r => (r.1, r.2.string_len, r.2.string 16)) = some (0, 17, 39) := by
  decide

/-! ### The character table -/

/-- C23. For every character value, negative ones included, the result of
`sseg_tabcheck` is in 0..38: the digits go to 0..9, the dot to 10, the minus
to 11, the capital letters to 12..37, a small letter to the index of its
capital, and every other character, the space included, to 38. -/
theorem sseg_tabcheck_table (c : Int) :
    sseg_tabcheck c ≤ 38 ∧
      (48 ≤ c ∧ c ≤ 57 → (sseg_tabcheck c : Int) = c - 48) ∧
      (c = 46 → sseg_tabcheck c = 10) ∧
      (c = 45 → sseg_tabcheck c = 11) ∧
      (65 ≤ c ∧ c ≤ 90 → (sseg_tabcheck c : Int) = 12 + (c - 65)) ∧
      (97 ≤ c ∧ c ≤ 122 → sseg_tabcheck c = sseg_tabcheck (c - 32)) ∧
      (¬ (48 ≤ c ∧ c ≤ 57) → c ≠ 46 → c ≠ 45 → ¬ (65 ≤ c ∧ c ≤ 90) →
        ¬ (97 ≤ c ∧ c ≤ 122) → sseg_tabcheck c = 38) := by
  unfold sseg_tabcheck
  refine ⟨?_, ?_, ?_, ?_, ?_, ?_, ?_⟩
  · split_ifs <;> omega
  · intro h; split_ifs <;> omega
  · intro h; split_ifs <;> omega
  · intro h; split_ifs <;> omega
  · intro h; split_ifs <;> omega
  · intro h; split_ifs <;> omega
  · intro h1 h2 h3 h4 h5; split_ifs <;> omega

theorem sseg_tabcheck_table_witness :
    (sseg_tabcheck 55 : Int) = 55 - 48 ∧ sseg_tabcheck 46 = 10 ∧ sseg_tabcheck 45 = 11 ∧
      (sseg_tabcheck 66 : Int) = 12 + (66 - 65) ∧
      sseg_tabcheck 98 = sseg_tabcheck (98 - 32) ∧
      sseg_tabcheck 32 = 38 ∧ sseg_tabcheck (-5) = 38 :=
  ⟨(sseg_tabcheck_table 55).2.1 ⟨by decide, by decide⟩,
    (sseg_tabcheck_table 46).2.2.1 rfl,
    (sseg_tabcheck_table 45).2.2.2.1 rfl,
    (sseg_tabcheck_table 66).2.2.2.2.1 ⟨by decide, by decide⟩,
    (sseg_tabcheck_table 98).2.2.2.2.2.1 ⟨by decide, by decide⟩,
    (sseg_tabcheck_table 32).2.2.2.2.2.2 (by decide) (by decide) (by decide) (by decide)
      (by decide),
    (sseg_tabcheck_table (-5)).2.2.2.2.2.2 (by decide) (by decide) (by decide) (by decide)
      (by decide)⟩

/-! ### The locked display -/

/-- C22. While the display is locked (`busyedit` false) `sevenseg_print`
returns -1, and `sevenseg_setBlink`, `sevenseg_setRunonce`,
`sevenseg_setRunspeed` and `sevenseg_clear` return false; each of the five
leaves every field of the structure as it was. -/
theorem sevenseg_locked_refuses (cfg : LedConfig) (SS : SevenSeg) (sstring : List Int)
    (blink runonce : Bool) (digit r_speed : Nat) (hb : SS.busyedit = false) :
    sevenseg_print cfg SS sstring = some (-1, SS) ∧
      sevenseg_setBlink cfg SS blink digit = (false, SS) ∧
      sevenseg_setRunonce SS runonce = (false, SS) ∧
      sevenseg_setRunspeed SS r_speed = (false, SS) ∧
      sevenseg_clear cfg SS = (false, SS) := by
  simp [sevenseg_print, sevenseg_setBlink, sevenseg_setRunonce, sevenseg_setRunspeed,
    sevenseg_clear, hb]

theorem sevenseg_locked_refuses_witness :
    sevenseg_print sample_led sample_ended [49, 50, 0] = some (-1, sample_ended) ∧
      sevenseg_setBlink sample_led sample_ended true 2 = (false, sample_ended) ∧
      sevenseg_setRunonce sample_ended false = (false, sample_ended) ∧
      sevenseg_setRunspeed sample_ended 3 = (false, sample_ended) ∧
      sevenseg_clear sample_led sample_ended = (false, sample_ended) :=
  sevenseg_locked_refuses sample_led sample_ended [49, 50, 0] true false 2 3 rfl

/-! ### The refresh -/

/-- Conversion to `unsigned int` keeps a value that fits. -/
theorem to_uint_of_lt (cfg : LedConfig) (n : Nat) (h : n < 2 ^ cfg.uint_bits) :
    to_uint cfg (n : Int) = n := by
  unfold to_uint
  have h2 : ((n : Int)) % 2 ^ cfg.uint_bits = n :=
    Int.emod_eq_of_lt (by omega) (by exact_mod_cast h)
  rw [h2]; simp

/-- Subtraction in `unsigned int` is exact when it does not go below zero. -/
theorem uint_sub_of_le (cfg : LedConfig) (a b : Nat) (hba : b ≤ a)
    (h : a < 2 ^ cfg.uint_bits) : uint_sub cfg a b = a - b := by
  unfold uint_sub
  have h2 : (a : Int) - (b : Int) = ((a - b : Nat) : Int) := by omega
  rw [h2]
  exact to_uint_of_lt cfg (a - b) (by omega)

/-- At the end of a text shown once, on a locked display, `sseg_refresh`
switches the display off and only clears `firstrun`: the call of
`sevenseg_clear` it makes is refused, the display being locked. -/
theorem sseg_refresh_runonce_end (cfg : LedConfig) (SS : SevenSeg)
    (hb : SS.busyedit = false) (hd : SS.curdigit = cfg.CONFIG_LED_7SEG_DIGIT)
    (hs : SS.curspeed = 0) (hp : SS.string_len ≤ SS.curpos) (hr : SS.runonce = true) :
    sseg_refresh cfg SS = ({ SS with firstrun := false }, [DisplayOp.off]) := by
  simp [sseg_refresh, sevenseg_clear, hb, hd, hs, hr, Nat.not_lt.mpr hp]

/-- C25. On the locked display `sample_ended`, which has shown the sixteen
cells of its run-once text to the end (`curdigit` 4 = digits, `curspeed` 0,
`curpos` 16 = `string_len`), `sseg_refresh` clears `firstrun` and leaves
everything else as it was: cell 4 still holds 5 and not the space pattern 39,
`string_len` is still 16 and not 4, `curdigit` is still 4 and `curpos` still
16, while `sevenseg_clear` on the same fields of an editable display would
leave the space pattern, 4, 0 and 0. -/
theorem sseg_refresh_runonce_end_keeps_text :
    ((sseg_refresh sample_led sample_ended).1.string 4,
      (sseg_refresh sample_led sample_ended).1.string_len,
      (sseg_refresh sample_led sample_ended).1.curdigit,
      (sseg_refresh sample_led sample_ended).1.curpos,
      (sseg_refresh sample_led sample_ended).1.firstrun) = (5, 16, 4, 16, false) ∧
    ((sevenseg_clear sample_led { sample_ended with busyedit := true }).2.string 4,
      (sevenseg_clear sample_led { sample_ended with busyedit := true }).2.string_len,
      (sevenseg_clear sample_led { sample_ended with busyedit := true }).2.curdigit,
      (sevenseg_clear sample_led { sample_ended with busyedit := true }).2.curpos,
      (sevenseg_clear sample_led { sample_ended with busyedit := true }).2.firstrun) =
      (39, 4, 0, 0, false) := by
  decide

/-- On an editable display `sevenseg_clear` succeeds, puts the cursor at the
start of a text of `CONFIG_LED_7SEG_DIGIT` cells and so establishes the cursor
invariant; on a locked display it is refused. -/
theorem sevenseg_clear_inv (cfg : LedConfig) (SS : SevenSeg) :
    ((sevenseg_clear cfg SS).1 = true ↔ SS.busyedit = true) ∧
      (SS.busyedit = true →
        (sevenseg_clear cfg SS).1 = true ∧ (sevenseg_clear cfg SS).2.curdigit = 0 ∧
        (sevenseg_clear cfg SS).2.curpos = 0 ∧
        (sevenseg_clear cfg SS).2.string_len = cfg.CONFIG_LED_7SEG_DIGIT ∧
        refresh_inv cfg (sevenseg_clear cfg SS).2) := by
  unfold sevenseg_clear
  by_cases hb : SS.busyedit = true
  · rw [if_pos hb]
    exact ⟨⟨fun _ => hb, fun _ => rfl⟩, fun _ => ⟨rfl, rfl, rfl, rfl,
      ⟨Nat.zero_le _, Nat.le_refl _, by
        show 0 - 0 + cfg.CONFIG_LED_7SEG_DIGIT ≤ cfg.CONFIG_LED_7SEG_DIGIT
        omega⟩⟩⟩
  · rw [if_neg hb]
    exact ⟨⟨fun h => Bool.noConfusion h, fun h => absurd h hb⟩, fun h => absurd h hb⟩

/-- On a display that has shown its text once `sevenseg_unlock` succeeds and
puts the cursor at the start of the text, which establishes the cursor
invariant when the text is at least as long as the display; before that it is
refused. -/
theorem sevenseg_unlock_inv (cfg : LedConfig) (SS : SevenSeg) :
    ((sevenseg_unlock SS).1 = true ↔ SS.firstrun = false) ∧
      (SS.firstrun = false → cfg.CONFIG_LED_7SEG_DIGIT ≤ SS.string_len →
        (sevenseg_unlock SS).1 = true ∧ (sevenseg_unlock SS).2.curdigit = 0 ∧
        (sevenseg_unlock SS).2.curpos = 0 ∧
        (sevenseg_unlock SS).2.string_len = SS.string_len ∧
        refresh_inv cfg (sevenseg_unlock SS).2) := by
  unfold sevenseg_unlock
  by_cases hf : SS.firstrun = false
  · rw [if_pos hf]
    exact ⟨⟨fun _ => hf, fun _ => rfl⟩, fun _ hl => ⟨rfl, rfl, rfl, rfl,
      ⟨Nat.zero_le _, Nat.le_refl _, by
        show 0 - 0 + cfg.CONFIG_LED_7SEG_DIGIT ≤ SS.string_len
        omega⟩⟩⟩
  · rw [if_neg hf]
    exact ⟨⟨fun h => Bool.noConfusion h, fun h => absurd h hf⟩, fun h => absurd h hf⟩

/-- One call of `sseg_refresh` keeps the cursor invariant and the length of
the text. -/
theorem sseg_refresh_inv (cfg : LedConfig) (SS : SevenSeg) (hi : refresh_inv cfg SS)
    (hl : SS.string_len < 2 ^ cfg.uint_bits) :
    refresh_inv cfg (sseg_refresh cfg SS).1 ∧
      (sseg_refresh cfg SS).1.string_len = SS.string_len := by
  obtain ⟨h1, h2, h3⟩ := hi
  unfold sseg_refresh refresh_inv
  by_cases hb : SS.busyedit = true
  · rw [if_pos hb]
    exact ⟨⟨h1, h2, h3⟩, rfl⟩
  · rw [if_neg hb]
    by_cases hd : SS.curdigit = cfg.CONFIG_LED_7SEG_DIGIT
    · rw [if_pos hd]
      have hsub : uint_sub cfg SS.curpos cfg.CONFIG_LED_7SEG_DIGIT =
          SS.curpos - cfg.CONFIG_LED_7SEG_DIGIT :=
        uint_sub_of_le cfg _ _ (by omega) (by omega)
      by_cases hs : SS.curspeed > 0
      · rw [if_pos hs]
        dsimp only
        rw [hsub]
        refine ⟨⟨?_, ?_, ?_⟩, rfl⟩ <;> omega
      · rw [if_neg hs]
        by_cases hp : SS.curpos < SS.string_len
        · have hadd : to_uint cfg (((uint_sub cfg SS.curpos cfg.CONFIG_LED_7SEG_DIGIT : Nat) : Int)
              + 1) = SS.curpos - cfg.CONFIG_LED_7SEG_DIGIT + 1 := by
            rw [hsub]
            have := to_uint_of_lt cfg (SS.curpos - cfg.CONFIG_LED_7SEG_DIGIT + 1) (by omega)
            simpa using this
          rw [if_pos hp]
          dsimp only
          rw [hadd]
          refine ⟨⟨?_, ?_, ?_⟩, rfl⟩ <;> omega
        · rw [if_neg hp]
          dsimp only
          by_cases hr : SS.runonce = true
          · rw [if_pos hr]
            unfold sevenseg_clear
            dsimp only
            rw [if_neg hb]
            exact ⟨⟨h1, h2, h3⟩, rfl⟩
          · rw [if_neg hr]
            dsimp only
            refine ⟨⟨?_, ?_, ?_⟩, rfl⟩ <;> omega
    · rw [if_neg hd]
      dsimp only
      have hc : to_uint cfg ((SS.curdigit : Int) + 1) = SS.curdigit + 1 := by
        have := to_uint_of_lt cfg (SS.curdigit + 1) (by omega)
        simpa using this
      have hp : to_uint cfg ((SS.curpos : Int) + 1) = SS.curpos + 1 := by
        have := to_uint_of_lt cfg (SS.curpos + 1) (by omega)
        simpa using this
      rw [hc, hp]
      refine ⟨⟨?_, ?_, ?_⟩, rfl⟩ <;> omega

/-- Any number of calls of `sseg_refresh` keeps the cursor invariant. -/
theorem sseg_refresh_iterate_inv (cfg : LedConfig) (n : Nat) :
    ∀ SS : SevenSeg, refresh_inv cfg SS → SS.string_len < 2 ^ cfg.uint_bits →
      refresh_inv cfg (Nat.iterate (fun s => (sseg_refresh cfg s).1) n SS) := by
  induction n with
  | zero => intro SS hi _; exact hi
  | succ k ih =>
    intro SS hi hl
    have h := sseg_refresh_inv cfg SS hi hl
    exact ih _ h.1 (by rw [h.2]; exact hl)

/-- Every character shown by `sseg_refresh` is the cell `string[curpos]`, read
in the branch where the display is locked and `curdigit` is not the number of
digits. -/
theorem sseg_refresh_reads (cfg : LedConfig) (SS : SevenSeg) (v d : Nat)
    (h : DisplayOp.on v d ∈ (sseg_refresh cfg SS).2) :
    v = SS.string SS.curpos ∧ SS.busyedit = false ∧
      SS.curdigit ≠ cfg.CONFIG_LED_7SEG_DIGIT := by
  unfold sseg_refresh at h
  by_cases hb : SS.busyedit = true
  · simp [hb] at h
  · by_cases hd : SS.curdigit = cfg.CONFIG_LED_7SEG_DIGIT
    · simp only [hb, hd, if_true, if_false] at h
      split_ifs at h <;> simp at h
    · simp only [hb, hd, if_false, sseg_refresh_show] at h
      refine ⟨?_, by simpa using hb, hd⟩
      split_ifs at h <;> simp at h <;> exact h.1

/-- C26. The cursor invariant `curdigit <= DIGIT`, `curdigit <= curpos` and
`(curpos - curdigit) + DIGIT <= string_len`.  `sevenseg_clear` succeeds exactly
on an editable display, and then leaves `curdigit == curpos == 0` and
`string_len == DIGIT`, where the invariant holds; `sevenseg_unlock` succeeds
exactly when `firstrun` is false, and then leaves `curdigit == curpos == 0`
and `string_len` as it was, where the invariant holds for
`string_len >= DIGIT`.  Every call of `sseg_refresh` keeps the invariant (so
does any number of calls); under it every character `sseg_refresh` shows is
`string[curpos]` with `curpos < string_len`, and at `curdigit == DIGIT` the
subtraction `curpos -= DIGIT` has `DIGIT <= curpos` and does not wrap. -/
theorem sseg_refresh_cursor_invariant (cfg : LedConfig) (SS : SevenSeg) :
    ((sevenseg_clear cfg SS).1 = true ↔ SS.busyedit = true) ∧
      (SS.busyedit = true →
        (sevenseg_clear cfg SS).1 = true ∧ (sevenseg_clear cfg SS).2.curdigit = 0 ∧
        (sevenseg_clear cfg SS).2.curpos = 0 ∧
        (sevenseg_clear cfg SS).2.string_len = cfg.CONFIG_LED_7SEG_DIGIT ∧
        refresh_inv cfg (sevenseg_clear cfg SS).2) ∧
      ((sevenseg_unlock SS).1 = true ↔ SS.firstrun = false) ∧
      (SS.firstrun = false → cfg.CONFIG_LED_7SEG_DIGIT ≤ SS.string_len →
        (sevenseg_unlock SS).1 = true ∧ (sevenseg_unlock SS).2.curdigit = 0 ∧
        (sevenseg_unlock SS).2.curpos = 0 ∧
        (sevenseg_unlock SS).2.string_len = SS.string_len ∧
        refresh_inv cfg (sevenseg_unlock SS).2) ∧
      (refresh_inv cfg SS → SS.string_len < 2 ^ cfg.uint_bits →
        refresh_inv cfg (sseg_refresh cfg SS).1 ∧
        (∀ n, refresh_inv cfg (Nat.iterate (fun s => (sseg_refresh cfg s).1) n SS)) ∧
        (∀ v d, DisplayOp.on v d ∈ (sseg_refresh cfg SS).2 →
          v = SS.string SS.curpos ∧ SS.curpos < SS.string_len) ∧
        (SS.curdigit = cfg.CONFIG_LED_7SEG_DIGIT →
          cfg.CONFIG_LED_7SEG_DIGIT ≤ SS.curpos ∧
          uint_sub cfg SS.curpos cfg.CONFIG_LED_7SEG_DIGIT =
            SS.curpos - cfg.CONFIG_LED_7SEG_DIGIT)) := by
  refine ⟨(sevenseg_clear_inv cfg SS).1, (sevenseg_clear_inv cfg SS).2,
    (sevenseg_unlock_inv cfg SS).1, (sevenseg_unlock_inv cfg SS).2, ?_⟩
  intro hi hl
  refine ⟨(sseg_refresh_inv cfg SS hi hl).1,
    fun n => sseg_refresh_iterate_inv cfg n SS hi hl, ?_, ?_⟩
  · intro v d h
    obtain ⟨hv, _, hd⟩ := sseg_refresh_reads cfg SS v d h
    obtain ⟨h1, h2, h3⟩ := hi
    exact ⟨hv, by omega⟩
  · intro hd
    obtain ⟨h1, h2, h3⟩ := hi
    exact ⟨by omega, uint_sub_of_le cfg _ _ (by omega) (by omega)⟩

/-- Instance of C26: the clearing and the unlocking of the editable sample
display, and a refresh of the display that has shown its text to the end. -/
theorem sseg_refresh_cursor_invariant_witness :
    ((sevenseg_clear sample_led sample_display).1 = true ∧
        (sevenseg_clear sample_led sample_display).2.curdigit = 0 ∧
        (sevenseg_clear sample_led sample_display).2.curpos = 0 ∧
        (sevenseg_clear sample_led sample_display).2.string_len =
          sample_led.CONFIG_LED_7SEG_DIGIT ∧
        refresh_inv sample_led (sevenseg_clear sample_led sample_display).2) ∧
      ((sevenseg_unlock sample_display).1 = true ∧
        (sevenseg_unlock sample_display).2.curdigit = 0 ∧
        (sevenseg_unlock sample_display).2.curpos = 0 ∧
        (sevenseg_unlock sample_display).2.string_len = sample_display.string_len ∧
        refresh_inv sample_led (sevenseg_unlock sample_display).2) ∧
      refresh_inv sample_led (sseg_refresh sample_led sample_ended).1 ∧
      (sample_led.CONFIG_LED_7SEG_DIGIT ≤ sample_ended.curpos ∧
        uint_sub sample_led sample_ended.curpos sample_led.CONFIG_LED_7SEG_DIGIT =
          sample_ended.curpos - sample_led.CONFIG_LED_7SEG_DIGIT) :=
  ⟨(sseg_refresh_cursor_invariant sample_led sample_display).2.1 rfl,
    (sseg_refresh_cursor_invariant sample_led sample_display).2.2.2.1 rfl (by decide),
    ((sseg_refresh_cursor_invariant sample_led sample_ended).2.2.2.2 (by decide)
      (by decide)).1,
    ((sseg_refresh_cursor_invariant sample_led sample_ended).2.2.2.2 (by decide)
      (by decide)).2.2.2 rfl⟩

/-! ### Graphic strings -/

/-- The counting loop adds two to `bracket_num` for every `'<'` it meets, so
it keeps the parity of `bracket_num`. -/
theorem count_loop_bracket_parity (sstring : List Int) (string_lenght fuel : Nat) :
    ∀ x dotnumber graph_digit_num bracket_num,
      (count_loop sstring string_lenght fuel x dotnumber graph_digit_num bracket_num).2.2 % 2 =
        bracket_num % 2 := by
  induction fuel with
  | zero => intro x d g b; rfl
  | succ k ih =>
    intro x d g b
    unfold count_loop
    by_cases hx : x < string_lenght
    · rw [if_pos hx]
      dsimp only
      by_cases hc : char_at sstring x = 60
      · rw [if_pos hc, ih]; omega
      · rw [if_neg hc, ih]
    · rw [if_neg hx]

/-- The test for an odd number of brackets in `sevenseg_print` never
succeeds: the count it tests is even for every string. -/
theorem sevenseg_print_bracket_test_dead (sstring : List Int) (string_lenght : Nat) :
    ¬ ((count_loop sstring string_lenght (string_lenght + 1) 0 0 0 0).2.2 > 0 ∧
      (count_loop sstring string_lenght (string_lenght + 1) 0 0 0 0).2.2 % 2 = 1) := by
  rw [count_loop_bracket_parity]
  omega

/-- C21. On the editable display `sample_display` the string `<ab`, which has
a `'<'` and no `'>'` after it, does not give -3.  When the byte after its NUL
is a `'>'`, `sevenseg_print` returns 0, with `string_len` 5 and a graphic digit
made of segments A and B and of the NUL in cell 4: the scan for `'>'` has run
past the end of the string.  When the memory ends with the NUL the scan leaves
the memory and the call has no result. -/
theorem sevenseg_print_unclosed_graphic_accepted :
    (sevenseg_print sample_led sample_display [60, 97, 98, 0, 62]).map
        (fun r => (r.1, r.2.string_len, r.2.string 4)) = some (0, 5, 3) ∧
      strlen [60, 97, 98, 0, 62] = some 3 ∧
      (sevenseg_print sample_led sample_display [60, 97, 98, 0]).map (fun r => r.1) = none := by
  decide

/-! ### Plain text -/

/-- Conversion to `size_t` keeps a value that fits. -/
theorem to_size_of_lt (cfg : LedConfig) (n : Nat) (h : n < 2 ^ cfg.size_bits) :
    to_size cfg (n : Int) = n := by
  unfold to_size
  have h2 : ((n : Int)) % 2 ^ cfg.size_bits = n :=
    Int.emod_eq_of_lt (by omega) (by exact_mod_cast h)
  rw [h2]; simp

/-- Subtraction in `size_t` is exact when it does not go below zero. -/
theorem size_sub_of_le (cfg : LedConfig) (a b : Nat) (hba : b ≤ a)
    (h : a < 2 ^ cfg.size_bits) : size_sub cfg a b = a - b := by
  unfold size_sub
  have h2 : (a : Int) - (b : Int) = ((a - b : Nat) : Int) := by omega
  rw [h2]
  exact to_size_of_lt cfg (a - b) (by omega)

/-- The length of a string without NUL that is followed by a NUL. -/
theorem strlen_append (s tail : List Int) (hs : ∀ c ∈ s, c ≠ 0) :
    strlen (s ++ 0 :: tail) = some s.length := by
  induction s with
  | nil => simp [strlen]
  | cons c cs ih =>
    have hc : c ≠ 0 := hs c (List.mem_cons_self _ _)
    have := ih (fun d hd => hs d (List.mem_cons_of_mem _ hd))
    simp [strlen, hc, this]

/-- A character read inside the string is a character of the string. -/
theorem char_at_append (s rest : List Int) (x : Nat) (hx : x < s.length) :
    char_at (s ++ rest) x = s.get ⟨x, hx⟩ := by
  unfold char_at
  rw [List.getD_append _ _ _ _ hx, List.getD_eq_getElem _ _ hx]
  rfl

/-- Only the dot has index 10 in the table. -/
theorem sseg_tabcheck_eq_ten (c : Int) (h : sseg_tabcheck c = 10) : c = 46 := by
  unfold sseg_tabcheck at h
  split_ifs at h <;> omega

/-- The counting loop counts nothing in a text without dot and `'<'`. -/
theorem count_loop_plain (sstring : List Int) (string_lenght : Nat)
    (hp : ∀ i, i < string_lenght → char_at sstring i ≠ 46 ∧ char_at sstring i ≠ 60)
    (fuel : Nat) :
    ∀ x dotnumber graph_digit_num bracket_num,
      count_loop sstring string_lenght fuel x dotnumber graph_digit_num bracket_num =
        (dotnumber, graph_digit_num, bracket_num) := by
  induction fuel with
  | zero => intro x d g b; rfl
  | succ k ih =>
    intro x d g b
    unfold count_loop
    by_cases hx : x < string_lenght
    · rw [if_pos hx]
      have h1 := (hp x hx).1
      have h2 := (hp x hx).2
      dsimp only
      rw [if_neg h2, if_neg (fun h => h1 h.1), ih]
    · rw [if_neg hx]

/-- The filling loop stores a run of space patterns. -/
theorem fill_blanks_eq (cfg : LedConfig) (n : Nat) :
    ∀ (y : Nat) (SS : SevenSeg),
      fill_blanks cfg n y SS = store_list SS y (List.replicate n (cfg.segstable.getD 38 0)) := by
  induction n with
  | zero => intro y SS; rfl
  | succ k ih => intro y SS; simp only [fill_blanks, List.replicate_succ, store_list, ih]

/-- Storing two runs of values one after the other. -/
theorem store_list_append (a b : List Nat) :
    ∀ (y : Nat) (SS : SevenSeg),
      store_list SS y (a ++ b) = store_list (store_list SS y a) (y + a.length) b := by
  induction a with
  | nil => intro y SS; simp [store_list]
  | cons v vs ih =>
    intro y SS
    have h : y + (vs.length + 1) = y + 1 + vs.length := by omega
    show store_list (string_store SS y v) (y + 1) (vs ++ b) =
      store_list (store_list (string_store SS y v) (y + 1) vs) (y + (vs.length + 1)) b
    rw [ih, h]

/-- Storing a run of values changes the cells of `string` only. -/
theorem store_list_fields (vs : List Nat) :
    ∀ (y : Nat) (SS : SevenSeg),
      store_list SS y vs = { SS with string := (store_list SS y vs).string } := by
  induction vs with
  | nil => intro y SS; rfl
  | cons v vs ih =>
    intro y SS
    simp only [store_list]
    rw [ih]
    rfl

/-- Storing a run of values leaves the cells below its start as they were. -/
theorem store_list_below (vs : List Nat) :
    ∀ (y : Nat) (SS : SevenSeg) (i : Nat), i < y →
      (store_list SS y vs).string i = SS.string i := by
  induction vs with
  | nil => intro y SS i _; rfl
  | cons v vs ih =>
    intro y SS i hi
    simp only [store_list]
    rw [ih (y + 1) _ i (by omega)]
    simp [string_store, Function.update, Nat.ne_of_lt hi]

/-- The cells a run of values was stored in hold these values. -/
theorem store_list_cells (vs : List Nat) :
    ∀ (y : Nat) (SS : SevenSeg),
      (List.range' y vs.length).map (store_list SS y vs).string = vs := by
  induction vs with
  | nil => intro y SS; rfl
  | cons v vs ih =>
    intro y SS
    simp only [List.length_cons, List.range'_succ, List.map_cons, store_list, ih]
    rw [store_list_below vs (y + 1) _ y (by omega)]
    simp [string_store]

/-- The translation loop stores the pattern of every character of a plain
text, one cell each, and never fails. -/
theorem translate_loop_plain (cfg : LedConfig) (s rest : List Int) (hs : plain_text s)
    (fuel : Nat) :
    ∀ (x y : Nat) (SS : SevenSeg), x ≤ s.length → s.length ≤ x + fuel →
      translate_loop cfg (s ++ rest) s.length fuel x y SS =
        some (0, y + (s.length - x),
          store_list SS y ((s.drop x).map (fun c => cfg.segstable.getD (sseg_tabcheck c) 0))) := by
  induction fuel with
  | zero =>
    intro x y SS hx hf
    have hxe : x = s.length := by omega
    subst hxe
    simp [translate_loop, store_list]
  | succ k ih =>
    intro x y SS hx hf
    unfold translate_loop
    by_cases hlt : x < s.length
    · rw [if_pos hlt]
      have hc := char_at_append s rest x hlt
      have hp := hs _ (List.get_mem s x hlt)
      rw [← hc] at hp
      have hten : sseg_tabcheck (char_at (s ++ rest) x) ≠ 10 :=
        fun h => hp.2.1 (sseg_tabcheck_eq_ten _ h)
      rw [if_neg hp.2.2.1]
      simp only [hten, false_and, decide_False, Bool.false_eq_true, if_false]
      rw [ih (x + 1) (y + 1) _ (by omega) (by omega)]
      have hd : s.drop x = s.get ⟨x, hlt⟩ :: s.drop (x + 1) := by
        exact List.drop_eq_getElem_cons hlt
      have ha : y + 1 + (s.length - (x + 1)) = y + (s.length - x) := by omega
      rw [hd, ha, hc]
      rfl
    · rw [if_neg hlt]
      have hxe : x = s.length := by omega
      subst hxe
      simp [store_list]

/-- Where the length check lets the call through, `sevenseg_print` of a plain
text on an editable display returns 0 and leaves the cells of the layout in
`string`, with their number in `string_len`. -/
theorem sevenseg_print_plain (cfg : LedConfig) (SS : SevenSeg) (s tail : List Int)
    (hb : SS.busyedit = true)
    (hcheck : cfg.pointer_size ≤ cfg.CONFIG_LED_7SEG_STRLEN - 2 * cfg.CONFIG_LED_7SEG_DIGIT)
    (hs : plain_text s)
    (hfit : s.length + 2 * cfg.CONFIG_LED_7SEG_DIGIT ≤ cfg.CONFIG_LED_7SEG_STRLEN)
    (hsz : cfg.CONFIG_LED_7SEG_STRLEN < 2 ^ cfg.size_bits)
    (hu : cfg.CONFIG_LED_7SEG_STRLEN < 2 ^ cfg.uint_bits) :
    sevenseg_print cfg SS (s ++ 0 :: tail) =
      some (0, { store_list SS 0 (plain_layout cfg s) with
                 string_len := (plain_layout cfg s).length }) := by
  have hlim : to_size cfg ((cfg.CONFIG_LED_7SEG_STRLEN : Int) -
      2 * (cfg.CONFIG_LED_7SEG_DIGIT : Int)) =
      cfg.CONFIG_LED_7SEG_STRLEN - 2 * cfg.CONFIG_LED_7SEG_DIGIT := by
    have h2 : (cfg.CONFIG_LED_7SEG_STRLEN : Int) - 2 * (cfg.CONFIG_LED_7SEG_DIGIT : Int) =
        ((cfg.CONFIG_LED_7SEG_STRLEN - 2 * cfg.CONFIG_LED_7SEG_DIGIT : Nat) : Int) := by omega
    rw [h2]
    exact to_size_of_lt cfg _ (by omega)
  have hp : ∀ i, i < s.length →
      char_at (s ++ 0 :: tail) i ≠ 46 ∧ char_at (s ++ 0 :: tail) i ≠ 60 := by
    intro i hi
    rw [char_at_append s _ i hi]
    have := hs _ (List.get_mem s i hi)
    exact ⟨this.2.1, this.2.2.1⟩
  have hz : size_sub cfg s.length 0 = s.length := size_sub_of_le cfg _ _ (by omega) (by omega)
  have hreal : size_sub cfg (size_sub cfg s.length 0) (0 + 0) = s.length := by
    rw [hz]; exact hz
  have htr := translate_loop_plain cfg s (0 :: tail) hs (s.length + 1)
  unfold sevenseg_print
  rw [if_neg (by simp [hb]), hlim, if_neg (by omega),
    strlen_append s tail (fun c hc => (hs c hc).1)]
  simp only [count_loop_plain _ _ hp, Nat.lt_irrefl, gt_iff_lt, false_and, if_false, hreal]
  by_cases hle : s.length ≤ cfg.CONFIG_LED_7SEG_DIGIT
  · have hfill : (if s.length < cfg.CONFIG_LED_7SEG_DIGIT then
          (size_sub cfg cfg.CONFIG_LED_7SEG_DIGIT s.length,
            fill_blanks cfg (size_sub cfg cfg.CONFIG_LED_7SEG_DIGIT s.length) 0 SS)
        else (0, SS)) =
        (cfg.CONFIG_LED_7SEG_DIGIT - s.length,
          store_list SS 0 (List.replicate (cfg.CONFIG_LED_7SEG_DIGIT - s.length)
            (cfg.segstable.getD 38 0))) := by
      by_cases hlt : s.length < cfg.CONFIG_LED_7SEG_DIGIT
      · rw [if_pos hlt, size_sub_of_le cfg _ _ hle (by omega), fill_blanks_eq]
      · rw [if_neg hlt]
        have h0 : cfg.CONFIG_LED_7SEG_DIGIT - s.length = 0 := by omega
        rw [h0]; rfl
    have hlay : plain_layout cfg s =
        List.replicate (cfg.CONFIG_LED_7SEG_DIGIT - s.length) (cfg.segstable.getD 38 0) ++
          s.map (fun c => cfg.segstable.getD (sseg_tabcheck c) 0) := by
      unfold plain_layout; rw [if_pos hle]
    have hstore : store_list (store_list SS 0 (List.replicate
          (cfg.CONFIG_LED_7SEG_DIGIT - s.length) (cfg.segstable.getD 38 0)))
        (cfg.CONFIG_LED_7SEG_DIGIT - s.length)
        ((s.drop 0).map (fun c => cfg.segstable.getD (sseg_tabcheck c) 0)) =
        store_list SS 0 (plain_layout cfg s) := by
      rw [hlay, store_list_append]; simp
    have hlen : (plain_layout cfg s).length = cfg.CONFIG_LED_7SEG_DIGIT := by
      rw [hlay]; simp; omega
    have hy : to_uint cfg ((cfg.CONFIG_LED_7SEG_DIGIT - s.length + (s.length - 0) : Nat) : Int) =
        cfg.CONFIG_LED_7SEG_DIGIT := by
      have h1 : cfg.CONFIG_LED_7SEG_DIGIT - s.length + (s.length - 0) =
          cfg.CONFIG_LED_7SEG_DIGIT := by omega
      rw [h1]; exact to_uint_of_lt cfg _ (by omega)
    rw [if_pos hle, hfill]
    dsimp only
    rw [htr 0 _ _ (by omega) (by omega)]
    dsimp only
    rw [if_neg (by simp), if_neg (by omega)]
    dsimp only
    rw [hstore, hy, hlen]
  · have hlt : cfg.CONFIG_LED_7SEG_DIGIT < s.length := by omega
    have hlay : plain_layout cfg s =
        List.replicate cfg.CONFIG_LED_7SEG_DIGIT (cfg.segstable.getD 38 0) ++
          s.map (fun c => cfg.segstable.getD (sseg_tabcheck c) 0) ++
          List.replicate cfg.CONFIG_LED_7SEG_DIGIT (cfg.segstable.getD 38 0) := by
      unfold plain_layout; rw [if_neg hle]
    have hstore : store_list (store_list (store_list SS 0 (List.replicate
          cfg.CONFIG_LED_7SEG_DIGIT (cfg.segstable.getD 38 0)))
        cfg.CONFIG_LED_7SEG_DIGIT
        ((s.drop 0).map (fun c => cfg.segstable.getD (sseg_tabcheck c) 0)))
        (cfg.CONFIG_LED_7SEG_DIGIT + (s.length - 0))
        (List.replicate cfg.CONFIG_LED_7SEG_DIGIT (cfg.segstable.getD 38 0)) =
        store_list SS 0 (plain_layout cfg s) := by
      rw [hlay, store_list_append, store_list_append]; simp
    have hlen : (plain_layout cfg s).length =
        s.length + 2 * cfg.CONFIG_LED_7SEG_DIGIT := by
      rw [hlay]; simp; omega
    have hy : to_uint cfg ((cfg.CONFIG_LED_7SEG_DIGIT + (s.length - 0) +
        cfg.CONFIG_LED_7SEG_DIGIT : Nat) : Int) = s.length + 2 * cfg.CONFIG_LED_7SEG_DIGIT := by
      have h1 : cfg.CONFIG_LED_7SEG_DIGIT + (s.length - 0) + cfg.CONFIG_LED_7SEG_DIGIT =
          s.length + 2 * cfg.CONFIG_LED_7SEG_DIGIT := by omega
      rw [h1]; exact to_uint_of_lt cfg _ (by omega)
    rw [if_neg hle]
    dsimp only
    rw [fill_blanks_eq, htr 0 _ _ (by omega) (by omega)]
    dsimp only
    rw [if_neg (by simp), if_pos hlt]
    dsimp only
    rw [fill_blanks_eq, hstore, hy, hlen]

/-- Where the length check lets the call through, `sevenseg_print` of a plain
text of `n` characters returns 0; the cells of `string` up to `string_len` are
those of the layout, and `string_len` is `CONFIG_LED_7SEG_DIGIT` when the text
fits the display and `n + 2 * CONFIG_LED_7SEG_DIGIT` when it does not. -/
theorem sevenseg_print_plain_layout (cfg : LedConfig) (SS : SevenSeg) (s tail : List Int)
    (hb : SS.busyedit = true)
    (hcheck : cfg.pointer_size ≤ cfg.CONFIG_LED_7SEG_STRLEN - 2 * cfg.CONFIG_LED_7SEG_DIGIT)
    (hs : plain_text s)
    (hfit : s.length + 2 * cfg.CONFIG_LED_7SEG_DIGIT ≤ cfg.CONFIG_LED_7SEG_STRLEN)
    (hsz : cfg.CONFIG_LED_7SEG_STRLEN < 2 ^ cfg.size_bits)
    (hu : cfg.CONFIG_LED_7SEG_STRLEN < 2 ^ cfg.uint_bits) :
    ∃ SS', sevenseg_print cfg SS (s ++ 0 :: tail) = some (0, SS') ∧
      (List.range SS'.string_len).map SS'.string = plain_layout cfg s ∧
      SS'.string_len =
        (if s.length ≤ cfg.CONFIG_LED_7SEG_DIGIT then cfg.CONFIG_LED_7SEG_DIGIT
         else s.length + 2 * cfg.CONFIG_LED_7SEG_DIGIT) := by
  refine ⟨_, sevenseg_print_plain cfg SS s tail hb hcheck hs hfit hsz hu, ?_, ?_⟩
  · show (List.range (plain_layout cfg s).length).map
      (store_list SS 0 (plain_layout cfg s)).string = plain_layout cfg s
    rw [List.range_eq_range']
    exact store_list_cells _ 0 SS
  · show (plain_layout cfg s).length = _
    unfold plain_layout
    split_ifs <;> simp <;> omega

/-- C24. With four digits, a display string of nine cells and four-byte
pointers, the plain text `1`, whose 1 + 2 * 4 cells are within the buffer, is
refused on an editable display: `sevenseg_print` returns -2 and writes
nothing (`string_len` stays 4, cell 3 stays 0).  With a display string of
sixteen cells the same call returns 0 with `string_len` 4 and the pattern of
`1` in the last cell, after three space patterns. -/
theorem sevenseg_print_plain_text_refused :
    plain_text [49] ∧
      [49].length + 2 * sample_led_small.CONFIG_LED_7SEG_DIGIT ≤
        sample_led_small.CONFIG_LED_7SEG_STRLEN ∧
      (sevenseg_print sample_led_small sample_display [49, 0]).map
        (fun r => (r.1, r.2.string_len, (List.range 4).map r.2.string)) =
        some (-2, 4, [0, 0, 0, 0]) ∧
      (sevenseg_print sample_led sample_display [49, 0]).map
        (fun r => (r.1, r.2.string_len, (List.range 4).map r.2.string)) =
        some (0, 4, [39, 39, 39, 2]) := by
  decide

end Led7Seg
